import Mathlib

/-!
# celestiabox: chunking, manifest and reconstruction

A shallow embedding of `main.go`: the splitter (`split`), the blob-store wrapper
(`CelestiaDA.Store`, `CelestiaDA.Read`), the submit branch of `main`, and the Go
library routines they call (`encoding/hex`, `strconv.ParseUint`, `strings.Split`,
`fmt.Sprintf("%d")`, `encoding/json` on the `Manifest` type).

Go strings and byte slices are both sequences of bytes; they are modelled as
`List (Fin 256)`.  Go `int` values are `Int` (wrapped explicitly where the program
adds them), `uint64` values are `Nat` below `2 ^ 64`.
-/

namespace Celestiabox

set_option maxRecDepth 8000

/-! ## Bytes, errors, faults -/

abbrev Byte := Fin 256
abbrev Bytes := List Byte

deriving instance DecidableEq for Except

/-- Run-time faults of the Go program (panics), and exhaustion of the loop budget of the
model of `split` (which `split_never_out_of_fuel` shows never happens). -/
inductive Fault
  | divideByZero
  | makesliceCap
  | sliceBounds
  | fuel
  deriving DecidableEq, Repr

/-- Error values that travel through `Store` and `Read`. -/
inductive Error
  /-- The `hex.InvalidByteError(b)` value. -/
  | hexInvalidByte (b : Byte)
  /-- The `hex.ErrLength` value. -/
  | hexLength
  /-- A `*strconv.NumError` with `Func = "ParseUint"`, `Num = s`, `Err = ErrSyntax`. -/
  | parseUintSyntax (s : Bytes)
  /-- A `*strconv.NumError` with `Func = "ParseUint"`, `Num = s`, `Err = ErrRange`. -/
  | parseUintRange (s : Bytes)
  /-- The value of `fmt.Errorf("Invalid chunk blob format")`. -/
  | invalidChunkBlobFormat
  /-- The value of `fmt.Errorf("Error decoding hex string for commitment:", err)`. -/
  | commitmentHex (err : Error)
  /-- The value of `errors.New("namespace id cannot be blank")`. -/
  | namespaceBlank
  /-- The value of `errors.New("unexpected response code")`. -/
  | unexpectedResponseCode
  /-- An error produced by an external collaborator (node client, namespace or blob
  constructor, file system, MIME sniffer). -/
  | external (code : Nat)
  deriving DecidableEq, Repr

/-! ## Go library routines used by the program -/

def slash : Byte := 47

/-- The table `"0123456789abcdef"` of `encoding/hex`. -/
def hexDigit (n : Nat) : Byte :=
  if n < 10 then Fin.ofNat (48 + n) else Fin.ofNat (87 + n)

/-- Go `hex.EncodeToString`. -/
def hexEncodeToString : Bytes → Bytes
  | [] => []
  | b :: rest => hexDigit (b.val / 16) :: hexDigit (b.val % 16) :: hexEncodeToString rest

/-- The reverse table of `encoding/hex`: the value of a hex digit of either case. -/
def fromHexChar (c : Byte) : Option Nat :=
  if 48 ≤ c.val ∧ c.val ≤ 57 then some (c.val - 48)
  else if 97 ≤ c.val ∧ c.val ≤ 102 then some (c.val - 97 + 10)
  else if 65 ≤ c.val ∧ c.val ≤ 70 then some (c.val - 65 + 10)
  else none

/-- Go `hex.DecodeString`: pairs are decoded left to right, the first bad character is
reported; a dangling last character is reported as bad when it is no hex digit and as
`ErrLength` otherwise. -/
def hexDecodeString : Bytes → Except Error Bytes
  | [] => .ok []
  | [p] => if fromHexChar p = none then .error (.hexInvalidByte p) else .error .hexLength
  | p :: q :: rest =>
    match fromHexChar p, fromHexChar q with
    | none, _ => .error (.hexInvalidByte p)
    | some _, none => .error (.hexInvalidByte q)
    | some a, some b =>
      match hexDecodeString rest with
      | .ok bs => .ok (Fin.ofNat (a * 16 + b) :: bs)
      | .error e => .error e

def maxUint64 : Nat := 2 ^ 64 - 1

/-- The digit loop of Go `strconv.ParseUint(s, 10, 64)`; `s0` is the whole input, kept for
the error value, `n` the value read so far. -/
def parseUintLoop (s0 : Bytes) : Bytes → Nat → Except Error Nat
  | [], n => .ok n
  | c :: cs, n =>
    if 48 ≤ c.val ∧ c.val ≤ 57 then
      if n ≥ maxUint64 / 10 + 1 then .error (.parseUintRange s0)
      else if n * 10 + (c.val - 48) > maxUint64 then .error (.parseUintRange s0)
      else parseUintLoop s0 cs (n * 10 + (c.val - 48))
    else .error (.parseUintSyntax s0)

/-- Go `strconv.ParseUint(s, 10, 64)`. -/
def parseUint (s : Bytes) : Except Error Nat :=
  if s = [] then .error (.parseUintSyntax s) else parseUintLoop s s 0

/-- The digit loop of Go `strconv.FormatUint(n, 10)`: digits are produced from the least
significant one and prepended to `acc`. -/
def formatUintLoop : Nat → Nat → Bytes → Bytes
  | 0, _, acc => acc
  | fuel + 1, n, acc =>
    if n < 10 then Fin.ofNat (48 + n) :: acc
    else formatUintLoop fuel (n / 10) (Fin.ofNat (48 + n % 10) :: acc)

/-- The text of `fmt.Sprintf("%d", n)` for an unsigned `n`.  The budget `n + 1` of the digit
loop is never used up (`formatUintLoop_budget`). -/
def formatUint (n : Nat) : Bytes := formatUintLoop (n + 1) n []

/-- Go `strings.Split(s, sep)` for a one-byte separator. -/
def stringsSplit (sep : Byte) : Bytes → List Bytes
  | [] => [[]]
  | c :: cs =>
    if c = sep then [] :: stringsSplit sep cs
    else
      match stringsSplit sep cs with
      | [] => [[c]]
      | p :: ps => (c :: p) :: ps

/-! ## The splitter -/

/-- The `for len(buf) >= lim` loop of `split`: `buf` is the unread rest, `chunks` the
slices appended so far. -/
def splitLoop (lim : Int) : Nat → Bytes → List Bytes → Except Fault (Bytes × List Bytes)
  | 0, _, _ => .error .fuel
  | fuel + 1, buf, chunks =>
    if (buf.length : Int) ≥ lim then
      if lim < 0 then .error .sliceBounds
      else splitLoop lim fuel (buf.drop lim.toNat) (chunks ++ [buf.take lim.toNat])
    else .ok (buf, chunks)

/-- Go `split(buf, lim)`.  `len(buf)/lim` panics for `lim = 0`, `make` panics on a negative
capacity, and the first slice expression panics for a negative `lim`. -/
def split (buf : Bytes) (lim : Int) : Except Fault (List Bytes) :=
  if lim = 0 then .error .divideByZero
  else if (buf.length : Int).tdiv lim + 1 < 0 then .error .makesliceCap
  else
    match splitLoop lim (buf.length + 1) buf [] with
    | .error f => .error f
    | .ok (rest, chunks) => .ok (if rest.length > 0 then chunks ++ [rest] else chunks)

/-! ## The manifest and its JSON form -/

structure Chunk where
  Blob : Bytes
  Size : Int
  deriving DecidableEq, Repr

structure Manifest where
  Name : Bytes
  MimeType : Bytes
  Size : Int
  Chunks : List Chunk
  deriving DecidableEq, Repr

/-- The bytes of an ASCII string literal. -/
def ascii (s : String) : Bytes := s.toList.map (fun c => Fin.ofNat c.toNat)

def runeError : Nat := 0xFFFD

/-- A UTF-8 continuation byte. -/
def isCont (b : Byte) : Bool := 0x80 ≤ b.val && b.val ≤ 0xBF

/-- Go `utf8.DecodeRune`: the first rune of the input and its width in bytes; an invalid or
truncated encoding gives `(RuneError, 1)`, the empty input `(RuneError, 0)`. -/
def decodeRune : Bytes → Nat × Nat
  | [] => (runeError, 0)
  | b0 :: rest =>
    if b0.val < 0x80 then (b0.val, 1)
    else if 0xC2 ≤ b0.val ∧ b0.val ≤ 0xDF then
      match rest with
      | b1 :: _ =>
        if isCont b1 then (b0.val % 32 * 64 + b1.val % 64, 2) else (runeError, 1)
      | _ => (runeError, 1)
    else if 0xE0 ≤ b0.val ∧ b0.val ≤ 0xEF then
      match rest with
      | b1 :: b2 :: _ =>
        if (if b0.val = 0xE0 then 0xA0 else 0x80) ≤ b1.val ∧
            b1.val ≤ (if b0.val = 0xED then 0x9F else 0xBF) ∧ isCont b2 then
          (b0.val % 16 * 4096 + b1.val % 64 * 64 + b2.val % 64, 3)
        else (runeError, 1)
      | _ => (runeError, 1)
    else if 0xF0 ≤ b0.val ∧ b0.val ≤ 0xF4 then
      match rest with
      | b1 :: b2 :: b3 :: _ =>
        if (if b0.val = 0xF0 then 0x90 else 0x80) ≤ b1.val ∧
            b1.val ≤ (if b0.val = 0xF4 then 0x8F else 0xBF) ∧ isCont b2 ∧ isCont b3 then
          (b0.val % 8 * 262144 + b1.val % 64 * 4096 + b2.val % 64 * 64 + b3.val % 64, 4)
        else (runeError, 1)
      | _ => (runeError, 1)
    else (runeError, 1)

/-- Go `utf8.AppendRune`: surrogates and values above `U+10FFFF` are written as
`U+FFFD`. -/
def encodeRune (r : Nat) : Bytes :=
  if r ≤ 0x7F then [Fin.ofNat r]
  else if r ≤ 0x7FF then [Fin.ofNat (0xC0 + r / 64), Fin.ofNat (0x80 + r % 64)]
  else if r > 0x10FFFF ∨ (0xD800 ≤ r ∧ r ≤ 0xDFFF) then [0xEF, 0xBF, 0xBD]
  else if r ≤ 0xFFFF then
    [Fin.ofNat (0xE0 + r / 4096), Fin.ofNat (0x80 + r / 64 % 64), Fin.ofNat (0x80 + r % 64)]
  else
    [Fin.ofNat (0xF0 + r / 262144), Fin.ofNat (0x80 + r / 4096 % 64),
      Fin.ofNat (0x80 + r / 64 % 64), Fin.ofNat (0x80 + r % 64)]

/-! ### Encoding (`json.Marshal`) -/

/-- The escape written by `encoding/json` for an ASCII byte outside its `htmlSafeSet`
(control characters, the double quote, the backslash, and `<`, `>`, `&`).  `\b` and `\f`
are written as two-character escapes, as Go 1.22 and later do; earlier releases write
`\u0008` and `\u000c`, which decode to the same bytes. -/
def escapeAscii (b : Byte) : Bytes :=
  if b = 92 ∨ b = 34 then [92, b]
  else if b = 8 then [92, 98]
  else if b = 12 then [92, 102]
  else if b = 10 then [92, 110]
  else if b = 13 then [92, 114]
  else if b = 9 then [92, 116]
  else if b.val < 0x20 ∨ b = 60 ∨ b = 62 ∨ b = 38 then
    [92, 117, 48, 48, hexDigit (b.val / 16), hexDigit (b.val % 16)]
  else [b]

/-- The body of a JSON string as `encoding/json` writes it (`appendString` with HTML
escaping on): invalid UTF-8 becomes the escape of `U+FFFD`, `U+2028` and `U+2029` are escaped, every
other rune is copied. -/
def appendStringLoop : Nat → Bytes → Bytes
  | 0, _ => []
  | _ + 1, [] => []
  | fuel + 1, b :: rest =>
    if b.val < 0x80 then escapeAscii b ++ appendStringLoop fuel rest
    else
      let (c, size) := decodeRune (b :: rest)
      if c = runeError ∧ size = 1 then
        [92, 117, 102, 102, 102, 100] ++ appendStringLoop fuel rest
      else if c = 0x2028 ∨ c = 0x2029 then
        [92, 117, 50, 48, 50, hexDigit (c % 16)] ++
          appendStringLoop fuel ((b :: rest).drop size)
      else (b :: rest).take size ++ appendStringLoop fuel ((b :: rest).drop size)

/-- A Go string as a JSON string.  Every round of the loop takes at least one byte, so the
budget `s.length` is never used up (`appendStringLoop_budget`). -/
def jsonString (s : Bytes) : Bytes := 34 :: appendStringLoop s.length s ++ [34]

/-- Go `strconv.AppendInt(_, i, 10)`. -/
def formatInt (i : Int) : Bytes :=
  if i < 0 then 45 :: formatUint (-i).toNat else formatUint i.toNat

/-- One `Chunk` as a JSON object. -/
def jsonChunk (c : Chunk) : Bytes :=
  [123] ++ jsonString (ascii "blob") ++ [58] ++ jsonString c.Blob ++ [44] ++
    jsonString (ascii "size") ++ [58] ++ formatInt c.Size ++ [125]

/-- The elements of a JSON array, comma separated. -/
def jsonChunkList : List Chunk → Bytes
  | [] => []
  | [c] => jsonChunk c
  | c :: cs => jsonChunk c ++ [44] ++ jsonChunkList cs

/-- The `chunks` field: Go writes a nil slice as `null`.  In this program a `Chunks` slice
without elements is always the nil slice. -/
def jsonChunks (cs : List Chunk) : Bytes :=
  if cs = [] then ascii "null" else [91] ++ jsonChunkList cs ++ [93]

/-- Go `json.Marshal(manifest)`; it cannot fail on this type. -/
def jsonMarshal (m : Manifest) : Bytes :=
  [123] ++ jsonString (ascii "name") ++ [58] ++ jsonString m.Name ++ [44] ++
    jsonString (ascii "mimeType") ++ [58] ++ jsonString m.MimeType ++ [44] ++
    jsonString (ascii "size") ++ [58] ++ formatInt m.Size ++ [44] ++
    jsonString (ascii "chunks") ++ [58] ++ jsonChunks m.Chunks ++ [125]

/-! ### Decoding (`json.Unmarshal`) -/

/-- A JSON text as the scanner of `encoding/json` delimits it: numbers keep their literal,
strings their body between the quotes, escapes included. -/
inductive JVal
  | null
  | bool (b : Bool)
  | num (lit : Bytes)
  | str (raw : Bytes)
  | arr (xs : List JVal)
  | obj (kvs : List (Bytes × JVal))

def isSpace (b : Byte) : Bool := b = 32 || b = 9 || b = 13 || b = 10

def skipSpace : Bytes → Bytes
  | [] => []
  | b :: rest => if isSpace b then skipSpace rest else b :: rest

def isDigit (b : Byte) : Bool := 48 ≤ b.val && b.val ≤ 57

def isHex (b : Byte) : Bool := (fromHexChar b).isSome

/-- The body of a string after its opening quote, up to the closing quote: control
characters are refused, a backslash must start one of the escapes of JSON. -/
def scanString : Bytes → Option (Bytes × Bytes)
  | [] => none
  | b :: rest =>
    if b = 34 then some ([], rest)
    else if b = 92 then
      match rest with
      | [] => none
      | e :: rest1 =>
        if e = 117 then
          match rest1 with
          | h1 :: h2 :: h3 :: h4 :: rest2 =>
            if isHex h1 && isHex h2 && isHex h3 && isHex h4 then
              match scanString rest2 with
              | some (body, r) => some (b :: e :: h1 :: h2 :: h3 :: h4 :: body, r)
              | none => none
            else none
          | _ => none
        else if e = 34 ∨ e = 92 ∨ e = 47 ∨ e = 98 ∨ e = 102 ∨ e = 110 ∨ e = 114 ∨ e = 116 then
          match scanString rest1 with
          | some (body, r) => some (b :: e :: body, r)
          | none => none
        else none
    else if b.val < 0x20 then none
    else
      match scanString rest with
      | some (body, r) => some (b :: body, r)
      | none => none

/-- The longest run of decimal digits at the front of the input. -/
def takeDigits : Bytes → Bytes × Bytes
  | [] => ([], [])
  | b :: rest =>
    if isDigit b then ((takeDigits rest).1.cons b, (takeDigits rest).2) else ([], b :: rest)

/-- The optional exponent of a number. -/
def scanExp (lit : Bytes) (inp : Bytes) : Option (Bytes × Bytes) :=
  match inp with
  | e :: rest =>
    if e = 101 ∨ e = 69 then
      match rest with
      | sg :: rest1 =>
        if sg = 43 ∨ sg = 45 then
          if (takeDigits rest1).1 = [] then none
          else some (lit ++ e :: sg :: (takeDigits rest1).1, (takeDigits rest1).2)
        else if (takeDigits rest).1 = [] then none
        else some (lit ++ e :: (takeDigits rest).1, (takeDigits rest).2)
      | [] => none
    else some (lit, inp)
  | [] => some (lit, inp)

/-- The optional fraction of a number, then its exponent. -/
def scanFrac (lit : Bytes) (inp : Bytes) : Option (Bytes × Bytes) :=
  match inp with
  | d :: rest =>
    if d = 46 then
      if (takeDigits rest).1 = [] then none
      else scanExp (lit ++ d :: (takeDigits rest).1) (takeDigits rest).2
    else scanExp lit inp
  | [] => some (lit, inp)

/-- The integer part of a number after its optional sign: `0`, or a nonzero digit and
more digits. -/
def scanInt (sign : Bytes) (inp : Bytes) : Option (Bytes × Bytes) :=
  match inp with
  | d :: rest =>
    if d = 48 then scanFrac (sign ++ [d]) rest
    else if 49 ≤ d.val ∧ d.val ≤ 57 then
      scanFrac (sign ++ d :: (takeDigits rest).1) (takeDigits rest).2
    else none
  | [] => none

/-- A number literal. -/
def scanNumber (inp : Bytes) : Option (Bytes × Bytes) :=
  match inp with
  | s :: rest => if s = 45 then scanInt [s] rest else scanInt [] inp
  | [] => none

/-- Strips `lit` from the front of the input. -/
def scanLiteral (lit : Bytes) (inp : Bytes) : Option Bytes :=
  if inp.take lit.length = lit then some (inp.drop lit.length) else none

/-- The rest of an array after `[` and a first look at a value: values separated by commas,
closed by `]`.  `fuel` bounds the number of rounds; the length of the input is always
enough (`parse_loops_budget`). -/
def parseElems (pv : Bytes → Option (JVal × Bytes)) :
    Nat → Bytes → List JVal → Option (List JVal × Bytes)
  | 0, _, _ => none
  | fuel + 1, inp, acc =>
    match pv inp with
    | none => none
    | some (v, r) =>
      match skipSpace r with
      | c :: r1 =>
        if c = 44 then parseElems pv fuel r1 (acc ++ [v])
        else if c = 93 then some (acc ++ [v], r1)
        else none
      | [] => none

/-- The members of an object from its first key on: `"key" : value` separated by commas,
closed by `}`.  `fuel` bounds the number of rounds; the length of the input is always
enough (`parse_loops_budget`). -/
def parseMembers (pv : Bytes → Option (JVal × Bytes)) :
    Nat → Bytes → List (Bytes × JVal) → Option (List (Bytes × JVal) × Bytes)
  | 0, _, _ => none
  | fuel + 1, inp, acc =>
    match skipSpace inp with
    | q :: r0 =>
      if q = 34 then
        match scanString r0 with
        | none => none
        | some (key, r1) =>
          match skipSpace r1 with
          | col :: r2 =>
            if col = 58 then
              match pv r2 with
              | none => none
              | some (v, r3) =>
                match skipSpace r3 with
                | c :: r4 =>
                  if c = 44 then parseMembers pv fuel r4 (acc ++ [(key, v)])
                  else if c = 125 then some (acc ++ [(key, v)], r4)
                  else none
                | [] => none
            else none
          | [] => none
      else none
    | [] => none

/-- One JSON value after optional white space; `sub` reads the values nested in an array
or object and is absent once the nesting budget is used up. -/
def parseValueWith (sub : Option (Bytes → Option (JVal × Bytes))) (inp : Bytes) :
    Option (JVal × Bytes) :=
  match skipSpace inp with
  | [] => none
  | c :: rest =>
    if c = 123 then
      match sub with
      | none => none
      | some pv =>
        match skipSpace rest with
        | c1 :: rest1 =>
          if c1 = 125 then some (.obj [], rest1)
          else
            match parseMembers pv rest.length rest [] with
            | some (kvs, r) => some (.obj kvs, r)
            | none => none
        | [] => none
    else if c = 91 then
      match sub with
      | none => none
      | some pv =>
        match skipSpace rest with
        | c1 :: rest1 =>
          if c1 = 93 then some (.arr [], rest1)
          else
            match parseElems pv rest.length rest [] with
            | some (xs, r) => some (.arr xs, r)
            | none => none
        | [] => none
    else if c = 34 then
      match scanString rest with
      | some (body, r) => some (.str body, r)
      | none => none
    else if c = 116 then (scanLiteral (ascii "true") (c :: rest)).map (fun r => (.bool true, r))
    else if c = 102 then (scanLiteral (ascii "false") (c :: rest)).map (fun r => (.bool false, r))
    else if c = 110 then (scanLiteral (ascii "null") (c :: rest)).map (fun r => (.null, r))
    else
      match scanNumber (c :: rest) with
      | some (lit, r) => some (.num lit, r)
      | none => none

/-- A JSON value nested at most `depth` arrays or objects deep. -/
def parseValue : Nat → Bytes → Option (JVal × Bytes)
  | 0, inp => parseValueWith none inp
  | depth + 1, inp => parseValueWith (some (fun x => parseValue depth x)) inp

/-- The nesting limit of the scanner of `encoding/json`. -/
def maxNestingDepth : Nat := 10000

/-- The syntax check of `json.Unmarshal`: one value, white space around it, nothing else. -/
def jsonParse (data : Bytes) : Option JVal :=
  match parseValue maxNestingDepth data with
  | some (v, r) => if skipSpace r = [] then some v else none
  | none => none

/-- Go `getu4`: the code unit of a `\uXXXX` escape at the front of the input. -/
def getu4 : Bytes → Option Nat
  | b :: u :: h1 :: h2 :: h3 :: h4 :: _ =>
    if b = 92 ∧ u = 117 then
      match fromHexChar h1, fromHexChar h2, fromHexChar h3, fromHexChar h4 with
      | some a, some b, some c, some d => some (a * 4096 + b * 256 + c * 16 + d)
      | _, _, _, _ => none
    else none
  | _ => none

/-- One round of the loop of Go `unquoteBytes`, at the byte `c` followed by `rest`: the
bytes it writes and the input it leaves.  Escapes are replaced, an unpaired surrogate and
invalid UTF-8 become `U+FFFD`. -/
def unquoteStep (c : Byte) (rest : Bytes) : Option (Bytes × Bytes) :=
  if c = 92 then
    match rest with
    | [] => none
    | e :: rest1 =>
      if e = 34 ∨ e = 92 ∨ e = 47 ∨ e = 39 then some ([e], rest1)
      else if e = 98 then some ([8], rest1)
      else if e = 102 then some ([12], rest1)
      else if e = 110 then some ([10], rest1)
      else if e = 114 then some ([13], rest1)
      else if e = 116 then some ([9], rest1)
      else if e = 117 then
        match getu4 (c :: rest) with
        | none => none
        | some rr =>
          if 0xD800 ≤ rr ∧ rr < 0xE000 then
            match getu4 (rest1.drop 4) with
            | some rr1 =>
              if rr < 0xDC00 ∧ 0xDC00 ≤ rr1 ∧ rr1 < 0xE000 then
                some (encodeRune ((rr - 0xD800) * 1024 + (rr1 - 0xDC00) + 0x10000),
                  rest1.drop 10)
              else some (encodeRune runeError, rest1.drop 4)
            | none => some (encodeRune runeError, rest1.drop 4)
          else some (encodeRune rr, rest1.drop 4)
      else none
  else if c = 34 ∨ c.val < 0x20 then none
  else if c.val < 0x80 then some ([c], rest)
  else
    some (encodeRune (decodeRune (c :: rest)).1, (c :: rest).drop (decodeRune (c :: rest)).2)

/-- The loop of Go `unquoteBytes` over the body of a string. -/
def unquoteLoop : Nat → Bytes → Option Bytes
  | _, [] => some []
  | 0, _ :: _ => none
  | fuel + 1, c :: rest =>
    match unquoteStep c rest with
    | none => none
    | some (out, r) =>
      match unquoteLoop fuel r with
      | none => none
      | some t => some (out ++ t)

/-- Go `unquoteBytes` on the body of a string.  The budget `raw.length` is never used up
(`unquoteLoop_budget`), and the result is never `none` on a body the scanner accepted
(`unquoteLoop_ok`). -/
def unquote (raw : Bytes) : Option Bytes := unquoteLoop raw.length raw

/-- The least rune of the case-folding orbit of `r`, for the two orbits that hold an ASCII
letter beside its other case: the Kelvin sign folds with `K`, the long s with `S`.  Every
other rune above `U+007F` folds away from ASCII and is left as it is. -/
def foldRune (r : Nat) : Nat := if r = 0x212A then 0x4B else if r = 0x17F then 0x53 else r

def foldNameLoop : Nat → Bytes → Bytes
  | _, [] => []
  | 0, _ :: _ => []
  | fuel + 1, c :: rest =>
    if c.val < 0x80 then
      (if 97 ≤ c.val ∧ c.val ≤ 122 then Fin.ofNat (c.val - 32) else c) :: foldNameLoop fuel rest
    else
      encodeRune (foldRune (decodeRune (c :: rest)).1) ++
        foldNameLoop fuel ((c :: rest).drop (decodeRune (c :: rest)).2)

/-- The `foldName` of `encoding/json`: equal results mean equal names up to case.  The
budget `s.length` is never used up (`foldNameLoop_budget`). -/
def foldName (s : Bytes) : Bytes := foldNameLoop s.length s

/-- A key of the input names the field `name`: exactly, or up to case. -/
def keyIs (name key : Bytes) : Bool := key = name || foldName key = foldName name

/-- Go `strconv.ParseInt(s, 10, 64)`, without the error value. -/
def parseInt (s : Bytes) : Option Int :=
  match s with
  | [] => none
  | c :: rest =>
    match parseUint (if c = 43 ∨ c = 45 then rest else s) with
    | .error _ => none
    | .ok un =>
      if c = 45 then (if un > 2 ^ 63 then none else some (-(un : Int)))
      else if un ≥ 2 ^ 63 then none else some (un : Int)

/-- A value stored into a `string` field: `null` leaves the field as it is, anything but a
string is a type error. -/
def storeString (v : JVal) (old : Bytes) : Option Bytes :=
  match v with
  | .str raw => unquote raw
  | .null => some old
  | _ => none

/-- A value stored into an `int` field: `null` leaves the field as it is, the literal must
be an integer within 64 bits. -/
def storeInt (v : JVal) (old : Int) : Option Int :=
  match v with
  | .num lit => parseInt lit
  | .null => some old
  | _ => none

/-- The members of an object applied in order to a struct value. -/
def foldMembers {α : Type} (f : α → Bytes × JVal → Option α) : List (Bytes × JVal) → α → Option α
  | [], a => some a
  | kv :: kvs, a =>
    match f a kv with
    | none => none
    | some a1 => foldMembers f kvs a1

def chunkMember (c : Chunk) (kv : Bytes × JVal) : Option Chunk :=
  match unquote kv.1 with
  | none => none
  | some key =>
    if keyIs (ascii "blob") key then (storeString kv.2 c.Blob).map (fun b => { c with Blob := b })
    else if keyIs (ascii "size") key then (storeInt kv.2 c.Size).map (fun n => { c with Size := n })
    else some c

/-- A value stored into a `Chunk` variable that holds `c`: Go stores the members of an object
into the fields of the value already there, and leaves the value as it is on `null`. -/
def decodeChunk (c : Chunk) (v : JVal) : Option Chunk :=
  match v with
  | .obj kvs => foldMembers chunkMember kvs c
  | .null => some c
  | _ => none

/-- The elements of an array stored index by index into a slice whose backing array holds
`old`: element `i` is stored into what the array holds at index `i` (Go decodes into
`v.Index(i)` without clearing it), into a zero `Chunk` beyond what it holds. -/
def decodeChunkList : List JVal → List Chunk → Option (List Chunk)
  | [], _ => some []
  | v :: vs, old =>
    match decodeChunk (old.headD ⟨[], 0⟩) v, decodeChunkList vs old.tail with
    | some c, some cs => some (c :: cs)
    | _, _ => none

/-- The `manifest` variable while `json.Unmarshal` fills it: its fields, and what the backing
array of `Chunks` still holds beyond the length of the slice.  The latter is what an earlier
and longer `chunks` array of the same text left behind; a later array reads it again. -/
structure Decoding where
  manifest : Manifest
  spare : List Chunk

/-- A value stored into the `Chunks` field, as the `array` method of the decoder does.  The
elements of a nonempty array are stored into the elements the backing array already holds,
the slice gets the length of the array and the rest of the backing array stays.  An empty
array gives a fresh empty slice, `null` the nil slice. -/
def storeChunks (v : JVal) (d : Decoding) : Option Decoding :=
  match v with
  | .arr xs =>
    if xs.isEmpty then some { manifest := { d.manifest with Chunks := [] }, spare := [] }
    else
      match decodeChunkList xs (d.manifest.Chunks ++ d.spare) with
      | none => none
      | some cs =>
        some { manifest := { d.manifest with Chunks := cs },
               spare := (d.manifest.Chunks ++ d.spare).drop xs.length }
  | .null => some { manifest := { d.manifest with Chunks := [] }, spare := [] }
  | _ => none

def manifestMember (d : Decoding) (kv : Bytes × JVal) : Option Decoding :=
  match unquote kv.1 with
  | none => none
  | some key =>
    if keyIs (ascii "name") key then
      (storeString kv.2 d.manifest.Name).map
        (fun s => { d with manifest := { d.manifest with Name := s } })
    else if keyIs (ascii "mimeType") key then
      (storeString kv.2 d.manifest.MimeType).map
        (fun s => { d with manifest := { d.manifest with MimeType := s } })
    else if keyIs (ascii "size") key then
      (storeInt kv.2 d.manifest.Size).map
        (fun n => { d with manifest := { d.manifest with Size := n } })
    else if keyIs (ascii "chunks") key then storeChunks kv.2 d
    else some d

/-- Go `json.Unmarshal(data, &manifest)` on a zero `manifest`: `none` stands for a non-nil
error (bad syntax, or a value of the wrong type for a field), `some m` for a nil error
with `m` the manifest afterwards.  Keys that name no field are skipped; a key that comes
again is stored again, into the value the earlier one left. -/
def jsonUnmarshal (data : Bytes) : Option Manifest :=
  match jsonParse data with
  | none => none
  | some (.obj kvs) =>
    (foldMembers manifestMember kvs ⟨⟨[], [], 0, []⟩, []⟩).map (fun d => d.manifest)
  | some .null => some ⟨[], [], 0, []⟩
  | some _ => none

/-! ## The external collaborators -/

/-- What the program uses and does not define: the node client of `celestia-openrpc`
(`openrpc.NewClient`, `Blob.Submit`, `Blob.Get`), its blob and namespace constructors, the
MIME sniffer and the file system.  `State` is the state of the network the client talks
to; heights are `uint64`. -/
structure Node where
  State : Type
  Blob : Type
  /-- Go `openrpc.NewClient(ctx, rpc, authToken)`. -/
  newClient : Bytes → Bytes → Except Error Unit
  /-- Go `share.NewBlobNamespaceV0(id)`. -/
  newBlobNamespaceV0 : Bytes → Except Error Bytes
  /-- Go `blob.NewBlobV0(namespace, data)`. -/
  newBlobV0 : Bytes → Bytes → Except Error Blob
  /-- Go `blob.CreateCommitment(blob)`. -/
  createCommitment : Blob → Except Error Bytes
  /-- Go `client.Blob.Submit` with a single blob: the height it was included at. -/
  blobSubmit : State → Blob → Except Error Nat × State
  /-- Go `client.Blob.Get(ctx, height, namespace, commitment)`, then its `Data`. -/
  blobGet : State → Nat → Bytes → Bytes → Except Error Bytes
  /-- Go `filetype.Match(buf)`, then `MIME.Value`. -/
  filetypeMatch : Bytes → Except Error Bytes
  /-- Go `os.ReadFile`. -/
  readFile : Bytes → Except Error Bytes
  /-- Go `os.WriteFile(name, data, 0644)`. -/
  writeFile : Bytes → Bytes → Option Error
  submit_uint64 : ∀ s b h s1, blobSubmit s b = (.ok h, s1) → h < 2 ^ 64

/-! ## The program -/

structure DAConfig where
  Rpc : Bytes
  NamespaceId : Bytes
  AuthToken : Bytes
  deriving DecidableEq, Repr

/-- The `CelestiaDA` value; its `client` is the `Node`. -/
structure CelestiaDA where
  cfg : DAConfig
  nspace : Bytes
  deriving DecidableEq, Repr

def namespaceHexToBlobNamespaceV0 (n : Node) (namespaceId : Bytes) : Except Error Bytes :=
  match hexDecodeString namespaceId with
  | .error err => .error err
  | .ok nsBytes =>
    match n.newBlobNamespaceV0 nsBytes with
    | .error err => .error err
    | .ok nspace => .ok nspace

def NewCelestiaDA (n : Node) (cfg : DAConfig) : Except Error CelestiaDA :=
  match n.newClient cfg.Rpc cfg.AuthToken with
  | .error err => .error err
  | .ok _ =>
    if cfg.NamespaceId = [] then .error .namespaceBlank
    else
      match namespaceHexToBlobNamespaceV0 n cfg.NamespaceId with
      | .error err => .error err
      | .ok nspace => .ok { cfg := cfg, nspace := nspace }

/-- Go `(*CelestiaDA).Store`: the commitment and the height, or an error; the state of the
network afterwards. -/
def Store (n : Node) (c : CelestiaDA) (s : n.State) (message : Bytes) :
    Except Error (Bytes × Nat) × n.State :=
  match n.newBlobV0 c.nspace message with
  | .error err => (.error err, s)
  | .ok dataBlob =>
    match n.createCommitment dataBlob with
    | .error err => (.error err, s)
    | .ok commitment =>
      match n.blobSubmit s dataBlob with
      | (.error err, s1) => (.error err, s1)
      | (.ok height, s1) =>
        if height = 0 then (.error .unexpectedResponseCode, s1)
        else (.ok (commitment, height), s1)

/-- Go `int` addition: 64 bits, two's complement. -/
def addInt (a b : Int) : Int := (a + b + 2 ^ 63) % 2 ^ 64 - 2 ^ 63

/-- The lines `Read` prints. -/
inductive ReadLine
  /-- Line `Requesting data from Celestia`. -/
  | requesting (namespaceId commitment : Bytes) (height : Nat)
  /-- Line `Succesfully fetched data from Celestia` for the root blob. -/
  | fetched (namespaceId : Bytes) (height : Nat) (commitment : Bytes)
  /-- Line `Detected manifest file, fetching data chunks...`. -/
  | detectedManifest
  /-- Line `Requesting data chunk from Celestia`, with the three fields as text. -/
  | requestingChunk (namespaceId commitment height : Bytes)
  /-- Line `Succesfully fetched data from Celestia` for a chunk, with the running count
  of declared bytes and the declared total. -/
  | fetchedChunk (namespaceId commitment height : Bytes) (bytesFetched size : Int)
  deriving DecidableEq, Repr

/-- One run of `Read`: what it returns (`.error` stands for `nil, err`), the `Blob.Get`
calls it made, in order, as (height, namespace, commitment), and what it printed. -/
structure ReadRun where
  result : Except Error Bytes
  gets : List (Nat × Bytes × Bytes)
  out : List ReadLine
  deriving DecidableEq, Repr

/-- The `for _, chunk := range manifest.Chunks` loop of `Read`, with the accumulator
`data` and the counter `bytesFetched`. -/
def readChunks (n : Node) (s : n.State) (manifestSize : Int) :
    List Chunk → Bytes → Int → ReadRun
  | [], data, _ => ⟨.ok data, [], []⟩
  | chunk :: rest, data, bytesFetched =>
    match stringsSplit slash chunk.Blob with
    | [p0, p1, p2] =>
      match parseUint p0 with
      | .error err => ⟨.error err, [], [.requestingChunk p1 p2 p0]⟩
      | .ok chunkHeight =>
        match namespaceHexToBlobNamespaceV0 n p1 with
        | .error err => ⟨.error err, [], [.requestingChunk p1 p2 p0]⟩
        | .ok chunkNamespace =>
          match hexDecodeString p2 with
          | .error err => ⟨.error err, [], [.requestingChunk p1 p2 p0]⟩
          | .ok commitmentBytes =>
            match n.blobGet s chunkHeight chunkNamespace commitmentBytes with
            | .error err =>
              ⟨.error err, [(chunkHeight, chunkNamespace, commitmentBytes)],
                [.requestingChunk p1 p2 p0]⟩
            | .ok chunkData =>
              let r := readChunks n s manifestSize rest (data ++ chunkData)
                (addInt bytesFetched chunk.Size)
              ⟨r.result, (chunkHeight, chunkNamespace, commitmentBytes) :: r.gets,
                .requestingChunk p1 p2 p0 ::
                  .fetchedChunk p1 p2 p0 (addInt bytesFetched chunk.Size) manifestSize :: r.out⟩
    | _ => ⟨.error .invalidChunkBlobFormat, [], []⟩

/-- Go `(*CelestiaDA).Read`. -/
def Read (n : Node) (c : CelestiaDA) (s : n.State) (commitment : Bytes) (height : Nat) :
    ReadRun :=
  match hexDecodeString commitment with
  | .error err =>
    ⟨.error (.commitmentHex err), [], [.requesting c.cfg.NamespaceId commitment height]⟩
  | .ok commitmentBytes =>
    match n.blobGet s height c.nspace commitmentBytes with
    | .error err =>
      ⟨.error err, [(height, c.nspace, commitmentBytes)],
        [.requesting c.cfg.NamespaceId commitment height]⟩
    | .ok blobData =>
      match jsonUnmarshal blobData with
      | none =>
        ⟨.ok blobData, [(height, c.nspace, commitmentBytes)],
          [.requesting c.cfg.NamespaceId commitment height,
            .fetched c.cfg.NamespaceId height commitment]⟩
      | some manifest =>
        let r := readChunks n s manifest.Size manifest.Chunks [] 0
        ⟨r.result, (height, c.nspace, commitmentBytes) :: r.gets,
          .requesting c.cfg.NamespaceId commitment height ::
            .fetched c.cfg.NamespaceId height commitment :: .detectedManifest :: r.out⟩

def getMimeType (n : Node) (buf : Bytes) : Bytes × Option Error :=
  match n.filetypeMatch buf with
  | .error err => (ascii "application/octet-stream", some err)
  | .ok value => if value = [] then (ascii "application/octet-stream", none) else (value, none)

/-- The command-line flags of `main`. -/
structure Flags where
  mode : Bytes
  filename : Bytes
  commitment : Bytes
  nspace : Bytes
  auth : Bytes
  height : Nat
  rpc : Bytes
  maxBlobSize : Int
  manualMimeType : Bytes
  deriving DecidableEq, Repr

/-- The lines `main` prints. -/
inductive Line
  | supplyAuthToken
  | provideFilename
  | errorCreatingClient (err : Error)
  | errorReadingFile (err : Error)
  /-- Line `Successfully read %d bytes from %s`. -/
  | readBytes (size : Nat) (filename : Bytes)
  | errorMimeType (err : Error)
  | errorSubmittingBlob (err : Error)
  /-- Line `Succesfully submitted blob to Celestia`, with size, height and the commitment
  in hex. -/
  | submittedBlob (size : Nat) (height : Nat) (commitment : Bytes)
  | errorSubmittingManifest (err : Error)
  | separator
  /-- Line `Succesfully submitted manifest blob to Celestia`, with size, height and the
  commitment in hex. -/
  | submittedManifest (size : Nat) (height : Nat) (commitment : Bytes)
  | provideCommitment
  | provideHeight
  | errorReading (err : Error)
  | errorWriting (err : Error)
  | fileWritten
  | invalidMode
  deriving DecidableEq, Repr

/-- The text of `fmt.Sprintf("%d/%s/%s", height, namespaceId, hex.EncodeToString(commitment))`. -/
def locatorString (height : Nat) (namespaceId commitment : Bytes) : Bytes :=
  formatUint height ++ [slash] ++ namespaceId ++ [slash] ++ hexEncodeToString commitment

/-- The `for _, chunk := range chunks` loop of the submit branch. -/
structure ChunkLoop (σ : Type) where
  /-- The loop ran to its end (no `return` on a `Store` error). -/
  completed : Bool
  state : σ
  /-- The messages passed to `Store`, in call order. -/
  stored : List Bytes
  /-- The entries appended to `manifest.Chunks`. -/
  entries : List Chunk
  out : List Line

def submitChunks (n : Node) (c : CelestiaDA) (namespaceId : Bytes) :
    List Bytes → n.State → ChunkLoop n.State
  | [], s => ⟨true, s, [], [], []⟩
  | chunk :: rest, s =>
    match Store n c s chunk with
    | (.error err, s1) => ⟨false, s1, [chunk], [], [.errorSubmittingBlob err]⟩
    | (.ok (commitment, height), s1) =>
      let r := submitChunks n c namespaceId rest s1
      ⟨r.completed, r.state, chunk :: r.stored,
        ⟨locatorString height namespaceId commitment, chunk.length⟩ :: r.entries,
        .submittedBlob chunk.length height (hexEncodeToString commitment) :: r.out⟩

/-- One run of `main`. -/
structure MainRun (σ : Type) where
  state : σ
  /-- The messages passed to `Store`, in call order. -/
  stored : List Bytes
  out : List Line
  /-- The local variable `manifest` when the run ended, if it was reached. -/
  manifest : Option Manifest
  /-- The panic the run ended in, if any. -/
  fault : Option Fault
  /-- The file written by the read branch, as (name, contents). -/
  written : Option (Bytes × Bytes)

/-- The MIME type the submit branch records: the `-mime-type` flag when given, else what
`getMimeType` returns (with the line printed when it also returns an error). -/
def chooseMimeType (n : Node) (flags : Flags) (data : Bytes) : Bytes × List Line :=
  if flags.manualMimeType = [] then
    match getMimeType n data with
    | (t, some err) => (t, [.errorMimeType err])
    | (t, none) => (t, [])
  else (flags.manualMimeType, [])

/-- The submit branch of `main` from the point where the file has been read: `data` is its
contents, `celestiaDA` and `daConfig` the values built before the `switch`.  Go
`json.Marshal` cannot fail on a `Manifest`, so the branch that prints its error has no
counterpart here. -/
def submitFlow (n : Node) (celestiaDA : CelestiaDA) (daConfig : DAConfig) (flags : Flags)
    (data : Bytes) (s : n.State) : MainRun n.State :=
  let mime := chooseMimeType n flags data
  let manifest : Manifest :=
    { Name := flags.filename, MimeType := mime.1, Size := data.length, Chunks := [] }
  let out0 := Line.readBytes data.length flags.filename :: mime.2
  match split data flags.maxBlobSize with
  | .error f => ⟨s, [], out0, some manifest, some f, none⟩
  | .ok chunks =>
    let r := submitChunks n celestiaDA daConfig.NamespaceId chunks s
    let manifest1 := { manifest with Chunks := r.entries }
    if r.completed = false then ⟨r.state, r.stored, out0 ++ r.out, some manifest1, none, none⟩
    else if chunks.length > 1 then
      match Store n celestiaDA r.state (jsonMarshal manifest1) with
      | (.error err, s1) =>
        ⟨s1, r.stored ++ [jsonMarshal manifest1], out0 ++ r.out ++ [.errorSubmittingManifest err],
          some manifest1, none, none⟩
      | (.ok (manifestCommitment, manifestHeight), s1) =>
        ⟨s1, r.stored ++ [jsonMarshal manifest1],
          out0 ++ r.out ++ [.separator,
            .submittedManifest (jsonMarshal manifest1).length manifestHeight
              (hexEncodeToString manifestCommitment)],
          some manifest1, none, none⟩
    else ⟨r.state, r.stored, out0 ++ r.out, some manifest1, none, none⟩

/-- Go `main`, after `flag.Parse()`. -/
def main (n : Node) (flags : Flags) (s : n.State) : MainRun n.State :=
  if flags.auth = [] then ⟨s, [], [.supplyAuthToken], none, none, none⟩
  else if flags.filename = [] then ⟨s, [], [.provideFilename], none, none, none⟩
  else
    let daConfig : DAConfig :=
      { Rpc := flags.rpc, NamespaceId := hexEncodeToString flags.nspace,
        AuthToken := flags.auth }
    match NewCelestiaDA n daConfig with
    | .error err => ⟨s, [], [.errorCreatingClient err], none, none, none⟩
    | .ok celestiaDA =>
      if flags.mode = ascii "submit" then
        match n.readFile flags.filename with
        | .error err => ⟨s, [], [.errorReadingFile err], none, none, none⟩
        | .ok data => submitFlow n celestiaDA daConfig flags data s
      else if flags.mode = ascii "read" then
        if flags.commitment = [] then ⟨s, [], [.provideCommitment], none, none, none⟩
        else if flags.height = 0 then ⟨s, [], [.provideHeight], none, none, none⟩
        else
          match (Read n celestiaDA s flags.commitment flags.height).result with
          | .error err => ⟨s, [], [.errorReading err], none, none, none⟩
          | .ok data =>
            match n.writeFile flags.filename data with
            | some err => ⟨s, [], [.errorWriting err], none, none, some (flags.filename, data)⟩
            | none => ⟨s, [], [.fileWritten], none, none, some (flags.filename, data)⟩
      else ⟨s, [], [.invalidMode], none, none, none⟩

/-- The locator a success line reports, as (height, commitment in hex). -/
def lineRoot (l : Line) : Option (Nat × Bytes) :=
  match l with
  | .submittedBlob _ height commitment => some (height, commitment)
  | .submittedManifest _ height commitment => some (height, commitment)
  | _ => none

/-- The locator on the last success line of a run of the submit branch: the root the
caller keeps, as (height, commitment in hex). -/
def reportedRoot : List Line → Option (Nat × Bytes)
  | [] => none
  | l :: ls =>
    match reportedRoot ls with
    | some r => some r
    | none => lineRoot l

/-! ## An in-memory node -/

/-- A node that keeps every submitted blob: the commitment of a blob is the blob itself,
heights count the blobs and stay within `uint64`; `Get` answers for exactly the
(height, namespace, commitment) triples handed out.  Namespaces are built as
`share.NewBlobNamespaceV0` does for ids of one to ten bytes.  Every file holds `file`. -/
@[reducible]
def memNode (file : Bytes) : Node where
  State := List (Nat × Bytes × Bytes)
  Blob := Bytes × Bytes
  newClient _ _ := .ok ()
  newBlobNamespaceV0 id :=
    if id.length = 0 ∨ id.length > 10 then .error (.external 1)
    else .ok (List.replicate (29 - id.length) 0 ++ id)
  newBlobV0 nspace data := .ok (nspace, data)
  createCommitment b := .ok b.2
  blobSubmit s b := (.ok (s.length % maxUint64 + 1), s ++ [(s.length % maxUint64 + 1, b.1, b.2)])
  blobGet s height nspace commitment :=
    if (height, nspace, commitment) ∈ s then .ok commitment else .error (.external 2)
  filetypeMatch _ := .ok []
  readFile _ := .ok file
  writeFile _ _ := none
  submit_uint64 := by
    intro s b h s1 heq
    simp only [Prod.mk.injEq, Except.ok.injEq] at heq
    have := Nat.mod_lt s.length (show maxUint64 > 0 by decide)
    have h2 : maxUint64 + 1 = 2 ^ 64 := by decide
    omega

/-- The bodies of JSON strings: bytes from `0x20` up other than the quote and the backslash,
and the escapes of JSON. -/
inductive StringBody : Bytes → Prop
  | nil : StringBody []
  | byte (b : Byte) (t : Bytes) : 0x20 ≤ b.val → b ≠ 34 → b ≠ 92 → StringBody t →
      StringBody (b :: t)
  | escape (e : Byte) (t : Bytes) :
      (e = 34 ∨ e = 92 ∨ e = 47 ∨ e = 98 ∨ e = 102 ∨ e = 110 ∨ e = 114 ∨ e = 116) →
      StringBody t → StringBody (92 :: e :: t)
  | unicode (h1 h2 h3 h4 : Byte) (t : Bytes) :
      isHex h1 = true → isHex h2 = true → isHex h3 = true → isHex h4 = true →
      StringBody t → StringBody (92 :: 117 :: h1 :: h2 :: h3 :: h4 :: t)

/-- A byte that `encoding/json` writes and reads as itself: printable ASCII other than the
quote, the backslash and the three characters escaped for HTML. -/
def isPlain (b : Byte) : Bool :=
  0x20 ≤ b.val && b.val < 0x80 && b != 34 && b != 92 && b != 60 && b != 62 && b != 38

/-- The value the scanner delimits in the text `jsonChunk c`. -/
def chunkJVal (c : Chunk) : JVal :=
  .obj [(ascii "blob", .str (appendStringLoop c.Blob.length c.Blob)),
    (ascii "size", .num (formatUint c.Size.toNat))]

/-- The value the scanner delimits in the text `jsonChunks cs`. -/
def chunksJVal (cs : List Chunk) : JVal :=
  if cs = [] then .null else .arr (cs.map chunkJVal)

/-- A `Chunk` that `encoding/json` writes and reads back unchanged: a locator of plain ASCII
and a size that is a slice length. -/
def GoodChunk (c : Chunk) : Prop :=
  (∀ b ∈ c.Blob, isPlain b = true) ∧ 0 ≤ c.Size ∧ c.Size < 2 ^ 63

/-- A reader of values that uses up at least one byte of its input when it succeeds. -/
def Consumes (pv : Bytes → Option (JVal × Bytes)) : Prop :=
  ∀ x v r, pv x = some (v, r) → r.length < x.length

/-! ## Assumptions on the blob store, and the terms of the claims -/

/-- The store accepts every blob: no `Store` call fails, whatever the state of the network
and the message. -/
def Accepts (n : Node) (c : CelestiaDA) : Prop :=
  ∀ (s : n.State) (message : Bytes),
    ∃ commitment height s1, Store n c s message = (.ok (commitment, height), s1)

/-- Fetch returns exactly the bytes stored at a locator: right after a successful `Store`
the `Get` at the returned height and commitment gives the message, and a later `Store`
does not change what a `Get` returns. -/
structure Faithful (n : Node) (c : CelestiaDA) : Prop where
  fetch_stored : ∀ (s : n.State) (message commitment : Bytes) (height : Nat) (s1 : n.State),
    Store n c s message = (.ok (commitment, height), s1) →
      n.blobGet s1 height c.nspace commitment = .ok message
  fetch_kept : ∀ (s : n.State) (message : Bytes) (r : Except Error (Bytes × Nat)) (s1 : n.State)
    (height : Nat) (nspace commitment data : Bytes),
    Store n c s message = (r, s1) → n.blobGet s height nspace commitment = .ok data →
      n.blobGet s1 height nspace commitment = .ok data

/-- The locator text `blob` decodes the way `Read` decodes a chunk entry, to the locator
`g` = (height, namespace, commitment). -/
def DecodesTo (n : Node) (blob : Bytes) (g : Nat × Bytes × Bytes) : Prop :=
  ∃ p0 p1 p2, stringsSplit slash blob = [p0, p1, p2] ∧ parseUint p0 = .ok g.1 ∧
    namespaceHexToBlobNamespaceV0 n p1 = .ok g.2.1 ∧ hexDecodeString p2 = .ok g.2.2

/-- The entry `blob` decodes and the `Get` at its locator returns `data`. -/
def EntryFetches (n : Node) (s : n.State) (blob data : Bytes) : Prop :=
  ∃ g, DecodesTo n blob g ∧ n.blobGet s g.1 g.2.1 g.2.2 = .ok data

def isError {ε α : Type} (r : Except ε α) : Bool :=
  match r with
  | .error _ => true
  | .ok _ => false

/-- A malformed locator string: not exactly three `/`-separated fields, a height that is
not a base-10 `uint64`, or a namespace or commitment that is not valid hex. -/
def malformedLocator (blob : Bytes) : Bool :=
  match stringsSplit slash blob with
  | [p0, p1, p2] =>
    isError (parseUint p0) || isError (hexDecodeString p1) || isError (hexDecodeString p2)
  | _ => true

/-- The number of chunks `ceil(len / lim)`. -/
def ceilDiv (len lim : Nat) : Nat := (len + lim - 1) / lim

/-! ## A concrete setting -/

/-- The configuration `main` builds for the flag `-namespace=ab`. -/
def demoConfig : DAConfig :=
  { Rpc := ascii "http://localhost:26658", NamespaceId := hexEncodeToString (ascii "ab"),
    AuthToken := ascii "token" }

/-- The `CelestiaDA` value `NewCelestiaDA` returns for `demoConfig` on the in-memory node. -/
def demoDA : CelestiaDA :=
  { cfg := demoConfig, nspace := List.replicate 27 0 ++ ascii "ab" }

/-- Flags of a submit run with chunk limit `lim`. -/
def demoFlags (lim : Int) : Flags :=
  { mode := ascii "submit", filename := ascii "payload.bin", commitment := [],
    nspace := ascii "ab", auth := ascii "token", height := 0,
    rpc := ascii "http://localhost:26658", maxBlobSize := lim, manualMimeType := [] }

/-- A manifest with one entry, the locator of the chunk `[1, 2]` at height 1. -/
def demoManifest : Manifest :=
  ⟨ascii "payload.bin", ascii "text/plain", 2,
    [⟨locatorString 1 demoConfig.NamespaceId [1, 2], 2⟩]⟩

/-- The same entries with other declared sizes. -/
def demoManifestResized : Manifest :=
  ⟨ascii "payload.bin", ascii "text/plain", 77,
    [⟨locatorString 1 demoConfig.NamespaceId [1, 2], 99⟩]⟩

/-- A manifest whose only entry is the malformed locator `x`. -/
def badManifestA : Manifest := ⟨ascii "a", ascii "t", 0, [⟨ascii "x", 0⟩]⟩

/-- A manifest with a good entry followed by the malformed locator `y/z`. -/
def badManifestB : Manifest :=
  ⟨ascii "a", ascii "t", 2,
    [⟨locatorString 1 demoConfig.NamespaceId [1, 2], 2⟩, ⟨ascii "y/z", 0⟩]⟩

/-- A state of the in-memory node: the chunk `[1, 2]` at height 1 and four manifests at
heights 2 to 5, all in the namespace of `demoDA`. -/
def demoState : List (Nat × Bytes × Bytes) :=
  [(1, demoDA.nspace, [1, 2]), (2, demoDA.nspace, jsonMarshal demoManifest),
    (3, demoDA.nspace, jsonMarshal demoManifestResized),
    (4, demoDA.nspace, jsonMarshal badManifestA),
    (5, demoDA.nspace, jsonMarshal badManifestB)]

/-- The text `{"chunks":[{"blob":"1/6162/0102"}],"chunks":[{"size":9}]}`, in which the key
`chunks` comes twice: the first array gives the locator of the entry, the second its size. -/
def repeatedKeyRoot : Bytes :=
  ascii ("\x7b\x22chunks\x22:[\x7b\x22blob\x22:\x22" ++ "1/6162/0102" ++
    "\x22\x7d],\x22chunks\x22:[\x7b\x22size\x22:9\x7d]\x7d")

/-- The text `{"chunks":[{"size":5}]}`, whose only entry has no locator. -/
def sizeOnlyRoot : Bytes := ascii "\x7b\x22chunks\x22:[\x7b\x22size\x22:5\x7d]\x7d"

/-- The text `{"chunks":[{"blob":"a"},{"blob":"b"}],"chunks":[{"size":1}],"chunks":[{},null]}`:
the second array cuts the slice to one element, the third reaches the element cut off. -/
def staleElementRoot : Bytes :=
  ascii ("\x7b\x22chunks\x22:[\x7b\x22blob\x22:\x22a\x22\x7d,\x7b\x22blob\x22:\x22b\x22\x7d]," ++
    "\x22chunks\x22:[\x7b\x22size\x22:1\x7d],\x22chunks\x22:[\x7b\x7d,null]\x7d")

/-- The text `{"chunks":[{"blob":"a"}],"chunks":[],"chunks":[{"size":1}]}`: the empty array
in the middle gives a fresh slice. -/
def emptiedRoot : Bytes :=
  ascii ("\x7b\x22chunks\x22:[\x7b\x22blob\x22:\x22a\x22\x7d],\x22chunks\x22:[]," ++
    "\x22chunks\x22:[\x7b\x22size\x22:1\x7d]\x7d")

/-- A state of the in-memory node: the chunk `[1, 2]` at height 1, the root with the repeated
key at height 2 and the root without a locator at height 3. -/
def repeatedKeyState : List (Nat × Bytes × Bytes) :=
  [(1, demoDA.nspace, [1, 2]), (2, demoDA.nspace, repeatedKeyRoot),
    (3, demoDA.nspace, sizeOnlyRoot)]

/-! # Theorems -/

/-! ## Properties of the splitter -/

theorem splitLoop_spec (lim : Nat) (hlim : 0 < lim) :
    ∀ (fuel : Nat) (buf : Bytes) (chunks : List Bytes), buf.length < fuel →
      ∃ rest cs, splitLoop (lim : Int) fuel buf chunks = .ok (rest, chunks ++ cs) ∧
        cs.flatten ++ rest = buf ∧ (∀ c ∈ cs, c.length = lim) ∧ rest.length < lim ∧
        cs.length = buf.length / lim := by
  intro fuel
  induction fuel with
  | zero => intro buf chunks h; omega
  | succ fuel ih =>
    intro buf chunks h
    unfold splitLoop
    by_cases hge : (buf.length : Int) ≥ (lim : Int)
    · have hge' : lim ≤ buf.length := by exact_mod_cast hge
      have hneg : ¬ ((lim : Int) < 0) := by omega
      simp only [hge, hneg, if_true, if_false, Int.toNat_ofNat]
      have hlen : (buf.drop lim).length < fuel := by
        simp only [List.length_drop]; omega
      obtain ⟨rest, cs, h1, h2, h3, h4, h5⟩ := ih (buf.drop lim) (chunks ++ [buf.take lim]) hlen
      refine ⟨rest, buf.take lim :: cs, ?_, ?_, ?_, h4, ?_⟩
      · rw [h1]; simp
      · simp only [List.flatten_cons, List.append_assoc, h2, List.take_append_drop]
      · intro c hc
        rcases List.mem_cons.mp hc with rfl | hc
        · simp only [List.length_take]; omega
        · exact h3 c hc
      · simp only [List.length_cons, h5, List.length_drop]
        have : buf.length = (buf.length - lim) + lim := by omega
        conv_rhs => rw [this]
        rw [Nat.add_div_right _ hlim]
    · have hlt : buf.length < lim := by
        have : (buf.length : Int) < (lim : Int) := by omega
        exact_mod_cast this
      simp only [hge, if_false]
      refine ⟨buf, [], by simp, by simp, by simp, hlt, ?_⟩
      simp [Nat.div_eq_of_lt hlt]

theorem split_spec (buf : Bytes) (lim : Int) (hlim : 0 < lim) :
    ∃ cs rest, split buf lim = .ok (if rest.length > 0 then cs ++ [rest] else cs) ∧
      cs.flatten ++ rest = buf ∧ (∀ c ∈ cs, (c.length : Int) = lim) ∧
      (rest.length : Int) < lim ∧ cs.length = buf.length / lim.toNat := by
  obtain ⟨k, rfl⟩ : ∃ k : Nat, lim = (k : Int) := ⟨lim.toNat, by omega⟩
  have hk : 0 < k := by exact_mod_cast hlim
  obtain ⟨rest, cs, h1, h2, h3, h4, h5⟩ :=
    splitLoop_spec k hk (buf.length + 1) buf [] (Nat.lt_succ_self _)
  refine ⟨cs, rest, ?_, h2, ?_, by exact_mod_cast h4, by simpa using h5⟩
  · have hne : ¬ ((k : Int) = 0) := by omega
    have hcap : ¬ ((buf.length : Int).tdiv (k : Int) + 1 < 0) := by
      have : 0 ≤ (buf.length : Int).tdiv (k : Int) :=
        Int.tdiv_nonneg (Int.ofNat_nonneg _) (Int.ofNat_nonneg _)
      omega
    simp only [split, hne, hcap, if_false, h1, List.nil_append]
  · intro c hc
    exact_mod_cast h3 c hc

/-- The loop budget of the model of `split` is never used up: whatever the arguments, the
result is a list of chunks or one of the panics of the Go code. -/
theorem split_never_out_of_fuel (buf : Bytes) (lim : Int) : split buf lim ≠ .error .fuel := by
  rcases lt_trichotomy lim 0 with h | h | h
  · have hne : ¬ (lim = 0) := by omega
    unfold split
    simp only [hne, if_false]
    split
    · simp
    · have hge : (buf.length : Int) ≥ lim := by omega
      simp [splitLoop, hge, h]
  · simp [split, h]
  · obtain ⟨cs, rest, h1, -⟩ := split_spec buf lim h
    rw [h1]; simp

/-- The chunks `split` returns concatenate to the payload. -/
theorem split_flatten (P : Bytes) (L : Int) (hL : 0 < L) :
    ∃ chunks, split P L = .ok chunks ∧ chunks.flatten = P := by
  obtain ⟨cs, rest, h1, h2, -, -, -⟩ := split_spec P L hL
  refine ⟨_, h1, ?_⟩
  by_cases hr : rest.length > 0
  · rw [if_pos hr]
    simpa using h2
  · rw [if_neg hr]
    have : rest = [] := List.eq_nil_of_length_eq_zero (by omega)
    simpa [this] using h2

/-- C2: for every payload `P` and every limit `L > 0`, `split P L` returns chunks whose
concatenation, in order, is exactly `P`. -/
theorem C2_split_concat (P : Bytes) (L : Int) (hL : 0 < L) :
    ∃ chunks, split P L = .ok chunks ∧ chunks.flatten = P := by
  obtain ⟨cs, rest, h1, h2, -, -, -⟩ := split_spec P L hL
  refine ⟨_, h1, ?_⟩
  split
  · simpa using h2
  · have : rest = [] := by
      cases rest with
      | nil => rfl
      | cons a t => simp at *
    simpa [this] using h2

theorem C2_split_concat_witness :
    (0 : Int) < 2 ∧ ∃ chunks, split [1, 2, 3, 4, 5] 2 = .ok chunks ∧ chunks.flatten = [1, 2, 3, 4, 5] :=
  ⟨by decide, C2_split_concat [1, 2, 3, 4, 5] 2 (by decide)⟩

/-- C3: for every payload `P` and every limit `L > 0`, every chunk of `split P L` but the
last has length exactly `L`, the last chunk (when there is one) has a length between `1`
and `L`, and no chunk is empty. -/
theorem C3_split_chunk_sizes (P : Bytes) (L : Int) (hL : 0 < L) :
    ∃ chunks, split P L = .ok chunks ∧
      (∀ i c, i + 1 < chunks.length → chunks[i]? = some c → (c.length : Int) = L) ∧
      (∀ c, chunks.getLast? = some c → 1 ≤ (c.length : Int) ∧ (c.length : Int) ≤ L) ∧
      (∀ c ∈ chunks, c ≠ []) := by
  obtain ⟨cs, rest, h1, -, h3, h4, -⟩ := split_spec P L hL
  have hfull : ∀ c ∈ cs, 1 ≤ (c.length : Int) ∧ (c.length : Int) ≤ L := by
    intro c hc
    have := h3 c hc
    omega
  refine ⟨_, h1, ?_, ?_, ?_⟩
  · intro i c hi hget
    by_cases hr : rest.length > 0
    · rw [if_pos hr] at hi hget
      have hi1 : i < cs.length := by simpa using hi
      rw [List.getElem?_append_left hi1] at hget
      exact h3 c (List.getElem?_mem hget)
    · rw [if_neg hr] at hget
      exact h3 c (List.getElem?_mem hget)
  · intro c hc
    split at hc
    · rename_i hr
      rw [List.getLast?_append_of_ne_nil _ (by simp)] at hc
      simp only [List.getLast?_singleton, Option.some.injEq] at hc
      subst hc
      constructor
      · have : 0 < rest.length := hr
        omega
      · omega
    · exact hfull c (List.mem_of_getLast?_eq_some hc)
  · intro c hc hnil
    subst hnil
    split at hc
    · rename_i hr
      rcases List.mem_append.mp hc with hc | hc
      · have := (hfull [] hc).1
        simp at this
      · simp only [List.mem_singleton] at hc
        subst hc
        simp at hr
    · have := (hfull [] hc).1
      simp at this

theorem C3_split_chunk_sizes_witness :
    (0 : Int) < 2 ∧ ∃ chunks, split [1, 2, 3, 4, 5] 2 = .ok chunks ∧
      (∀ i c, i + 1 < chunks.length → chunks[i]? = some c → (c.length : Int) = 2) ∧
      (∀ c, chunks.getLast? = some c → 1 ≤ (c.length : Int) ∧ (c.length : Int) ≤ 2) ∧
      (∀ c ∈ chunks, c ≠ []) :=
  ⟨by decide, C3_split_chunk_sizes [1, 2, 3, 4, 5] 2 (by decide)⟩

/-! ## Hex, decimal and split round trips -/

theorem byte_ofNat_val (k : Nat) (h : k < 256) : ((Fin.ofNat k : Byte) : Nat) = k := by
  show k % 256 = k
  exact Nat.mod_eq_of_lt h

theorem byte_ofNat_self (b : Byte) : (Fin.ofNat b.val : Byte) = b := by
  apply Fin.ext
  exact byte_ofNat_val b.val b.isLt

theorem fromHexChar_hexDigit (n : Nat) (h : n < 16) : fromHexChar (hexDigit n) = some n := by
  interval_cases n <;> decide

theorem hexDigit_ne_slash (n : Nat) (h : n < 16) : hexDigit n ≠ slash := by
  interval_cases n <;> decide

theorem hexDecode_encode (bs : Bytes) : hexDecodeString (hexEncodeToString bs) = .ok bs := by
  induction bs with
  | nil => rfl
  | cons b rest ih =>
    have h1 : b.val / 16 < 16 := by have := b.isLt; omega
    have h2 : b.val % 16 < 16 := Nat.mod_lt _ (by decide)
    have h3 : b.val / 16 * 16 + b.val % 16 = b.val := by omega
    simp only [hexEncodeToString, hexDecodeString, fromHexChar_hexDigit _ h1,
      fromHexChar_hexDigit _ h2, ih, h3, byte_ofNat_self]

theorem hexEncode_no_slash (bs : Bytes) : slash ∉ hexEncodeToString bs := by
  induction bs with
  | nil => simp [hexEncodeToString]
  | cons b rest ih =>
    have h1 : b.val / 16 < 16 := by have := b.isLt; omega
    have h2 : b.val % 16 < 16 := Nat.mod_lt _ (by decide)
    simp only [hexEncodeToString, List.mem_cons, not_or]
    exact ⟨(hexDigit_ne_slash _ h1).symm, (hexDigit_ne_slash _ h2).symm, ih⟩

/-- A string that `hex.DecodeString` accepts holds hex digits only. -/
theorem hexDecode_ok_isHex : ∀ (s bs : Bytes), hexDecodeString s = .ok bs →
    ∀ x ∈ s, isHex x = true
  | [], _, _ => by simp
  | [p], bs, h => by
    simp only [hexDecodeString] at h
    split at h <;> simp at h
  | p :: q :: rest, bs, h => by
    simp only [hexDecodeString] at h
    split at h
    · simp at h
    · simp at h
    · rename_i a b ha hb
      split at h
      · rename_i bs1 hrest
        intro x hx
        rcases List.mem_cons.mp hx with rfl | hx
        · simp [isHex, ha]
        · rcases List.mem_cons.mp hx with rfl | hx
          · simp [isHex, hb]
          · exact hexDecode_ok_isHex rest bs1 hrest x hx
      · simp at h

theorem isHex_ne_slash (x : Byte) (h : isHex x = true) : x ≠ slash := by
  rintro rfl
  revert h
  decide

/-- What `formatUintLoop` writes in front of `acc`: at least one digit, no leading zero
except for `0` itself, and text that `parseUintLoop` reads back. -/
theorem formatUintLoop_spec : ∀ (fuel n : Nat) (acc : Bytes), n < fuel →
    ∃ ds : Bytes, formatUintLoop fuel n acc = ds ++ acc ∧
      (∀ d ∈ ds, isDigit d = true) ∧
      (n = 0 → ds = [48]) ∧
      (0 < n → ∃ d t, ds = d :: t ∧ 49 ≤ d.val ∧ d.val ≤ 57) ∧
      ∀ (s0 tail : Bytes) (m : Nat), m * 10 ^ ds.length + n ≤ maxUint64 →
        parseUintLoop s0 (ds ++ tail) m = parseUintLoop s0 tail (m * 10 ^ ds.length + n) := by
  intro fuel
  induction fuel with
  | zero => intro n acc h; omega
  | succ fuel ih =>
    intro n acc h
    unfold formatUintLoop
    by_cases hn : n < 10
    · have hv : ((Fin.ofNat (48 + n) : Byte) : Nat) = 48 + n := byte_ofNat_val _ (by omega)
      refine ⟨[Fin.ofNat (48 + n)], by simp [hn], ?_, ?_, ?_, ?_⟩
      · intro d hd
        simp only [List.mem_singleton] at hd
        subst hd
        simp only [isDigit, hv, Bool.and_eq_true, decide_eq_true_eq]
        omega
      · rintro rfl; rfl
      · intro hpos
        exact ⟨_, [], rfl, by rw [hv]; omega, by rw [hv]; omega⟩
      · intro s0 tail m hm
        simp only [List.length_singleton, pow_one] at hm ⊢
        have hmax : maxUint64 = 18446744073709551615 := by decide
        simp only [List.singleton_append, parseUintLoop, hv]
        rw [if_pos (by omega), if_neg (by omega), if_neg (by omega)]
        congr 1
        omega
    · have hlt : n / 10 < fuel := by omega
      obtain ⟨ds, h1, h2, -, h4, h5⟩ := ih (n / 10) (Fin.ofNat (48 + n % 10) :: acc) hlt
      have hv : ((Fin.ofNat (48 + n % 10) : Byte) : Nat) = 48 + n % 10 :=
        byte_ofNat_val _ (by omega)
      refine ⟨ds ++ [Fin.ofNat (48 + n % 10)], by simp [hn, h1], ?_, ?_, ?_, ?_⟩
      · intro d hd
        rcases List.mem_append.mp hd with hd | hd
        · exact h2 d hd
        · simp only [List.mem_singleton] at hd
          subst hd
          simp only [isDigit, hv, Bool.and_eq_true, decide_eq_true_eq]
          omega
      · intro h0; omega
      · intro _
        obtain ⟨d, t, hd, hd1, hd2⟩ := h4 (by omega)
        exact ⟨d, t ++ [Fin.ofNat (48 + n % 10)], by simp [hd], hd1, hd2⟩
      · intro s0 tail m hm
        have hmax : maxUint64 = 18446744073709551615 := by decide
        have hpow : m * 10 ^ (ds ++ [Fin.ofNat (48 + n % 10)]).length =
            m * 10 ^ ds.length * 10 := by
          simp only [List.length_append, List.length_singleton, pow_succ, Nat.mul_assoc]
        rw [hpow] at hm ⊢
        have h5a := h5 s0 (Fin.ofNat (48 + n % 10) :: tail) m (by omega)
        rw [List.append_assoc, List.singleton_append, h5a]
        simp only [parseUintLoop, hv]
        rw [if_pos (by omega), if_neg (by omega), if_neg (by omega)]
        congr 1
        omega

theorem parseUint_formatUint (n : Nat) (h : n < 2 ^ 64) : parseUint (formatUint n) = .ok n := by
  obtain ⟨ds, h1, h2, h3, h4, h5⟩ := formatUintLoop_spec (n + 1) n [] (Nat.lt_succ_self n)
  have hne : ds ≠ [] := by
    rcases Nat.eq_zero_or_pos n with h0 | h0
    · rw [h3 h0]; simp
    · obtain ⟨d, t, hd, -⟩ := h4 h0
      rw [hd]; simp
  have hmax : maxUint64 = 18446744073709551615 := by decide
  have := h5 ds [] 0 (by omega)
  simp only [List.append_nil, Nat.zero_mul, Nat.zero_add] at this h1
  simp only [parseUint, formatUint, h1, hne, if_false, this, parseUintLoop]

theorem formatUint_no_slash (n : Nat) : slash ∉ formatUint n := by
  obtain ⟨ds, h1, h2, -⟩ := formatUintLoop_spec (n + 1) n [] (Nat.lt_succ_self n)
  simp only [List.append_nil] at h1
  intro hmem
  rw [formatUint, h1] at hmem
  have := h2 _ hmem
  revert this
  decide

theorem stringsSplit_of_not_mem (sep : Byte) : ∀ a : Bytes, sep ∉ a → stringsSplit sep a = [a]
  | [], _ => rfl
  | c :: cs, h => by
    have hc : ¬ (c = sep) := fun e => h (by simp [e])
    have hcs : sep ∉ cs := fun e => h (by simp [e])
    simp only [stringsSplit, hc, if_false, stringsSplit_of_not_mem sep cs hcs]

theorem stringsSplit_append (sep : Byte) : ∀ (a rest : Bytes), sep ∉ a →
    stringsSplit sep (a ++ sep :: rest) = a :: stringsSplit sep rest
  | [], rest, _ => by simp [stringsSplit]
  | c :: cs, rest, h => by
    have hc : ¬ (c = sep) := fun e => h (by simp [e])
    have hcs : sep ∉ cs := fun e => h (by simp [e])
    have ih := stringsSplit_append sep cs rest hcs
    show stringsSplit sep (c :: (cs ++ sep :: rest)) = _
    rw [stringsSplit, if_neg hc, ih]

/-- The number of fields `strings.Split` returns is one more than the number of separators. -/
theorem stringsSplit_length (sep : Byte) : ∀ s : Bytes,
    (stringsSplit sep s).length = s.count sep + 1
  | [] => rfl
  | c :: cs => by
    have ih := stringsSplit_length sep cs
    by_cases hc : c = sep
    · subst hc
      simp [stringsSplit, ih]
    · have hne : (c == sep) = false := by simpa using hc
      simp only [stringsSplit, hc, if_false, List.count_cons, hne]
      split
      · rename_i h0
        rw [h0] at ih
        simp at ih
      · rename_i p ps h0
        rw [h0] at ih
        simpa using ih

/-- C7: for every locator (a `uint64` height, a namespace given as a string of hex digits,
commitment bytes), the text `"<height>/<namespace-hex>/<commitment-hex>"` the submit flow
writes splits on `/` into exactly three fields, the first parses back to the height as a
base-10 `uint64`, the second is the namespace string, and the third hex-decodes to the
commitment. -/
theorem C7_locator_round_trip (height : Nat) (namespaceId commitment : Bytes)
    (hh : height < 2 ^ 64) (hns : ∀ x ∈ namespaceId, isHex x = true) :
    ∃ p0 p1 p2, stringsSplit slash (locatorString height namespaceId commitment) = [p0, p1, p2] ∧
      parseUint p0 = .ok height ∧ p1 = namespaceId ∧ hexDecodeString p2 = .ok commitment := by
  have h1 : slash ∉ formatUint height := formatUint_no_slash height
  have h2 : slash ∉ namespaceId := fun hm => isHex_ne_slash _ (hns _ hm) rfl
  have h3 : slash ∉ hexEncodeToString commitment := hexEncode_no_slash commitment
  refine ⟨formatUint height, namespaceId, hexEncodeToString commitment, ?_,
    parseUint_formatUint height hh, rfl, hexDecode_encode commitment⟩
  have e : locatorString height namespaceId commitment =
      formatUint height ++ slash :: (namespaceId ++ slash :: hexEncodeToString commitment) := by
    simp [locatorString]
  rw [e, stringsSplit_append slash _ _ h1, stringsSplit_append slash _ _ h2,
    stringsSplit_of_not_mem slash _ h3]

theorem C7_locator_round_trip_witness :
    (1234 : Nat) < 2 ^ 64 ∧ (∀ x ∈ ([48, 97, 70] : Bytes), isHex x = true) ∧
    ∃ p0 p1 p2, stringsSplit slash (locatorString 1234 [48, 97, 70] [171, 18]) = [p0, p1, p2] ∧
      parseUint p0 = .ok 1234 ∧ p1 = [48, 97, 70] ∧ hexDecodeString p2 = .ok [171, 18] :=
  ⟨by norm_num, by decide,
    C7_locator_round_trip 1234 [48, 97, 70] [171, 18] (by norm_num) (by decide)⟩

/-! ## JSON strings: what is written is read back -/

theorem scanString_quote (r : Bytes) : scanString (34 :: r) = some ([], r) := by
  rw [scanString.eq_def]
  simp

theorem scanString_byte (b : Byte) (t : Bytes) (h1 : 0x20 ≤ b.val) (h2 : b ≠ 34) (h3 : b ≠ 92) :
    scanString (b :: t) =
      match scanString t with
      | some (body, r) => some (b :: body, r)
      | none => none := by
  have h4 : ¬ (b.val < 0x20) := by omega
  rw [scanString.eq_def]
  simp only [h2, h3, h4, if_false]

theorem scanString_escape (e : Byte) (t : Bytes)
    (he : e = 34 ∨ e = 92 ∨ e = 47 ∨ e = 98 ∨ e = 102 ∨ e = 110 ∨ e = 114 ∨ e = 116) :
    scanString (92 :: e :: t) =
      match scanString t with
      | some (body, r) => some (92 :: e :: body, r)
      | none => none := by
  have hu : ¬ (e = 117) := by
    rcases he with h | h | h | h | h | h | h | h <;> subst h <;> decide
  rw [scanString.eq_def]
  simp only [hu, he, if_true, if_false]
  simp

theorem scanString_unicode (h1 h2 h3 h4 : Byte) (t : Bytes)
    (a1 : isHex h1 = true) (a2 : isHex h2 = true) (a3 : isHex h3 = true) (a4 : isHex h4 = true) :
    scanString (92 :: 117 :: h1 :: h2 :: h3 :: h4 :: t) =
      match scanString t with
      | some (body, r) => some (92 :: 117 :: h1 :: h2 :: h3 :: h4 :: body, r)
      | none => none := by
  rw [scanString.eq_def]
  simp [a1, a2, a3, a4]

theorem scanString_body (raw : Bytes) (h : StringBody raw) (r : Bytes) :
    scanString (raw ++ 34 :: r) = some (raw, r) := by
  induction h with
  | nil => exact scanString_quote r
  | byte b t h1 h2 h3 _ ih =>
    rw [List.cons_append, scanString_byte b _ h1 h2 h3, ih]
  | escape e t he _ ih =>
    rw [List.cons_append, List.cons_append, scanString_escape e _ he, ih]
  | unicode h1 h2 h3 h4 t a1 a2 a3 a4 _ ih =>
    simp only [List.cons_append]
    rw [scanString_unicode h1 h2 h3 h4 _ a1 a2 a3 a4, ih]

theorem StringBody.append {a b : Bytes} (ha : StringBody a) (hb : StringBody b) :
    StringBody (a ++ b) := by
  induction ha with
  | nil => simpa using hb
  | byte c t h1 h2 h3 _ ih => exact .byte c _ h1 h2 h3 ih
  | escape e t he _ ih => exact .escape e _ he ih
  | unicode h1 h2 h3 h4 t a1 a2 a3 a4 _ ih => exact .unicode h1 h2 h3 h4 _ a1 a2 a3 a4 ih

theorem StringBody.of_high : ∀ xs : Bytes, (∀ x ∈ xs, 0x80 ≤ x.val) → StringBody xs
  | [], _ => .nil
  | x :: xs, h => by
    have hx : 0x80 ≤ x.val := h x (by simp)
    refine .byte x xs (by omega) ?_ ?_ (StringBody.of_high xs (fun y hy => h y (by simp [hy])))
    · rintro rfl; revert hx; decide
    · rintro rfl; revert hx; decide

theorem isHex_hexDigit (n : Nat) (h : n < 16) : isHex (hexDigit n) = true := by
  simp [isHex, fromHexChar_hexDigit n h]

theorem stringBody_escapeAscii (b : Byte) : StringBody (escapeAscii b) := by
  unfold escapeAscii
  have e34 : (34 : Byte) = 34 ∨ (34 : Byte) = 92 ∨ (34 : Byte) = 47 ∨ (34 : Byte) = 98 ∨
      (34 : Byte) = 102 ∨ (34 : Byte) = 110 ∨ (34 : Byte) = 114 ∨ (34 : Byte) = 116 := by decide
  split_ifs with h1 h2 h3 h4 h5 h6 h7
  · rcases h1 with h | h <;> subst h
    · exact .escape _ _ (by decide) .nil
    · exact .escape _ _ (by decide) .nil
  · exact .escape _ _ (by decide) .nil
  · exact .escape _ _ (by decide) .nil
  · exact .escape _ _ (by decide) .nil
  · exact .escape _ _ (by decide) .nil
  · exact .escape _ _ (by decide) .nil
  · have := b.isLt
    exact .unicode _ _ _ _ _ (by decide) (by decide) (isHex_hexDigit _ (by omega))
      (isHex_hexDigit _ (Nat.mod_lt _ (by decide))) .nil
  · have hb : 0x20 ≤ b.val := by
      by_contra hc
      exact h7 (Or.inl (by omega))
    exact .byte b [] hb (fun e => h1 (Or.inr e)) (fun e => h1 (Or.inl e)) .nil

theorem take_one_high (b : Byte) (rest : Bytes) (hb : 0x80 ≤ b.val) :
    ∀ x ∈ (b :: rest).take 1, 0x80 ≤ x.val := by
  intro x hx
  simp only [List.take_succ_cons, List.take_zero, List.mem_singleton] at hx
  subst hx
  exact hb

/-- The bytes of a well-formed rune of more than one byte are all `0x80` or above. -/
theorem decodeRune_take_high (b : Byte) (rest : Bytes) (hb : 0x80 ≤ b.val) :
    ∀ x ∈ (b :: rest).take (decodeRune (b :: rest)).2, 0x80 ≤ x.val := by
  have hnot : ¬ (b.val < 0x80) := by omega
  by_cases g2 : 0xC2 ≤ b.val ∧ b.val ≤ 0xDF
  · cases rest with
    | nil =>
      simp only [decodeRune, hnot, g2, if_true, if_false]
      exact take_one_high b _ hb
    | cons b1 t =>
      by_cases hc : isCont b1 = true
      · simp only [decodeRune, hnot, g2, hc, if_true, if_false]
        simp only [isCont, Bool.and_eq_true, decide_eq_true_eq] at hc
        intro x hx
        simp at hx
        rcases hx with rfl | rfl
        · exact hb
        · exact hc.1
      · simp only [decodeRune, hnot, g2, hc, if_true, if_false]
        exact take_one_high b _ hb
  · by_cases g3 : 0xE0 ≤ b.val ∧ b.val ≤ 0xEF
    · rcases rest with _ | ⟨b1, _ | ⟨b2, t⟩⟩
      · simp only [decodeRune, hnot, g2, g3, if_true, if_false]
        exact take_one_high b _ hb
      · simp only [decodeRune, hnot, g2, g3, if_true, if_false]
        exact take_one_high b _ hb
      · by_cases hc : (if b.val = 0xE0 then 0xA0 else 0x80) ≤ b1.val ∧
            b1.val ≤ (if b.val = 0xED then 0x9F else 0xBF) ∧ isCont b2 = true
        · simp only [decodeRune, hnot, g2, g3, hc, if_true, if_false]
          have c1 : 0x80 ≤ b1.val := by
            have := hc.1
            split_ifs at this <;> omega
          have c2 := hc.2.2
          simp only [isCont, Bool.and_eq_true, decide_eq_true_eq] at c2
          intro x hx
          simp at hx
          rcases hx with rfl | rfl | rfl
          · exact hb
          · exact c1
          · exact c2.1
        · simp only [decodeRune, hnot, g2, g3, hc, if_true, if_false]
          exact take_one_high b _ hb
    · by_cases g4 : 0xF0 ≤ b.val ∧ b.val ≤ 0xF4
      · rcases rest with _ | ⟨b1, _ | ⟨b2, _ | ⟨b3, t⟩⟩⟩
        · simp only [decodeRune, hnot, g2, g3, g4, if_true, if_false]
          exact take_one_high b _ hb
        · simp only [decodeRune, hnot, g2, g3, g4, if_true, if_false]
          exact take_one_high b _ hb
        · simp only [decodeRune, hnot, g2, g3, g4, if_true, if_false]
          exact take_one_high b _ hb
        · by_cases hc : (if b.val = 0xF0 then 0x90 else 0x80) ≤ b1.val ∧
              b1.val ≤ (if b.val = 0xF4 then 0x8F else 0xBF) ∧ isCont b2 = true ∧
              isCont b3 = true
          · simp only [decodeRune, hnot, g2, g3, g4, hc, if_true, if_false]
            have c1 : 0x80 ≤ b1.val := by
              have := hc.1
              split_ifs at this <;> omega
            have c2 := hc.2.2.1
            have c3 := hc.2.2.2
            simp only [isCont, Bool.and_eq_true, decide_eq_true_eq] at c2 c3
            intro x hx
            simp at hx
            rcases hx with rfl | rfl | rfl | rfl
            · exact hb
            · exact c1
            · exact c2.1
            · exact c3.1
          · simp only [decodeRune, hnot, g2, g3, g4, hc, if_true, if_false]
            exact take_one_high b _ hb
      · simp only [decodeRune, hnot, g2, g3, g4, if_false]
        exact take_one_high b _ hb

/-- Whatever `encoding/json` writes between the quotes of a string is the body of a JSON
string. -/
theorem stringBody_appendStringLoop : ∀ (fuel : Nat) (s : Bytes),
    StringBody (appendStringLoop fuel s)
  | 0, _ => by simp only [appendStringLoop]; exact .nil
  | _ + 1, [] => by simp only [appendStringLoop]; exact .nil
  | fuel + 1, b :: rest => by
    simp only [appendStringLoop]
    split_ifs with h1 h2 h3
    · exact (stringBody_escapeAscii b).append (stringBody_appendStringLoop fuel rest)
    · exact StringBody.append (.unicode _ _ _ _ _ (by decide) (by decide) (by decide) (by decide) .nil)
        (stringBody_appendStringLoop fuel rest)
    · exact StringBody.append
        (.unicode _ _ _ _ _ (by decide) (by decide) (by decide)
          (isHex_hexDigit _ (Nat.mod_lt _ (by decide))) .nil)
        (stringBody_appendStringLoop fuel _)
    · exact (StringBody.of_high _ (decodeRune_take_high b rest (by omega))).append
        (stringBody_appendStringLoop fuel _)
theorem StringBody.drop_high : ∀ (k : Nat) (s : Bytes), StringBody s →
    (∀ x ∈ s.take k, 0x80 ≤ x.val) → StringBody (s.drop k)
  | 0, s, hs, _ => by simpa using hs
  | k + 1, [], _, _ => by simpa using StringBody.nil
  | k + 1, x :: s, hs, h => by
    have hx : 0x80 ≤ x.val := h x (by simp)
    have hne : x ≠ 92 := by rintro rfl; revert hx; decide
    have hs1 : StringBody s := by
      cases hs with
      | byte _ _ _ _ _ ht => exact ht
      | escape _ _ _ _ => exact absurd rfl hne
      | unicode _ _ _ _ _ _ _ _ _ _ => exact absurd rfl hne
    simp only [List.drop_succ_cons]
    exact StringBody.drop_high k s hs1 (fun y hy => h y (by simp [hy]))

theorem decodeRune_size_pos (b : Byte) (rest : Bytes) : 1 ≤ (decodeRune (b :: rest)).2 := by
  simp only [decodeRune]
  split_ifs <;> (try split) <;> (try split_ifs) <;> simp

theorem getu4_some_of_isHex (h1 h2 h3 h4 : Byte) (t : Bytes)
    (a1 : isHex h1 = true) (a2 : isHex h2 = true) (a3 : isHex h3 = true) (a4 : isHex h4 = true) :
    ∃ rr, getu4 (92 :: 117 :: h1 :: h2 :: h3 :: h4 :: t) = some rr := by
  simp only [isHex, Option.isSome_iff_exists] at a1 a2 a3 a4
  obtain ⟨x1, e1⟩ := a1
  obtain ⟨x2, e2⟩ := a2
  obtain ⟨x3, e3⟩ := a3
  obtain ⟨x4, e4⟩ := a4
  refine ⟨x1 * 4096 + x2 * 256 + x3 * 16 + x4, ?_⟩
  simp [getu4, e1, e2, e3, e4]

theorem getu4_some_shape (t : Bytes) (rr : Nat) (h : getu4 t = some rr) :
    ∃ h1 h2 h3 h4 t1, t = 92 :: 117 :: h1 :: h2 :: h3 :: h4 :: t1 := by
  rcases t with _ | ⟨a, _ | ⟨b, _ | ⟨c, _ | ⟨d, _ | ⟨e, _ | ⟨f, t1⟩⟩⟩⟩⟩⟩
  · simp [getu4] at h
  · simp [getu4] at h
  · simp [getu4] at h
  · simp [getu4] at h
  · simp [getu4] at h
  · simp [getu4] at h
  · simp only [getu4] at h
    split_ifs at h with hc
    obtain ⟨rfl, rfl⟩ := hc
    exact ⟨_, _, _, _, _, rfl⟩

/-- One round of `unquoteBytes` on the body of a string succeeds and leaves the body of a
string, shorter than before. -/
theorem unquoteStep_ok (c : Byte) (rest : Bytes) (hs : StringBody (c :: rest)) :
    ∃ p, unquoteStep c rest = some p ∧ StringBody p.2 ∧ p.2.length ≤ rest.length := by
  cases hs with
  | byte _ _ h1 h2 h3 ht =>
    have h4 : ¬ (c = 34 ∨ c.val < 0x20) := by
      rintro (h | h)
      · exact h2 h
      · omega
    by_cases h5 : c.val < 0x80
    · simp only [unquoteStep, h3, h4, h5, if_true, if_false, Option.some.injEq, exists_eq_left']
      exact ⟨ht, le_refl _⟩
    · have hhigh := decodeRune_take_high c rest (by omega)
      have hpos := decodeRune_size_pos c rest
      have hd := StringBody.drop_high _ _ (StringBody.byte c rest h1 h2 h3 ht) hhigh
      simp only [unquoteStep, h3, h4, h5, if_false, Option.some.injEq, exists_eq_left']
      refine ⟨hd, ?_⟩
      simp only [List.length_drop, List.length_cons]
      omega
  | escape e t he ht =>
    rcases he with h | h | h | h | h | h | h | h <;> subst h <;>
      simp [unquoteStep, ht]
  | unicode h1 h2 h3 h4 t a1 a2 a3 a4 ht =>
    obtain ⟨rr, hrr⟩ := getu4_some_of_isHex h1 h2 h3 h4 t a1 a2 a3 a4
    by_cases hsur : 0xD800 ≤ rr ∧ rr < 0xE000
    · cases hg : getu4 t with
      | none =>
        simp [unquoteStep, hrr, hsur, hg, ht]
        omega
      | some rr1 =>
        by_cases hpair : rr < 0xDC00 ∧ 0xDC00 ≤ rr1 ∧ rr1 < 0xE000
        · obtain ⟨x1, x2, x3, x4, t1, rfl⟩ := getu4_some_shape t rr1 hg
          have ht1 : StringBody t1 := by
            cases ht with
            | byte _ _ _ _ hne _ => exact absurd rfl hne
            | escape _ _ he _ => exact absurd he (by decide)
            | unicode _ _ _ _ _ _ _ _ _ h => exact h
          simp [unquoteStep, hrr, hsur, hg, hpair, ht1]
          omega
        · simp [unquoteStep, hrr, hsur, hg, hpair, ht]
          omega
    · simp [unquoteStep, hrr, hsur, ht]
      omega

/-- Go `unquoteBytes` cannot fail on the body of a string the scanner accepted. -/
theorem unquoteLoop_ok : ∀ (fuel : Nat) (raw : Bytes), raw.length ≤ fuel → StringBody raw →
    ∃ t, unquoteLoop fuel raw = some t := by
  intro fuel
  induction fuel with
  | zero =>
    intro raw hlen _
    have : raw = [] := List.eq_nil_of_length_eq_zero (by omega)
    subst this
    exact ⟨[], by rw [unquoteLoop]⟩
  | succ fuel ih =>
    intro raw hlen hs
    cases raw with
    | nil => exact ⟨[], by rw [unquoteLoop]⟩
    | cons c rest =>
      obtain ⟨⟨out, r⟩, h1, h2, h3⟩ := unquoteStep_ok c rest hs
      simp only [List.length_cons] at hlen
      simp only at h2 h3
      obtain ⟨u, hu⟩ := ih r (by omega) h2
      exact ⟨out ++ u, by rw [unquoteLoop, h1]; simp only [hu]⟩

theorem unquote_appendString (s : Bytes) : ∃ t, unquote (appendStringLoop s.length s) = some t :=
  unquoteLoop_ok _ _ (le_refl _) (stringBody_appendStringLoop _ _)

theorem escapeAscii_plain (b : Byte) (h : isPlain b = true) : escapeAscii b = [b] := by
  simp only [isPlain, Bool.and_eq_true, decide_eq_true_eq, bne_iff_ne, ne_eq] at h
  obtain ⟨⟨⟨⟨⟨⟨p1, p2⟩, p3⟩, p4⟩, p5⟩, p6⟩, p7⟩ := h
  have n8 : b ≠ 8 := by rintro rfl; revert p1; decide
  have n12 : b ≠ 12 := by rintro rfl; revert p1; decide
  have n10 : b ≠ 10 := by rintro rfl; revert p1; decide
  have n13 : b ≠ 13 := by rintro rfl; revert p1; decide
  have n9 : b ≠ 9 := by rintro rfl; revert p1; decide
  have n20 : ¬ (b.val < 0x20) := by omega
  simp [escapeAscii, p3, p4, p5, p6, p7, n8, n12, n10, n13, n9, n20]

theorem appendStringLoop_plain : ∀ (fuel : Nat) (s : Bytes), s.length ≤ fuel →
    (∀ b ∈ s, isPlain b = true) → appendStringLoop fuel s = s
  | 0, s, hlen, _ => by
    have : s = [] := List.eq_nil_of_length_eq_zero (by omega)
    subst this
    simp [appendStringLoop]
  | _ + 1, [], _, _ => by simp [appendStringLoop]
  | fuel + 1, b :: rest, hlen, h => by
    have hb := h b (by simp)
    have hlt : b.val < 0x80 := by
      simp only [isPlain, Bool.and_eq_true, decide_eq_true_eq] at hb
      exact hb.1.1.1.1.1.2
    simp only [List.length_cons] at hlen
    simp only [appendStringLoop, hlt, if_true, escapeAscii_plain b hb, List.singleton_append,
      appendStringLoop_plain fuel rest (by omega) (fun y hy => h y (by simp [hy]))]

theorem unquoteLoop_plain : ∀ (fuel : Nat) (s : Bytes), s.length ≤ fuel →
    (∀ b ∈ s, isPlain b = true) → unquoteLoop fuel s = some s
  | 0, s, hlen, _ => by
    have : s = [] := List.eq_nil_of_length_eq_zero (by omega)
    subst this
    rw [unquoteLoop]
  | _ + 1, [], _, _ => by rw [unquoteLoop]
  | fuel + 1, b :: rest, hlen, h => by
    have hb := h b (by simp)
    simp only [isPlain, Bool.and_eq_true, decide_eq_true_eq, bne_iff_ne, ne_eq] at hb
    obtain ⟨⟨⟨⟨⟨⟨p1, p2⟩, p3⟩, p4⟩, p5⟩, p6⟩, p7⟩ := hb
    have n20 : ¬ (b.val < 0x20) := by omega
    simp only [List.length_cons] at hlen
    have hstep : unquoteStep b rest = some ([b], rest) := by
      simp [unquoteStep, p2, p3, p4, n20]
    rw [unquoteLoop, hstep]
    simp only [unquoteLoop_plain fuel rest (by omega) (fun y hy => h y (by simp [hy])),
      List.singleton_append]

theorem jsonString_plain (s : Bytes) (h : ∀ b ∈ s, isPlain b = true) :
    jsonString s = 34 :: s ++ [34] := by
  simp only [jsonString, appendStringLoop_plain _ s (le_refl _) h]

theorem unquote_plain (s : Bytes) (h : ∀ b ∈ s, isPlain b = true) : unquote s = some s :=
  unquoteLoop_plain _ s (le_refl _) h

/-! ## JSON numbers and values: what is written is read back -/

theorem formatUint_shape (n : Nat) :
    (∀ d ∈ formatUint n, isDigit d = true) ∧
      (formatUint n = [48] ∨ ∃ d t, formatUint n = d :: t ∧ 49 ≤ d.val ∧ d.val ≤ 57) := by
  obtain ⟨ds, h1, h2, h3, h4, -⟩ := formatUintLoop_spec (n + 1) n [] (Nat.lt_succ_self n)
  simp only [List.append_nil] at h1
  rw [formatUint, h1]
  refine ⟨h2, ?_⟩
  rcases Nat.eq_zero_or_pos n with h0 | h0
  · exact Or.inl (h3 h0)
  · exact Or.inr (h4 h0)

theorem takeDigits_append : ∀ (ds : Bytes) (c : Byte) (t : Bytes),
    (∀ d ∈ ds, isDigit d = true) → isDigit c = false → takeDigits (ds ++ c :: t) = (ds, c :: t)
  | [], c, t, _, hc => by simp [takeDigits, hc]
  | d :: ds, c, t, h, hc => by
    have hd := h d (by simp)
    have ih := takeDigits_append ds c t (fun y hy => h y (by simp [hy])) hc
    simp [takeDigits, hd, ih]

/-- The scanner reads a number written by `strconv` up to the comma or closing brace that
follows it. -/
theorem scanNumber_formatUint (n : Nat) (c : Byte) (t : Bytes) (hc : c = 44 ∨ c = 125) :
    scanNumber (formatUint n ++ c :: t) = some (formatUint n, c :: t) := by
  obtain ⟨hd, hshape⟩ := formatUint_shape n
  have c1 : isDigit c = false := by rcases hc with rfl | rfl <;> decide
  have c2 : ¬ (c = 46) := by rcases hc with rfl | rfl <;> decide
  have c3 : ¬ (c = 101 ∨ c = 69) := by rcases hc with rfl | rfl <;> decide
  rcases hshape with h0 | ⟨d, ds, h0, d1, d2⟩
  · rw [h0]
    simp [scanNumber, scanInt, scanFrac, scanExp, c2, c3]
  · rw [h0] at hd ⊢
    have n45 : ¬ (d = 45) := by rintro rfl; revert d1; decide
    have n48 : ¬ (d = 48) := by rintro rfl; revert d1; decide
    have htd := takeDigits_append ds c t (fun y hy => hd y (by simp [hy])) c1
    simp [scanNumber, scanInt, scanFrac, scanExp, c2, c3, n45, n48, d1, d2, htd]

theorem parseInt_formatUint (n : Nat) (h : n < 2 ^ 63) : parseInt (formatUint n) = some (n : Int) := by
  obtain ⟨-, hshape⟩ := formatUint_shape n
  have hp := parseUint_formatUint n (by omega)
  rcases hshape with h0 | ⟨d, ds, h0, d1, d2⟩
  · rw [h0] at hp ⊢
    have hlt : n < 9223372036854775808 := by omega
    simp [parseInt, hp, hlt]
  · rw [h0] at hp ⊢
    have n45 : ¬ (d = 45) := by rintro rfl; revert d1; decide
    have n43 : ¬ (d = 43) := by rintro rfl; revert d1; decide
    have hlt : n < 9223372036854775808 := by omega
    simp [parseInt, hp, hlt, n45, n43]

theorem formatInt_nonneg (i : Int) (h : 0 ≤ i) : formatInt i = formatUint i.toNat := by
  have : ¬ (i < 0) := by omega
  simp [formatInt, this]

theorem parseValue_unfold (k : Nat) (inp : Bytes) :
    parseValue (k + 1) inp = parseValueWith (some (fun x => parseValue k x)) inp := by
  rw [parseValue]

theorem parseValueWith_string (sub : Option (Bytes → Option (JVal × Bytes))) (raw t : Bytes)
    (h : StringBody raw) :
    parseValueWith sub (34 :: raw ++ 34 :: t) = some (.str raw, t) := by
  have hs := scanString_body raw h t
  simp [parseValueWith, skipSpace, isSpace, hs]

theorem parseValue_string (k : Nat) (raw t : Bytes) (h : StringBody raw) :
    parseValue k (34 :: raw ++ 34 :: t) = some (.str raw, t) := by
  cases k with
  | zero => rw [parseValue]; exact parseValueWith_string _ raw t h
  | succ k => rw [parseValue]; exact parseValueWith_string _ raw t h

theorem parseValueWith_number (sub : Option (Bytes → Option (JVal × Bytes))) (n : Nat) (c : Byte)
    (t : Bytes) (hc : c = 44 ∨ c = 125) :
    parseValueWith sub (formatUint n ++ c :: t) = some (.num (formatUint n), c :: t) := by
  have hs := scanNumber_formatUint n c t hc
  obtain ⟨-, hshape⟩ := formatUint_shape n
  rcases hshape with h0 | ⟨d, ds, h0, d1, d2⟩
  · rw [h0] at hs ⊢
    simp only [List.singleton_append] at hs ⊢
    simp [parseValueWith, skipSpace, isSpace, hs]
  · rw [h0] at hs ⊢
    simp only [List.cons_append] at hs ⊢
    have e1 : (isSpace d) = false := by
      simp only [isSpace, Bool.or_eq_false_iff, decide_eq_false_iff_not]
      refine ⟨⟨⟨?_, ?_⟩, ?_⟩, ?_⟩ <;> (rintro rfl; revert d1; decide)
    have n1 : ¬ (d = 123) := by rintro rfl; revert d2; decide
    have n2 : ¬ (d = 91) := by rintro rfl; revert d2; decide
    have n3 : ¬ (d = 34) := by rintro rfl; revert d1; decide
    have n4 : ¬ (d = 116) := by rintro rfl; revert d2; decide
    have n5 : ¬ (d = 102) := by rintro rfl; revert d2; decide
    have n6 : ¬ (d = 110) := by rintro rfl; revert d2; decide
    simp [parseValueWith, skipSpace, e1, n1, n2, n3, n4, n5, n6, hs]

theorem parseValue_number (k n : Nat) (c : Byte) (t : Bytes) (hc : c = 44 ∨ c = 125) :
    parseValue k (formatUint n ++ c :: t) = some (.num (formatUint n), c :: t) := by
  cases k with
  | zero => rw [parseValue]; exact parseValueWith_number _ n c t hc
  | succ k => rw [parseValue]; exact parseValueWith_number _ n c t hc

theorem parseMembers_more (pv : Bytes → Option (JVal × Bytes)) (fuel : Nat)
    (key r2 r4 : Bytes) (v : JVal) (acc : List (Bytes × JVal))
    (hf : 0 < fuel) (hk : StringBody key) (hv : pv r2 = some (v, 44 :: r4)) :
    parseMembers pv fuel (34 :: (key ++ 34 :: 58 :: r2)) acc =
      parseMembers pv (fuel - 1) r4 (acc ++ [(key, v)]) := by
  have hs := scanString_body key hk (58 :: r2)
  obtain ⟨f, rfl⟩ : ∃ f, fuel = f + 1 := ⟨fuel - 1, by omega⟩
  rw [parseMembers]
  simp [skipSpace, isSpace, hs, hv]

theorem parseMembers_last (pv : Bytes → Option (JVal × Bytes)) (fuel : Nat)
    (key r2 r4 : Bytes) (v : JVal) (acc : List (Bytes × JVal))
    (hf : 0 < fuel) (hk : StringBody key) (hv : pv r2 = some (v, 125 :: r4)) :
    parseMembers pv fuel (34 :: (key ++ 34 :: 58 :: r2)) acc =
      some (acc ++ [(key, v)], r4) := by
  have hs := scanString_body key hk (58 :: r2)
  obtain ⟨f, rfl⟩ : ∃ f, fuel = f + 1 := ⟨fuel - 1, by omega⟩
  rw [parseMembers]
  simp [skipSpace, isSpace, hs, hv]

theorem parseElems_more (pv : Bytes → Option (JVal × Bytes)) (fuel : Nat)
    (inp r1 : Bytes) (v : JVal) (acc : List JVal) (hf : 0 < fuel)
    (hv : pv inp = some (v, 44 :: r1)) :
    parseElems pv fuel inp acc = parseElems pv (fuel - 1) r1 (acc ++ [v]) := by
  obtain ⟨f, rfl⟩ : ∃ f, fuel = f + 1 := ⟨fuel - 1, by omega⟩
  rw [parseElems]
  simp [skipSpace, isSpace, hv]

theorem parseElems_last (pv : Bytes → Option (JVal × Bytes)) (fuel : Nat)
    (inp r1 : Bytes) (v : JVal) (acc : List JVal) (hf : 0 < fuel)
    (hv : pv inp = some (v, 93 :: r1)) :
    parseElems pv fuel inp acc = some (acc ++ [v], r1) := by
  obtain ⟨f, rfl⟩ : ∃ f, fuel = f + 1 := ⟨fuel - 1, by omega⟩
  rw [parseElems]
  simp [skipSpace, isSpace, hv]

theorem stringBody_of_plain (s : Bytes) (h : ∀ b ∈ s, isPlain b = true) : StringBody s := by
  have := stringBody_appendStringLoop s.length s
  rwa [appendStringLoop_plain _ s (le_refl _) h] at this

theorem plain_blob : ∀ b ∈ ascii "blob", isPlain b = true := by decide
theorem plain_size : ∀ b ∈ ascii "size", isPlain b = true := by decide
theorem plain_name : ∀ b ∈ ascii "name", isPlain b = true := by decide
theorem plain_mimeType : ∀ b ∈ ascii "mimeType", isPlain b = true := by decide
theorem plain_chunks : ∀ b ∈ ascii "chunks", isPlain b = true := by decide

/-- The body `encoding/json` writes for the string `s`. -/
theorem jsonString_eq (s : Bytes) : jsonString s = 34 :: (appendStringLoop s.length s ++ [34]) := by
  simp [jsonString]

theorem parseValueWith_object (pv : Bytes → Option (JVal × Bytes)) (rest1 r : Bytes)
    (kvs : List (Bytes × JVal))
    (h : parseMembers pv (34 :: rest1).length (34 :: rest1) [] = some (kvs, r)) :
    parseValueWith (some pv) (123 :: 34 :: rest1) = some (.obj kvs, r) := by
  simp only [List.length_cons] at h
  simp [parseValueWith, skipSpace, isSpace, h]

theorem parseValueWith_array (pv : Bytes → Option (JVal × Bytes)) (rest1 r : Bytes)
    (xs : List JVal)
    (h : parseElems pv (123 :: rest1).length (123 :: rest1) [] = some (xs, r)) :
    parseValueWith (some pv) (91 :: 123 :: rest1) = some (.arr xs, r) := by
  simp only [List.length_cons] at h
  simp [parseValueWith, skipSpace, isSpace, h]

/-- The scanner reads one `Chunk` object back as its two members. -/
theorem parseValue_jsonChunk (k : Nat) (c : Chunk) (t : Bytes) (hsz : 0 ≤ c.Size) :
    parseValue (k + 1) (jsonChunk c ++ t) =
      some (.obj [(ascii "blob", .str (appendStringLoop c.Blob.length c.Blob)),
        (ascii "size", .num (formatUint c.Size.toNat))], t) := by
  have e : jsonChunk c ++ t =
      123 :: 34 :: (ascii "blob" ++ 34 :: 58 ::
        (34 :: appendStringLoop c.Blob.length c.Blob ++ 34 :: 44 :: 34 ::
          (ascii "size" ++ 34 :: 58 :: (formatUint c.Size.toNat ++ 125 :: t)))) := by
    simp [jsonChunk, jsonString_plain _ plain_blob, jsonString_plain _ plain_size, jsonString_eq,
      formatInt_nonneg _ hsz]
  rw [e, parseValue_unfold]
  apply parseValueWith_object
  have h1 := parseValue_string k (appendStringLoop c.Blob.length c.Blob)
    (44 :: 34 :: (ascii "size" ++ 34 :: 58 :: (formatUint c.Size.toNat ++ 125 :: t)))
    (stringBody_appendStringLoop _ _)
  have h2 := parseValue_number k c.Size.toNat 125 t (Or.inr rfl)
  rw [parseMembers_more _ _ _ _ _ _ _ ?_ (stringBody_of_plain _ plain_blob) h1,
    parseMembers_last _ _ _ _ _ _ _ ?_ (stringBody_of_plain _ plain_size) h2]
  · rfl
  · simp only [List.length_cons, List.length_append]; omega
  · simp only [List.length_cons, List.length_append]; omega

theorem unquote_key_blob : unquote (ascii "blob") = some (ascii "blob") := unquote_plain _ plain_blob
theorem unquote_key_size : unquote (ascii "size") = some (ascii "size") := unquote_plain _ plain_size
theorem unquote_key_name : unquote (ascii "name") = some (ascii "name") := unquote_plain _ plain_name
theorem unquote_key_mimeType : unquote (ascii "mimeType") = some (ascii "mimeType") :=
  unquote_plain _ plain_mimeType
theorem unquote_key_chunks : unquote (ascii "chunks") = some (ascii "chunks") :=
  unquote_plain _ plain_chunks

theorem unquote_appendString_plain (s : Bytes) (h : ∀ b ∈ s, isPlain b = true) :
    unquote (appendStringLoop s.length s) = some s := by
  rw [appendStringLoop_plain _ s (le_refl _) h]
  exact unquote_plain s h

/-- Decoding the members of a written `Chunk` into a zero `Chunk` gives the `Chunk` back. -/
theorem decodeChunk_chunkJVal (c : Chunk) (h : GoodChunk c) :
    decodeChunk ⟨[], 0⟩ (chunkJVal c) = some c := by
  obtain ⟨h1, h2, h3⟩ := h
  have hp : parseInt (formatUint c.Size.toNat) = some c.Size := by
    rw [parseInt_formatUint _ (by omega)]
    congr 1
    omega
  have k1 : keyIs (ascii "blob") (ascii "blob") = true := by decide
  have k2 : keyIs (ascii "blob") (ascii "size") = false := by decide
  have k3 : keyIs (ascii "size") (ascii "size") = true := by decide
  simp [decodeChunk, chunkJVal, foldMembers, chunkMember, unquote_key_blob, unquote_key_size,
    k1, k2, k3, storeString, storeInt, unquote_appendString_plain _ h1, hp]

theorem decodeChunkList_map : ∀ cs : List Chunk, (∀ c ∈ cs, GoodChunk c) →
    decodeChunkList (cs.map chunkJVal) [] = some cs
  | [], _ => rfl
  | c :: cs, h => by
    simp only [List.map_cons, decodeChunkList, List.headD_nil, List.tail_nil,
      decodeChunk_chunkJVal c (h c (by simp)),
      decodeChunkList_map cs (fun y hy => h y (by simp [hy]))]

theorem length_jsonChunkList : ∀ cs : List Chunk, cs.length ≤ (jsonChunkList cs).length
  | [] => by simp [jsonChunkList]
  | [c] => by simp [jsonChunkList, jsonChunk]
  | c :: c1 :: cs => by
    have ih := length_jsonChunkList (c1 :: cs)
    simp only [jsonChunkList, List.length_append, List.length_cons, jsonChunk] at ih ⊢
    omega

theorem parseElems_chunks (k : Nat) : ∀ (cs : List Chunk) (fuel : Nat) (t : Bytes)
    (acc : List JVal), cs ≠ [] → cs.length ≤ fuel → (∀ c ∈ cs, 0 ≤ c.Size) →
    parseElems (fun x => parseValue (k + 1) x) fuel (jsonChunkList cs ++ 93 :: t) acc =
      some (acc ++ cs.map chunkJVal, t)
  | [], _, _, _, h, _, _ => absurd rfl h
  | [c], fuel, t, acc, _, hf, hs => by
    have hv := parseValue_jsonChunk k c (93 :: t) (hs c (by simp))
    simp only [List.length_singleton] at hf
    rw [jsonChunkList, parseElems_last _ _ _ _ _ _ (by omega) hv]
    rfl
  | c :: c1 :: cs, fuel, t, acc, _, hf, hs => by
    have hv := parseValue_jsonChunk k c (44 :: (jsonChunkList (c1 :: cs) ++ 93 :: t))
      (hs c (by simp))
    simp only [List.length_cons] at hf
    have ih := parseElems_chunks k (c1 :: cs) (fuel - 1) t (acc ++ [chunkJVal c]) (by simp)
      (by simp only [List.length_cons]; omega) (fun y hy => hs y (by simp [hy]))
    have e : jsonChunkList (c :: c1 :: cs) ++ 93 :: t =
        jsonChunk c ++ 44 :: (jsonChunkList (c1 :: cs) ++ 93 :: t) := by
      simp [jsonChunkList]
    rw [e, parseElems_more _ _ _ _ _ _ (by omega) hv]
    simpa [chunkJVal] using ih

theorem ascii_null : ascii "null" = [110, 117, 108, 108] := by decide

theorem jsonChunkList_head : ∀ cs : List Chunk, cs ≠ [] →
    ∃ r, jsonChunkList cs = 123 :: r
  | [], h => absurd rfl h
  | [c], _ => ⟨_, by simp [jsonChunkList, jsonChunk]; rfl⟩
  | c :: c1 :: cs, _ => ⟨_, by simp [jsonChunkList, jsonChunk]; rfl⟩

theorem scanLiteral_null (t : Bytes) :
    scanLiteral (ascii "null") (110 :: 117 :: 108 :: 108 :: t) = some t := by
  rw [ascii_null]
  simp [scanLiteral]

theorem parseValueWith_null (sub : Option (Bytes → Option (JVal × Bytes))) (t : Bytes) :
    parseValueWith sub (110 :: 117 :: 108 :: 108 :: 125 :: t) = some (.null, 125 :: t) := by
  simp [parseValueWith, skipSpace, isSpace, scanLiteral_null]

/-- The scanner reads the `chunks` field back: `null` for no chunks, else the array of
the chunk objects. -/
theorem parseValue_jsonChunks (k : Nat) (cs : List Chunk) (t : Bytes)
    (hs : ∀ c ∈ cs, 0 ≤ c.Size) :
    parseValue (k + 2) (jsonChunks cs ++ 125 :: t) = some (chunksJVal cs, 125 :: t) := by
  by_cases hnil : cs = []
  · subst hnil
    rw [parseValue_unfold]
    have e : jsonChunks [] ++ 125 :: t = 110 :: 117 :: 108 :: 108 :: 125 :: t := by
      rw [jsonChunks, if_pos rfl, ascii_null]
      rfl
    rw [e, parseValueWith_null]
    rfl
  · obtain ⟨r, hr⟩ := jsonChunkList_head cs hnil
    have hlen := length_jsonChunkList cs
    have hp := parseElems_chunks k cs (jsonChunkList cs ++ 93 :: 125 :: t).length (125 :: t) []
      hnil (by simp only [List.length_append]; omega) hs
    have e : jsonChunks cs ++ 125 :: t = 91 :: 123 :: (r ++ 93 :: 125 :: t) := by
      simp [jsonChunks, hnil, hr]
    rw [hr] at hp
    rw [e, parseValue_unfold]
    simp only [chunksJVal, hnil, if_false]
    exact parseValueWith_array _ _ _ _ (by simpa using hp)

/-- Storing the written `chunks` field into a manifest that holds no chunks yet, over an empty
backing array, gives the chunk list back and leaves nothing behind. -/
theorem storeChunks_chunksJVal (cs : List Chunk) (h : ∀ c ∈ cs, GoodChunk c) (m : Manifest)
    (hm : m.Chunks = []) :
    storeChunks (chunksJVal cs) ⟨m, []⟩ = some ⟨{ m with Chunks := cs }, []⟩ := by
  by_cases hnil : cs = []
  · subst hnil
    simp [chunksJVal, storeChunks]
  · have hne : (cs.map chunkJVal).isEmpty = false := by
      cases cs with
      | nil => exact absurd rfl hnil
      | cons a t => rfl
    simp only [chunksJVal, hnil, if_false, storeChunks, hne, hm, List.append_nil,
      decodeChunkList_map cs h, List.drop_nil]
    rfl

/-- The scanner reads a written manifest back as its four members, at any nesting budget of
three or more. -/
theorem parseValue_jsonMarshal (k : Nat) (m : Manifest) (hsz : 0 ≤ m.Size)
    (hcs : ∀ c ∈ m.Chunks, 0 ≤ c.Size) :
    parseValue (k + 3) (jsonMarshal m) =
      some (.obj [(ascii "name", .str (appendStringLoop m.Name.length m.Name)),
        (ascii "mimeType", .str (appendStringLoop m.MimeType.length m.MimeType)),
        (ascii "size", .num (formatUint m.Size.toNat)),
        (ascii "chunks", chunksJVal m.Chunks)], []) := by
  have e : jsonMarshal m =
      123 :: 34 :: (ascii "name" ++ 34 :: 58 ::
        (34 :: appendStringLoop m.Name.length m.Name ++ 34 :: 44 :: 34 ::
          (ascii "mimeType" ++ 34 :: 58 ::
            (34 :: appendStringLoop m.MimeType.length m.MimeType ++ 34 :: 44 :: 34 ::
              (ascii "size" ++ 34 :: 58 ::
                (formatUint m.Size.toNat ++ 44 :: 34 ::
                  (ascii "chunks" ++ 34 :: 58 :: (jsonChunks m.Chunks ++ 125 :: [])))))))) := by
    simp [jsonMarshal, jsonString_plain _ plain_name, jsonString_plain _ plain_mimeType,
      jsonString_plain _ plain_size, jsonString_plain _ plain_chunks, jsonString_eq,
      formatInt_nonneg _ hsz]
  have h4 := parseValue_jsonChunks k m.Chunks [] hcs
  have h3 := parseValue_number (k + 2) m.Size.toNat 44
    (34 :: (ascii "chunks" ++ 34 :: 58 :: (jsonChunks m.Chunks ++ 125 :: []))) (Or.inl rfl)
  have h2 := parseValue_string (k + 2) (appendStringLoop m.MimeType.length m.MimeType)
    (44 :: 34 :: (ascii "size" ++ 34 :: 58 ::
      (formatUint m.Size.toNat ++ 44 :: 34 ::
        (ascii "chunks" ++ 34 :: 58 :: (jsonChunks m.Chunks ++ 125 :: [])))))
    (stringBody_appendStringLoop _ _)
  have h1 := parseValue_string (k + 2) (appendStringLoop m.Name.length m.Name)
    (44 :: 34 :: (ascii "mimeType" ++ 34 :: 58 ::
      (34 :: appendStringLoop m.MimeType.length m.MimeType ++ 34 :: 44 :: 34 ::
        (ascii "size" ++ 34 :: 58 ::
          (formatUint m.Size.toNat ++ 44 :: 34 ::
            (ascii "chunks" ++ 34 :: 58 :: (jsonChunks m.Chunks ++ 125 :: [])))))))
    (stringBody_appendStringLoop _ _)
  rw [e, parseValue_unfold]
  apply parseValueWith_object
  rw [parseMembers_more _ _ _ _ _ _ _ ?_ (stringBody_of_plain _ plain_name) h1,
    parseMembers_more _ _ _ _ _ _ _ ?_ (stringBody_of_plain _ plain_mimeType) h2,
    parseMembers_more _ _ _ _ _ _ _ ?_ (stringBody_of_plain _ plain_size) h3,
    parseMembers_last _ _ _ _ _ _ _ ?_ (stringBody_of_plain _ plain_chunks) h4]
  · rfl
  · simp only [List.length_cons, List.length_append]; omega
  · simp only [List.length_cons, List.length_append]; omega
  · simp only [List.length_cons, List.length_append]; omega
  · simp only [List.length_cons, List.length_append]; omega

theorem maxNestingDepth_eq : maxNestingDepth = 9997 + 3 := rfl

theorem jsonParse_jsonMarshal (m : Manifest) (hsz : 0 ≤ m.Size)
    (hcs : ∀ c ∈ m.Chunks, 0 ≤ c.Size) :
    jsonParse (jsonMarshal m) =
      some (.obj [(ascii "name", .str (appendStringLoop m.Name.length m.Name)),
        (ascii "mimeType", .str (appendStringLoop m.MimeType.length m.MimeType)),
        (ascii "size", .num (formatUint m.Size.toNat)),
        (ascii "chunks", chunksJVal m.Chunks)]) := by
  rw [jsonParse, maxNestingDepth_eq, parseValue_jsonMarshal 9997 m hsz hcs]
  simp [skipSpace]

/-- Go `json.Unmarshal` accepts what `json.Marshal` wrote for a manifest and gives back its
size and its chunk list, entry by entry. -/
theorem jsonUnmarshal_jsonMarshal (m : Manifest) (hsz : 0 ≤ m.Size ∧ m.Size < 2 ^ 63)
    (hcs : ∀ c ∈ m.Chunks, GoodChunk c) :
    ∃ name mime, jsonUnmarshal (jsonMarshal m) = some ⟨name, mime, m.Size, m.Chunks⟩ := by
  obtain ⟨n1, hn1⟩ := unquote_appendString m.Name
  obtain ⟨n2, hn2⟩ := unquote_appendString m.MimeType
  have hp : parseInt (formatUint m.Size.toNat) = some m.Size := by
    rw [parseInt_formatUint _ (by omega)]
    congr 1
    omega
  have hc := storeChunks_chunksJVal m.Chunks hcs ⟨n1, n2, m.Size, []⟩ rfl
  have k1 : keyIs (ascii "name") (ascii "name") = true := by decide
  have k2 : keyIs (ascii "name") (ascii "mimeType") = false := by decide
  have k3 : keyIs (ascii "mimeType") (ascii "mimeType") = true := by decide
  have k4 : keyIs (ascii "name") (ascii "size") = false := by decide
  have k5 : keyIs (ascii "mimeType") (ascii "size") = false := by decide
  have k6 : keyIs (ascii "size") (ascii "size") = true := by decide
  have k7 : keyIs (ascii "name") (ascii "chunks") = false := by decide
  have k8 : keyIs (ascii "mimeType") (ascii "chunks") = false := by decide
  have k9 : keyIs (ascii "size") (ascii "chunks") = false := by decide
  have k10 : keyIs (ascii "chunks") (ascii "chunks") = true := by decide
  refine ⟨n1, n2, ?_⟩
  rw [jsonUnmarshal, jsonParse_jsonMarshal m hsz.1 (fun c hc => (hcs c hc).2.1)]
  simp [foldMembers, manifestMember, unquote_key_name, unquote_key_mimeType, unquote_key_size,
    unquote_key_chunks, k1, k2, k3, k4, k5, k6, k7, k8, k9, k10, storeString, storeInt, hn1, hn2,
    hp, hc]

/-! ## The in-memory node -/

theorem demoDA_eq (file : Bytes) : NewCelestiaDA (memNode file) demoConfig = .ok demoDA := by
  rfl

theorem memNode_store (file : Bytes) (c : CelestiaDA) (s : (memNode file).State)
    (message : Bytes) :
    Store (memNode file) c s message =
      (.ok (message, s.length % maxUint64 + 1),
        s ++ [(s.length % maxUint64 + 1, c.nspace, message)]) := by
  simp [Store, memNode]

theorem memNode_accepts (file : Bytes) (c : CelestiaDA) : Accepts (memNode file) c := by
  intro s message
  exact ⟨_, _, _, memNode_store file c s message⟩

theorem memNode_faithful (file : Bytes) (c : CelestiaDA) : Faithful (memNode file) c := by
  constructor
  · intro s message commitment height s1 h
    rw [memNode_store] at h
    simp only [Prod.mk.injEq, Except.ok.injEq] at h
    obtain ⟨⟨rfl, rfl⟩, rfl⟩ := h
    simp [memNode]
  · intro s message r s1 height nspace commitment data h hg
    rw [memNode_store] at h
    simp only [Prod.mk.injEq] at h
    obtain ⟨-, rfl⟩ := h
    simp only [memNode] at hg ⊢
    split at hg
    · rename_i hm
      simp only [Except.ok.injEq] at hg
      subst hg
      simp [hm]
    · simp at hg

/-! ## The submit flow -/

theorem submitChunks_of_accepts (n : Node) (c : CelestiaDA) (namespaceId : Bytes)
    (hacc : Accepts n c) : ∀ (chunks : List Bytes) (s : n.State),
    (submitChunks n c namespaceId chunks s).completed = true ∧
      (submitChunks n c namespaceId chunks s).stored = chunks
  | [], s => by simp [submitChunks]
  | chunk :: rest, s => by
    obtain ⟨cm, h, s1, hst⟩ := hacc s chunk
    have ih := submitChunks_of_accepts n c namespaceId hacc rest s1
    simp [submitChunks, hst, ih.1, ih.2]

/-- When no `Store` call of the chunk loop fails, the loop runs to its end, has passed every
chunk to `Store` in order, and has appended one entry per chunk with the length of the
chunk as its size. -/
theorem submitChunks_of_no_error (n : Node) (c : CelestiaDA) (namespaceId : Bytes) :
    ∀ (chunks : List Bytes) (s : n.State),
    (∀ e, Line.errorSubmittingBlob e ∉ (submitChunks n c namespaceId chunks s).out) →
    (submitChunks n c namespaceId chunks s).completed = true ∧
      (submitChunks n c namespaceId chunks s).stored = chunks ∧
      (submitChunks n c namespaceId chunks s).entries.map (fun e => e.Size) =
        chunks.map (fun ch => (ch.length : Int))
  | [], s, _ => by simp [submitChunks]
  | chunk :: rest, s, h => by
    rcases hst : Store n c s chunk with ⟨r, s1⟩
    cases r with
    | error err =>
      exact absurd (by simp [submitChunks, hst]) (h err)
    | ok p =>
      obtain ⟨cm, ht⟩ := p
      have ih := submitChunks_of_no_error n c namespaceId rest s1 (by
        intro e he
        exact h e (by simp [submitChunks, hst, he]))
      simp [submitChunks, hst, ih.1, ih.2.1, ih.2.2]

theorem submitChunks_no_error_of_accepts (n : Node) (c : CelestiaDA) (namespaceId : Bytes)
    (hacc : Accepts n c) : ∀ (chunks : List Bytes) (s : n.State) (e : Error),
    Line.errorSubmittingBlob e ∉ (submitChunks n c namespaceId chunks s).out
  | [], s, e => by simp [submitChunks]
  | chunk :: rest, s, e => by
    obtain ⟨cm, h, s1, hst⟩ := hacc s chunk
    have ih := submitChunks_no_error_of_accepts n c namespaceId hacc rest s1 e
    simp [submitChunks, hst, ih]

theorem sum_lengths_eq (chunks : List Bytes) :
    (chunks.map (fun ch => (ch.length : Int))).sum = (chunks.flatten.length : Int) := by
  induction chunks with
  | nil => simp
  | cons a t ih => simp [ih]

/-- C6: for every payload `P` and limit `L > 0`, when no `Store` call of the submit flow
fails, the manifest it builds has one entry per chunk of `split P L`, in the same order,
entry `i` records the length of chunk `i` as its size, and the `Size` field of the manifest
equals both `len(P)` and the sum of the entry sizes. -/
theorem C6_manifest_entries (n : Node) (c : CelestiaDA) (cfg : DAConfig) (flags : Flags)
    (P : Bytes) (s : n.State) (hL : 0 < flags.maxBlobSize)
    (hok : ∀ e, Line.errorSubmittingBlob e ∉ (submitFlow n c cfg flags P s).out ∧
      Line.errorSubmittingManifest e ∉ (submitFlow n c cfg flags P s).out) :
    ∃ chunks m, split P flags.maxBlobSize = .ok chunks ∧
      (submitFlow n c cfg flags P s).manifest = some m ∧
      m.Chunks.map (fun e => e.Size) = chunks.map (fun ch => (ch.length : Int)) ∧
      m.Size = (P.length : Int) ∧ m.Size = (m.Chunks.map (fun e => e.Size)).sum := by
  obtain ⟨chunks, hsplit, hcat⟩ := split_flatten P flags.maxBlobSize hL
  have hloop : ∀ e, Line.errorSubmittingBlob e ∉
      (submitChunks n c cfg.NamespaceId chunks s).out := by
    intro e he
    refine (hok e).1 ?_
    simp only [submitFlow, hsplit]
    split_ifs <;> (try split) <;> simp [he]
  obtain ⟨h1, h2, h3⟩ := submitChunks_of_no_error n c cfg.NamespaceId chunks s hloop
  refine ⟨chunks, ⟨flags.filename, (chooseMimeType n flags P).1, P.length,
    (submitChunks n c cfg.NamespaceId chunks s).entries⟩, hsplit, ?_, ?_⟩
  · simp only [submitFlow, hsplit, h1]
    split_ifs <;> (try split) <;> rfl
  · refine ⟨h3, rfl, ?_⟩
    simp only [h3, sum_lengths_eq, hcat]

theorem C6_manifest_entries_witness :
    (0 : Int) < (demoFlags 2).maxBlobSize ∧
    (∀ e, Line.errorSubmittingBlob e ∉
        (submitFlow (memNode []) demoDA demoConfig (demoFlags 2) [1, 2, 3, 4, 5] []).out ∧
      Line.errorSubmittingManifest e ∉
        (submitFlow (memNode []) demoDA demoConfig (demoFlags 2) [1, 2, 3, 4, 5] []).out) ∧
    ∃ chunks m, split [1, 2, 3, 4, 5] (demoFlags 2).maxBlobSize = .ok chunks ∧
      (submitFlow (memNode []) demoDA demoConfig (demoFlags 2) [1, 2, 3, 4, 5] []).manifest =
        some m ∧
      m.Chunks.map (fun e => e.Size) = chunks.map (fun ch => (ch.length : Int)) ∧
      m.Size = (([1, 2, 3, 4, 5] : Bytes).length : Int) ∧
      m.Size = (m.Chunks.map (fun e => e.Size)).sum :=
  have hok : ∀ e, Line.errorSubmittingBlob e ∉
        (submitFlow (memNode []) demoDA demoConfig (demoFlags 2) [1, 2, 3, 4, 5] []).out ∧
      Line.errorSubmittingManifest e ∉
        (submitFlow (memNode []) demoDA demoConfig (demoFlags 2) [1, 2, 3, 4, 5] []).out := by
    intro e
    have hout : ∃ a b c d g, (submitFlow (memNode []) demoDA demoConfig (demoFlags 2)
        [1, 2, 3, 4, 5] []).out =
        [.readBytes 5 (ascii "payload.bin"), .submittedBlob 2 1 a, .submittedBlob 2 2 b,
          .submittedBlob 1 3 c, .separator, .submittedManifest d 4 g] := ⟨_, _, _, _, _, rfl⟩
    obtain ⟨a, b, c, d, g, h⟩ := hout
    rw [h]
    simp
  ⟨by decide, hok,
    C6_manifest_entries (memNode []) demoDA demoConfig (demoFlags 2) [1, 2, 3, 4, 5] []
      (by decide) hok⟩

theorem reportedRoot_append (a b : List Line) :
    reportedRoot (a ++ b) =
      match reportedRoot b with
      | some r => some r
      | none => reportedRoot a := by
  induction a with
  | nil => cases h : reportedRoot b <;> simp [reportedRoot, h]
  | cons l a ih =>
    rw [List.cons_append, reportedRoot, ih]
    cases h : reportedRoot b <;> simp [reportedRoot]

theorem length_flatten_of_all (lim : Nat) : ∀ cs : List Bytes, (∀ c ∈ cs, c.length = lim) →
    cs.flatten.length = cs.length * lim
  | [], _ => by simp
  | c :: cs, h => by
    have ih := length_flatten_of_all lim cs (fun y hy => h y (by simp [hy]))
    have hc := h c (by simp)
    simp only [List.flatten_cons, List.length_append, List.length_cons, ih, hc, Nat.succ_mul]
    omega

/-- The number of chunks of `split`, and the shape of the result for short payloads. -/
theorem split_length (P : Bytes) (L : Int) (hL : 0 < L) :
    ∃ chunks, split P L = .ok chunks ∧ chunks.flatten = P ∧
      chunks.length = ceilDiv P.length L.toNat ∧
      (P ≠ [] → (P.length : Int) ≤ L → chunks = [P]) ∧ (P = [] → chunks = []) := by
  obtain ⟨cs, rest, h1, h2, h3, h4, h5⟩ := split_spec P L hL
  obtain ⟨k, rfl⟩ : ∃ k : Nat, L = (k : Int) := ⟨L.toNat, by omega⟩
  have hk : 0 < k := by exact_mod_cast hL
  have hrest : rest.length < k := by exact_mod_cast h4
  have hcs : cs.flatten.length = cs.length * k :=
    length_flatten_of_all k cs (fun c hc => by exact_mod_cast h3 c hc)
  have hlen : P.length = cs.length * k + rest.length := by
    rw [← h2, List.length_append, hcs]
  obtain ⟨chunks, hs, hcat⟩ := split_flatten P (k : Int) hL
  refine ⟨chunks, hs, hcat, ?_, ?_, ?_⟩
  · have hch : chunks = if rest.length > 0 then cs ++ [rest] else cs := by
      rw [h1] at hs
      exact (Except.ok.inj hs).symm
    simp only [ceilDiv, Int.toNat_ofNat]
    by_cases hr : rest.length > 0
    · rw [hch, if_pos hr, List.length_append, List.length_singleton]
      symm
      apply Nat.div_eq_of_lt_le
      · rw [hlen, Nat.add_mul, Nat.one_mul]; omega
      · rw [hlen, Nat.add_mul, Nat.add_mul, Nat.one_mul]; omega
    · rw [hch, if_neg hr]
      symm
      apply Nat.div_eq_of_lt_le
      · rw [hlen]; omega
      · rw [hlen, Nat.add_mul, Nat.one_mul]; omega
  · intro hne hle
    have hle1 : P.length ≤ k := by exact_mod_cast hle
    have hpos : 0 < P.length := List.length_pos.mpr hne
    have hch : chunks = if rest.length > 0 then cs ++ [rest] else cs := by
      rw [h1] at hs
      exact (Except.ok.inj hs).symm
    rcases Nat.eq_zero_or_pos cs.length with h0 | h0
    · have hnil : cs = [] := List.eq_nil_of_length_eq_zero h0
      subst hnil
      simp only [List.flatten_nil, List.nil_append] at h2
      subst h2
      rw [hch, if_pos hpos]
      rfl
    · have h1k : cs.length = 1 ∧ rest.length = 0 := by
        have : k ≤ cs.length * k := Nat.le_mul_of_pos_left k h0
        have h2k : cs.length * k ≤ k := by omega
        have : cs.length * k = 1 * k := by omega
        have := Nat.eq_of_mul_eq_mul_right hk this
        omega
      have hr : rest = [] := List.eq_nil_of_length_eq_zero h1k.2
      subst hr
      obtain ⟨c1, hc1⟩ := List.length_eq_one.mp h1k.1
      subst hc1
      simp only [List.flatten_cons, List.flatten_nil, List.append_nil] at h2
      subst h2
      rw [hch]
      simp
  · intro hnil
    subst hnil
    have hch : chunks = if rest.length > 0 then cs ++ [rest] else cs := by
      rw [h1] at hs
      exact (Except.ok.inj hs).symm
    have hr : rest = [] := by
      have := congrArg List.length h2
      simp only [List.length_append, List.length_nil] at this
      exact List.eq_nil_of_length_eq_zero (by omega)
    have hc0 : cs = [] := by
      apply List.eq_nil_of_length_eq_zero
      rw [h5]
      simp
    rw [hch, hr, hc0]
    rfl

theorem chooseMimeType_lines (n : Node) (flags : Flags) (data : Bytes) :
    ∀ l ∈ (chooseMimeType n flags data).2, lineRoot l = none := by
  intro l hl
  unfold chooseMimeType at hl
  split_ifs at hl
  · split at hl
    · simp only [List.mem_singleton] at hl
      subst hl
      rfl
    · simp at hl
  · simp at hl

theorem reportedRoot_none_of_all : ∀ ls : List Line, (∀ l ∈ ls, lineRoot l = none) →
    reportedRoot ls = none
  | [], _ => rfl
  | l :: ls, h => by
    rw [reportedRoot, reportedRoot_none_of_all ls (fun y hy => h y (by simp [hy]))]
    exact h l (by simp)

theorem lineRoot_none_not_manifest (l : Line) (h : lineRoot l = none) (sz hgt : Nat)
    (cm : Bytes) : l ≠ Line.submittedManifest sz hgt cm := by
  rintro rfl
  simp [lineRoot] at h

/-- C4 (amended): for every nonempty payload `P` and limit `L > 0` with `len(P) <= L`, over a
store that accepts every blob, the submit flow makes exactly one `Store` call, its message
is `P` itself, the locator that call returns is the root the flow reports, and no manifest
is stored. -/
theorem C4_single_chunk (n : Node) (c : CelestiaDA) (cfg : DAConfig) (flags : Flags)
    (P : Bytes) (s : n.State) (hacc : Accepts n c) (hL : 0 < flags.maxBlobSize)
    (hne : P ≠ []) (hlen : (P.length : Int) ≤ flags.maxBlobSize) :
    ∃ commitment height,
      Store n c s P = (.ok (commitment, height), (submitFlow n c cfg flags P s).state) ∧
      (submitFlow n c cfg flags P s).stored = [P] ∧
      reportedRoot (submitFlow n c cfg flags P s).out =
        some (height, hexEncodeToString commitment) ∧
      (∀ sz hgt cm, Line.submittedManifest sz hgt cm ∉ (submitFlow n c cfg flags P s).out) := by
  obtain ⟨chunks, hsplit, -, -, hone, -⟩ := split_length P flags.maxBlobSize hL
  have hch := hone hne hlen
  subst hch
  obtain ⟨cm, h, s1, hst⟩ := hacc s P
  have hmime := chooseMimeType_lines n flags P
  refine ⟨cm, h, ?_, ?_, ?_, ?_⟩
  · simp [submitFlow, hsplit, submitChunks, hst]
  · simp [submitFlow, hsplit, submitChunks, hst]
  · have hout : (submitFlow n c cfg flags P s).out =
        (Line.readBytes P.length flags.filename :: (chooseMimeType n flags P).2) ++
          [Line.submittedBlob P.length h (hexEncodeToString cm)] := by
      simp [submitFlow, hsplit, submitChunks, hst]
    rw [hout, reportedRoot_append]
    rfl
  · intro sz hgt cm1 hmem
    have hout : (submitFlow n c cfg flags P s).out =
        (Line.readBytes P.length flags.filename :: (chooseMimeType n flags P).2) ++
          [Line.submittedBlob P.length h (hexEncodeToString cm)] := by
      simp [submitFlow, hsplit, submitChunks, hst]
    rw [hout] at hmem
    simp only [List.cons_append, List.mem_cons, List.mem_append, List.mem_singleton,
      reduceCtorEq, false_or, or_false, List.not_mem_nil] at hmem
    exact lineRoot_none_not_manifest _ (hmime _ hmem) sz hgt cm1 rfl

theorem C4_single_chunk_witness :
    Accepts (memNode []) demoDA ∧ (0 : Int) < (demoFlags 4).maxBlobSize ∧
    ([7, 8, 9] : Bytes) ≠ [] ∧ ((([7, 8, 9] : Bytes).length : Int) ≤ (demoFlags 4).maxBlobSize) ∧
    ∃ commitment height,
      Store (memNode []) demoDA [] [7, 8, 9] = (.ok (commitment, height),
        (submitFlow (memNode []) demoDA demoConfig (demoFlags 4) [7, 8, 9] []).state) ∧
      (submitFlow (memNode []) demoDA demoConfig (demoFlags 4) [7, 8, 9] []).stored =
        [[7, 8, 9]] ∧
      reportedRoot (submitFlow (memNode []) demoDA demoConfig (demoFlags 4) [7, 8, 9] []).out =
        some (height, hexEncodeToString commitment) ∧
      (∀ sz hgt cm, Line.submittedManifest sz hgt cm ∉
        (submitFlow (memNode []) demoDA demoConfig (demoFlags 4) [7, 8, 9] []).out) :=
  ⟨memNode_accepts [] demoDA, by decide, by decide, by decide,
    C4_single_chunk (memNode []) demoDA demoConfig (demoFlags 4) [7, 8, 9] []
      (memNode_accepts [] demoDA) (by decide) (by decide) (by decide)⟩

/-- C4 as stated fails for the empty payload: `len(P) = 0 <= L`, the store accepts every
blob, and the submit flow makes no `Store` call at all and reports no root. -/
theorem C4_counterexample :
    Accepts (memNode []) demoDA ∧ (0 : Int) < (demoFlags 1).maxBlobSize ∧
    ((([] : Bytes).length : Int) ≤ (demoFlags 1).maxBlobSize) ∧
    (submitFlow (memNode []) demoDA demoConfig (demoFlags 1) [] []).stored = [] ∧
    reportedRoot (submitFlow (memNode []) demoDA demoConfig (demoFlags 1) [] []).out = none :=
  ⟨memNode_accepts [] demoDA, by decide, by decide, by rfl, by rfl⟩

/-- C5: for every payload `P` and limit `L > 0` with `len(P) > L`, over a store that accepts
every blob, the submit flow passes to `Store` the `ceil(len(P)/L)` chunks of `split P L`, in
order, and then exactly one more blob, the JSON text of the manifest: `ceil(len(P)/L) + 1`
calls in total. -/
theorem C5_multi_chunk (n : Node) (c : CelestiaDA) (cfg : DAConfig) (flags : Flags)
    (P : Bytes) (s : n.State) (hacc : Accepts n c) (hL : 0 < flags.maxBlobSize)
    (hlen : flags.maxBlobSize < (P.length : Int)) :
    ∃ chunks m, split P flags.maxBlobSize = .ok chunks ∧
      chunks.length = ceilDiv P.length flags.maxBlobSize.toNat ∧
      (submitFlow n c cfg flags P s).manifest = some m ∧
      (submitFlow n c cfg flags P s).stored = chunks ++ [jsonMarshal m] ∧
      (submitFlow n c cfg flags P s).stored.length =
        ceilDiv P.length flags.maxBlobSize.toNat + 1 := by
  obtain ⟨chunks, hsplit, -, hcount, -, -⟩ := split_length P flags.maxBlobSize hL
  obtain ⟨h1, h2⟩ := submitChunks_of_accepts n c cfg.NamespaceId hacc chunks s
  have hmany : chunks.length > 1 := by
    rw [hcount, ceilDiv]
    have hk : 0 < flags.maxBlobSize.toNat := by omega
    have h2L : 2 * flags.maxBlobSize.toNat ≤ P.length + flags.maxBlobSize.toNat - 1 := by omega
    have := (Nat.le_div_iff_mul_le hk).mpr h2L
    omega
  obtain ⟨cm, h, s1, hst⟩ := hacc (submitChunks n c cfg.NamespaceId chunks s).state
    (jsonMarshal ⟨flags.filename, (chooseMimeType n flags P).1, P.length,
      (submitChunks n c cfg.NamespaceId chunks s).entries⟩)
  refine ⟨chunks, ⟨flags.filename, (chooseMimeType n flags P).1, P.length,
    (submitChunks n c cfg.NamespaceId chunks s).entries⟩, hsplit, hcount, ?_, ?_, ?_⟩
  · simp [submitFlow, hsplit, h1, hmany, hst]
  · simp [submitFlow, hsplit, h1, hmany, hst, h2]
  · have hst2 : (submitFlow n c cfg flags P s).stored = chunks ++
        [jsonMarshal ⟨flags.filename, (chooseMimeType n flags P).1, P.length,
          (submitChunks n c cfg.NamespaceId chunks s).entries⟩] := by
      simp [submitFlow, hsplit, h1, hmany, hst, h2]
    rw [hst2, List.length_append, List.length_singleton, hcount]

theorem C5_multi_chunk_witness :
    Accepts (memNode []) demoDA ∧ (0 : Int) < (demoFlags 2).maxBlobSize ∧
    ((demoFlags 2).maxBlobSize < ((([1, 2, 3, 4, 5] : Bytes).length : Int))) ∧
    ∃ chunks m, split [1, 2, 3, 4, 5] (demoFlags 2).maxBlobSize = .ok chunks ∧
      chunks.length = ceilDiv ([1, 2, 3, 4, 5] : Bytes).length (demoFlags 2).maxBlobSize.toNat ∧
      (submitFlow (memNode []) demoDA demoConfig (demoFlags 2) [1, 2, 3, 4, 5] []).manifest =
        some m ∧
      (submitFlow (memNode []) demoDA demoConfig (demoFlags 2) [1, 2, 3, 4, 5] []).stored =
        chunks ++ [jsonMarshal m] ∧
      (submitFlow (memNode []) demoDA demoConfig (demoFlags 2) [1, 2, 3, 4, 5] []).stored.length =
        ceilDiv ([1, 2, 3, 4, 5] : Bytes).length (demoFlags 2).maxBlobSize.toNat + 1 :=
  ⟨memNode_accepts [] demoDA, by decide, by decide,
    C5_multi_chunk (memNode []) demoDA demoConfig (demoFlags 2) [1, 2, 3, 4, 5] []
      (memNode_accepts [] demoDA) (by decide) (by decide)⟩

/-! ## Reconstruction -/

theorem readChunks_cons_ok (n : Node) (s : n.State) (manifestSize : Int) (chunk : Chunk)
    (rest : List Chunk) (data : Bytes) (bytesFetched : Int) (g : Nat × Bytes × Bytes)
    (d : Bytes) (hdec : DecodesTo n chunk.Blob g) (hget : n.blobGet s g.1 g.2.1 g.2.2 = .ok d) :
    (readChunks n s manifestSize (chunk :: rest) data bytesFetched).result =
        (readChunks n s manifestSize rest (data ++ d) (addInt bytesFetched chunk.Size)).result ∧
      (readChunks n s manifestSize (chunk :: rest) data bytesFetched).gets =
        g :: (readChunks n s manifestSize rest (data ++ d) (addInt bytesFetched chunk.Size)).gets := by
  obtain ⟨p0, p1, p2, h0, h1, h2, h3⟩ := hdec
  obtain ⟨g1, g2, g3⟩ := g
  simp only at h1 h2 h3 hget
  simp [readChunks, h0, h1, h2, h3, hget]

/-- When every entry decodes and its `Get` succeeds, the loop of `Read` returns the
accumulator followed by the fetched blobs in manifest order. -/
theorem readChunks_ok (n : Node) (s : n.State) (manifestSize : Int) :
    ∀ (entries : List Chunk) (datas : List Bytes) (data : Bytes) (bytesFetched : Int),
    List.Forall₂ (fun e d => EntryFetches n s e.Blob d) entries datas →
    (readChunks n s manifestSize entries data bytesFetched).result = .ok (data ++ datas.flatten)
  | [], [], data, _, _ => by simp [readChunks]
  | e :: es, d :: ds, data, bf, h => by
    rw [List.forall₂_cons] at h
    obtain ⟨⟨g, hdec, hget⟩, hrest⟩ := h
    rw [(readChunks_cons_ok n s manifestSize e es data bf g d hdec hget).1,
      readChunks_ok n s manifestSize es ds (data ++ d) _ hrest]
    simp

/-- What the loop of `Read` returns and fetches depends on the locator strings of the
entries only, not on the declared sizes. -/
theorem readChunks_sizes_irrelevant (n : Node) (s : n.State) :
    ∀ (es1 es2 : List Chunk) (size1 size2 : Int) (data : Bytes) (bf1 bf2 : Int),
    es1.map (fun e => e.Blob) = es2.map (fun e => e.Blob) →
    (readChunks n s size1 es1 data bf1).result = (readChunks n s size2 es2 data bf2).result ∧
      (readChunks n s size1 es1 data bf1).gets = (readChunks n s size2 es2 data bf2).gets
  | [], [], _, _, _, _, _, _ => by simp [readChunks]
  | [], _ :: _, _, _, _, _, _, h => by simp at h
  | _ :: _, [], _, _, _, _, _, h => by simp at h
  | e1 :: es1, e2 :: es2, size1, size2, data, bf1, bf2, h => by
    simp only [List.map_cons, List.cons.injEq] at h
    obtain ⟨hb, ht⟩ := h
    simp only [readChunks, hb]
    split
    · split
      · simp
      · split
        · simp
        · split
          · simp
          · split
            · simp
            · rename_i chunkData _
              have ih := readChunks_sizes_irrelevant n s es1 es2 size1 size2
                (data ++ chunkData) (addInt bf1 e1.Size) (addInt bf2 e2.Size) ht
              simp [ih.1, ih.2]
    · simp

theorem Read_manifest (n : Node) (c : CelestiaDA) (s : n.State) (commitment : Bytes)
    (height : Nat) (commitmentBytes root : Bytes) (m : Manifest)
    (hhex : hexDecodeString commitment = .ok commitmentBytes)
    (hget : n.blobGet s height c.nspace commitmentBytes = .ok root)
    (hparse : jsonUnmarshal root = some m) :
    (Read n c s commitment height).result = (readChunks n s m.Size m.Chunks [] 0).result ∧
      (Read n c s commitment height).gets =
        (height, c.nspace, commitmentBytes) :: (readChunks n s m.Size m.Chunks [] 0).gets := by
  simp [Read, hhex, hget, hparse]

theorem Read_raw (n : Node) (c : CelestiaDA) (s : n.State) (commitment : Bytes)
    (height : Nat) (commitmentBytes root : Bytes)
    (hhex : hexDecodeString commitment = .ok commitmentBytes)
    (hget : n.blobGet s height c.nspace commitmentBytes = .ok root)
    (hparse : jsonUnmarshal root = none) :
    (Read n c s commitment height).result = .ok root := by
  simp [Read, hhex, hget, hparse]

/-! ## Keys that come again -/

/-- A `chunks` key that comes again is stored into the elements the first one left: the
entry keeps the locator of the first array and takes the size of the second. -/
theorem jsonUnmarshal_repeatedKeyRoot :
    jsonUnmarshal repeatedKeyRoot = some ⟨[], [], 0, [⟨ascii "1/6162/0102", 9⟩]⟩ := by
  rfl

theorem jsonUnmarshal_sizeOnlyRoot :
    jsonUnmarshal sizeOnlyRoot = some ⟨[], [], 0, [⟨[], 5⟩]⟩ := by
  rfl

/-- An element cut off by a shorter array is still in the backing array, and a later and
longer array is stored into it; `null` leaves an element as it is. -/
theorem jsonUnmarshal_staleElementRoot :
    jsonUnmarshal staleElementRoot = some ⟨[], [], 0, [⟨ascii "a", 1⟩, ⟨ascii "b", 0⟩]⟩ := by
  rfl

/-- After an empty array nothing of the earlier elements is left. -/
theorem jsonUnmarshal_emptiedRoot :
    jsonUnmarshal emptiedRoot = some ⟨[], [], 0, [⟨[], 1⟩]⟩ := by
  rfl

/-- On the root with the repeated key `Read` fetches the chunk at the locator of the first
array and returns its bytes; on the root without a locator it fails. -/
theorem Read_repeatedKeyRoot :
    (Read (memNode []) demoDA repeatedKeyState (hexEncodeToString repeatedKeyRoot) 2).result =
      .ok [1, 2] ∧
    (Read (memNode []) demoDA repeatedKeyState (hexEncodeToString sizeOnlyRoot) 3).result =
      .error .invalidChunkBlobFormat := by
  refine ⟨by rfl, by rfl⟩

/-- C8: when the root blob parses as a manifest, then (1) if every entry decodes and every
chunk `Get` succeeds, `Read` returns exactly the concatenation of the fetched blobs in
manifest order; (2) a second root whose manifest has the same locator strings gives the same
result, whatever the declared sizes of the two; (3) a manifest without chunks gives the empty
byte sequence. -/
theorem C8_read_concatenates (n : Node) (c : CelestiaDA) (s : n.State) (commitment : Bytes)
    (height : Nat) (commitmentBytes root : Bytes) (m : Manifest)
    (hhex : hexDecodeString commitment = .ok commitmentBytes)
    (hget : n.blobGet s height c.nspace commitmentBytes = .ok root)
    (hparse : jsonUnmarshal root = some m) :
    (∀ datas : List Bytes, List.Forall₂ (fun e d => EntryFetches n s e.Blob d) m.Chunks datas →
      (Read n c s commitment height).result = .ok datas.flatten) ∧
    (∀ (commitment2 : Bytes) (height2 : Nat) (commitmentBytes2 root2 : Bytes) (m2 : Manifest),
      hexDecodeString commitment2 = .ok commitmentBytes2 →
      n.blobGet s height2 c.nspace commitmentBytes2 = .ok root2 →
      jsonUnmarshal root2 = some m2 →
      m2.Chunks.map (fun e => e.Blob) = m.Chunks.map (fun e => e.Blob) →
      (Read n c s commitment2 height2).result = (Read n c s commitment height).result) ∧
    (m.Chunks = [] → (Read n c s commitment height).result = .ok []) := by
  have hr := (Read_manifest n c s commitment height commitmentBytes root m hhex hget hparse).1
  refine ⟨?_, ?_, ?_⟩
  · intro datas hall
    rw [hr, readChunks_ok n s m.Size m.Chunks datas [] 0 hall]
    simp
  · intro commitment2 height2 cb2 root2 m2 h1 h2 h3 h4
    rw [hr, (Read_manifest n c s commitment2 height2 cb2 root2 m2 h1 h2 h3).1]
    exact (readChunks_sizes_irrelevant n s m2.Chunks m.Chunks m2.Size m.Size [] 0 0 h4).1
  · intro hnil
    rw [hr, hnil]
    rfl

theorem C8_read_concatenates_witness :
    hexDecodeString (hexEncodeToString (jsonMarshal demoManifest)) =
      .ok (jsonMarshal demoManifest) ∧
    (memNode []).blobGet demoState 2 demoDA.nspace (jsonMarshal demoManifest) =
      .ok (jsonMarshal demoManifest) ∧
    jsonUnmarshal (jsonMarshal demoManifest) = some demoManifest ∧
    ((∀ datas : List Bytes,
      List.Forall₂ (fun e d => EntryFetches (memNode []) demoState e.Blob d)
        demoManifest.Chunks datas →
      (Read (memNode []) demoDA demoState (hexEncodeToString (jsonMarshal demoManifest)) 2).result =
        .ok datas.flatten) ∧
    (∀ (commitment2 : Bytes) (height2 : Nat) (commitmentBytes2 root2 : Bytes) (m2 : Manifest),
      hexDecodeString commitment2 = .ok commitmentBytes2 →
      (memNode []).blobGet demoState height2 demoDA.nspace commitmentBytes2 = .ok root2 →
      jsonUnmarshal root2 = some m2 →
      m2.Chunks.map (fun e => e.Blob) = demoManifest.Chunks.map (fun e => e.Blob) →
      (Read (memNode []) demoDA demoState commitment2 height2).result =
        (Read (memNode []) demoDA demoState
          (hexEncodeToString (jsonMarshal demoManifest)) 2).result) ∧
    (demoManifest.Chunks = [] →
      (Read (memNode []) demoDA demoState
        (hexEncodeToString (jsonMarshal demoManifest)) 2).result = .ok [])) :=
  ⟨hexDecode_encode _, by rfl, by rfl,
    C8_read_concatenates (memNode []) demoDA demoState
      (hexEncodeToString (jsonMarshal demoManifest)) 2 (jsonMarshal demoManifest)
      (jsonMarshal demoManifest) demoManifest (hexDecode_encode _) (by rfl) (by rfl)⟩

theorem isError_iff {ε α : Type} (r : Except ε α) : isError r = true ↔ ∃ e, r = .error e := by
  cases r <;> simp [isError]

theorem namespaceHex_error_of_hex_error (n : Node) (p1 : Bytes)
    (h : isError (hexDecodeString p1) = true) :
    ∃ e, namespaceHexToBlobNamespaceV0 n p1 = .error e := by
  obtain ⟨e, he⟩ := (isError_iff _).mp h
  exact ⟨e, by simp [namespaceHexToBlobNamespaceV0, he]⟩

/-- At a malformed entry the loop of `Read` stops with an error and without a `Get`. -/
theorem readChunks_malformed_head (n : Node) (s : n.State) (manifestSize : Int) (e : Chunk)
    (rest : List Chunk) (data : Bytes) (bf : Int) (hbad : malformedLocator e.Blob = true) :
    (∃ err, (readChunks n s manifestSize (e :: rest) data bf).result = .error err) ∧
      (readChunks n s manifestSize (e :: rest) data bf).gets = [] := by
  unfold malformedLocator at hbad
  rw [readChunks]
  split
  · rename_i p0 p1 p2 hsplit
    simp only [hsplit, Bool.or_eq_true] at hbad
    cases h0 : parseUint p0 with
    | error err => exact ⟨⟨err, rfl⟩, rfl⟩
    | ok chunkHeight =>
      cases h1 : namespaceHexToBlobNamespaceV0 n p1 with
      | error err => exact ⟨⟨err, rfl⟩, rfl⟩
      | ok chunkNamespace =>
        cases h2 : hexDecodeString p2 with
        | error err => exact ⟨⟨err, rfl⟩, rfl⟩
        | ok commitmentBytes =>
          exfalso
          rcases hbad with (hb | hb) | hb
          · simp [h0, isError] at hb
          · obtain ⟨e1, he1⟩ := namespaceHex_error_of_hex_error n p1 hb
            rw [h1] at he1
            simp at he1
          · simp [h2, isError] at hb
  · exact ⟨⟨_, rfl⟩, rfl⟩

/-- One round of the loop of `Read`: either it stops with an error, having made at most the
`Get` of this entry, or it goes on with the rest after that `Get`. -/
theorem readChunks_cons_cases (n : Node) (s : n.State) (manifestSize : Int) (e : Chunk)
    (rest : List Chunk) (data : Bytes) (bf : Int) :
    ((∃ err, (readChunks n s manifestSize (e :: rest) data bf).result = .error err) ∧
      ((readChunks n s manifestSize (e :: rest) data bf).gets = [] ∨
        ∃ g, DecodesTo n e.Blob g ∧
          (readChunks n s manifestSize (e :: rest) data bf).gets = [g])) ∨
    ∃ g d, DecodesTo n e.Blob g ∧
      (readChunks n s manifestSize (e :: rest) data bf).result =
        (readChunks n s manifestSize rest (data ++ d) (addInt bf e.Size)).result ∧
      (readChunks n s manifestSize (e :: rest) data bf).gets =
        g :: (readChunks n s manifestSize rest (data ++ d) (addInt bf e.Size)).gets := by
  rw [readChunks]
  split
  · rename_i p0 p1 p2 hsplit
    cases h0 : parseUint p0 with
    | error err => exact Or.inl ⟨⟨err, rfl⟩, Or.inl rfl⟩
    | ok chunkHeight =>
      cases h1 : namespaceHexToBlobNamespaceV0 n p1 with
      | error err => exact Or.inl ⟨⟨err, rfl⟩, Or.inl rfl⟩
      | ok chunkNamespace =>
        cases h2 : hexDecodeString p2 with
        | error err => exact Or.inl ⟨⟨err, rfl⟩, Or.inl rfl⟩
        | ok commitmentBytes =>
          have hdec : DecodesTo n e.Blob (chunkHeight, chunkNamespace, commitmentBytes) :=
            ⟨p0, p1, p2, hsplit, h0, h1, h2⟩
          cases h3 : n.blobGet s chunkHeight chunkNamespace commitmentBytes with
          | error err =>
            refine Or.inl ⟨⟨err, ?_⟩, Or.inr ⟨_, hdec, ?_⟩⟩ <;> simp [h3]
          | ok chunkData =>
            refine Or.inr ⟨_, chunkData, hdec, ?_, ?_⟩ <;> simp [h3]
  · exact Or.inl ⟨⟨_, rfl⟩, Or.inl rfl⟩

/-- With a malformed entry at index `i`, the loop of `Read` ends in an error, and every
`Get` it makes is the `Get` of an entry before `i`, in manifest order. -/
theorem readChunks_malformed (n : Node) (s : n.State) (manifestSize : Int) :
    ∀ (entries : List Chunk) (i : Nat) (e : Chunk) (data : Bytes) (bf : Int),
    entries[i]? = some e → malformedLocator e.Blob = true →
    (∃ err, (readChunks n s manifestSize entries data bf).result = .error err) ∧
      ∀ k g, (readChunks n s manifestSize entries data bf).gets[k]? = some g →
        k < i ∧ ∃ ek, entries[k]? = some ek ∧ DecodesTo n ek.Blob g
  | [], i, e, _, _, hi, _ => by simp at hi
  | x :: rest, 0, e, data, bf, hi, hbad => by
    simp only [List.getElem?_cons_zero, Option.some.injEq] at hi
    subst hi
    obtain ⟨h1, h2⟩ := readChunks_malformed_head n s manifestSize x rest data bf hbad
    refine ⟨h1, ?_⟩
    intro k g hk
    rw [h2] at hk
    simp at hk
  | x :: rest, i + 1, e, data, bf, hi, hbad => by
    simp only [List.getElem?_cons_succ] at hi
    rcases readChunks_cons_cases n s manifestSize x rest data bf with
      ⟨herr, hg | ⟨g0, hdec, hg⟩⟩ | ⟨g0, d, hdec, hres, hg⟩
    · refine ⟨herr, ?_⟩
      intro k g hk
      rw [hg] at hk
      simp at hk
    · refine ⟨herr, ?_⟩
      intro k g hk
      rw [hg] at hk
      cases k with
      | zero =>
        simp only [List.getElem?_cons_zero, Option.some.injEq] at hk
        subst hk
        exact ⟨Nat.succ_pos _, x, by simp, hdec⟩
      | succ k => simp at hk
    · obtain ⟨ih1, ih2⟩ := readChunks_malformed n s manifestSize rest i e (data ++ d)
        (addInt bf x.Size) hi hbad
      refine ⟨by rw [hres]; exact ih1, ?_⟩
      intro k g hk
      rw [hg] at hk
      cases k with
      | zero =>
        simp only [List.getElem?_cons_zero, Option.some.injEq] at hk
        subst hk
        exact ⟨Nat.succ_pos _, x, by simp, hdec⟩
      | succ k =>
        simp only [List.getElem?_cons_succ] at hk
        obtain ⟨hlt, ek, hek, hd⟩ := ih2 k g hk
        exact ⟨Nat.succ_lt_succ hlt, ek, by simpa using hek, hd⟩

/-- C9 (amended): when the root blob parses as a manifest whose entry `i` is a malformed
locator string, `Read` returns an error and no data, and every chunk `Get` it makes (the
calls after the `Get` of the root) is the `Get` of an entry before `i`, so no chunk at or
after the offending entry is fetched.  Nothing is said about what the error identifies. -/
theorem C9_malformed_locator_aborts (n : Node) (c : CelestiaDA) (s : n.State)
    (commitment : Bytes) (height : Nat) (commitmentBytes root : Bytes) (m : Manifest)
    (i : Nat) (e : Chunk)
    (hhex : hexDecodeString commitment = .ok commitmentBytes)
    (hget : n.blobGet s height c.nspace commitmentBytes = .ok root)
    (hparse : jsonUnmarshal root = some m)
    (hi : m.Chunks[i]? = some e) (hbad : malformedLocator e.Blob = true) :
    (∃ err, (Read n c s commitment height).result = .error err) ∧
      (Read n c s commitment height).gets.length ≤ i + 1 ∧
      ∀ k g, (Read n c s commitment height).gets[k + 1]? = some g →
        k < i ∧ ∃ ek, m.Chunks[k]? = some ek ∧ DecodesTo n ek.Blob g := by
  obtain ⟨hr, hg⟩ := Read_manifest n c s commitment height commitmentBytes root m hhex hget hparse
  obtain ⟨h1, h2⟩ := readChunks_malformed n s m.Size m.Chunks i e [] 0 hi hbad
  refine ⟨by rw [hr]; exact h1, ?_, ?_⟩
  · rw [hg, List.length_cons]
    by_contra hlt
    have hlt2 : i < (readChunks n s m.Size m.Chunks [] 0).gets.length := by omega
    have := (h2 i _ (List.getElem?_eq_getElem hlt2)).1
    omega
  · intro k g hk
    rw [hg] at hk
    simp only [List.getElem?_cons_succ] at hk
    exact h2 k g hk

theorem C9_malformed_locator_aborts_witness :
    hexDecodeString (hexEncodeToString (jsonMarshal badManifestB)) =
      .ok (jsonMarshal badManifestB) ∧
    (memNode []).blobGet demoState 5 demoDA.nspace (jsonMarshal badManifestB) =
      .ok (jsonMarshal badManifestB) ∧
    jsonUnmarshal (jsonMarshal badManifestB) = some badManifestB ∧
    badManifestB.Chunks[1]? = some ⟨ascii "y/z", 0⟩ ∧
    malformedLocator (ascii "y/z") = true ∧
    ((∃ err, (Read (memNode []) demoDA demoState
        (hexEncodeToString (jsonMarshal badManifestB)) 5).result = .error err) ∧
      (Read (memNode []) demoDA demoState
        (hexEncodeToString (jsonMarshal badManifestB)) 5).gets.length ≤ 1 + 1 ∧
      ∀ k g, (Read (memNode []) demoDA demoState
          (hexEncodeToString (jsonMarshal badManifestB)) 5).gets[k + 1]? = some g →
        k < 1 ∧ ∃ ek, badManifestB.Chunks[k]? = some ek ∧ DecodesTo (memNode []) ek.Blob g) :=
  ⟨hexDecode_encode _, by rfl, by rfl, by rfl, by rfl,
    C9_malformed_locator_aborts (memNode []) demoDA demoState
      (hexEncodeToString (jsonMarshal badManifestB)) 5 (jsonMarshal badManifestB)
      (jsonMarshal badManifestB) badManifestB 1 ⟨ascii "y/z", 0⟩ (hexDecode_encode _) (by rfl)
      (by rfl) (by rfl) (by rfl)⟩

/-- C9 as stated fails: the error `Read` returns does not identify the offending entry.  Two
manifests, one with the malformed locator `x` at index 0, the other with the malformed
locator `y/z` at index 1 after an entry that is fetched, make `Read` return the same error
value, the constant `Invalid chunk blob format`; for the first, the lines `Read` prints
do not mention the entry either. -/
theorem C9_counterexample :
    (jsonUnmarshal (jsonMarshal badManifestA) = some badManifestA ∧
      badManifestA.Chunks.map (fun e => malformedLocator e.Blob) = [true] ∧
      badManifestA.Chunks[0]? = some ⟨ascii "x", 0⟩) ∧
    (jsonUnmarshal (jsonMarshal badManifestB) = some badManifestB ∧
      badManifestB.Chunks.map (fun e => malformedLocator e.Blob) = [false, true] ∧
      badManifestB.Chunks[1]? = some ⟨ascii "y/z", 0⟩) ∧
    (Read (memNode []) demoDA demoState (hexEncodeToString (jsonMarshal badManifestA)) 4).result =
      .error .invalidChunkBlobFormat ∧
    (Read (memNode []) demoDA demoState (hexEncodeToString (jsonMarshal badManifestB)) 5).result =
      .error .invalidChunkBlobFormat ∧
    (Read (memNode []) demoDA demoState (hexEncodeToString (jsonMarshal badManifestA)) 4).out =
      [.requesting demoConfig.NamespaceId (hexEncodeToString (jsonMarshal badManifestA)) 4,
        .fetched demoConfig.NamespaceId 4 (hexEncodeToString (jsonMarshal badManifestA)),
        .detectedManifest] := by
  refine ⟨⟨by rfl, by rfl, by rfl⟩, ⟨by rfl, by rfl, by rfl⟩, by rfl, by rfl, by rfl⟩

/-! ## Submit, then read -/

theorem Store_height_lt (n : Node) (c : CelestiaDA) (s s1 : n.State) (message cm : Bytes)
    (h : Nat) (hst : Store n c s message = (.ok (cm, h), s1)) : h < 2 ^ 64 := by
  unfold Store at hst
  cases hb : n.newBlobV0 c.nspace message with
  | error err => simp [hb] at hst
  | ok dataBlob =>
    cases hcm : n.createCommitment dataBlob with
    | error err => simp [hb, hcm] at hst
    | ok commitment =>
      rcases hsub : n.blobSubmit s dataBlob with ⟨r, s2⟩
      cases r with
      | error err => simp [hb, hcm, hsub] at hst
      | ok height =>
        simp only [hb, hcm, hsub] at hst
        split_ifs at hst <;> cases hst
        exact n.submit_uint64 s dataBlob _ _ hsub

theorem submitChunks_kept (n : Node) (c : CelestiaDA) (namespaceId : Bytes)
    (hf : Faithful n c) : ∀ (chunks : List Bytes) (s : n.State) (h : Nat)
    (nspace cm d : Bytes), n.blobGet s h nspace cm = .ok d →
    n.blobGet (submitChunks n c namespaceId chunks s).state h nspace cm = .ok d
  | [], s, h, nspace, cm, d, hg => by simpa [submitChunks] using hg
  | chunk :: rest, s, h, nspace, cm, d, hg => by
    rcases hst : Store n c s chunk with ⟨r, s1⟩
    have hk := hf.fetch_kept s chunk r s1 h nspace cm d hst hg
    cases r with
    | error err => simpa [submitChunks, hst] using hk
    | ok p =>
      obtain ⟨cm1, h1⟩ := p
      have ih := submitChunks_kept n c namespaceId hf rest s1 h nspace cm d hk
      simpa [submitChunks, hst] using ih

/-- Over a store that accepts every blob and returns what was stored, every entry the chunk
loop appends is the locator of its chunk, with the length of the chunk as its size, and the
chunk can be fetched at that locator once the loop has ended. -/
theorem submitChunks_entries (n : Node) (c : CelestiaDA) (namespaceId : Bytes)
    (hacc : Accepts n c) (hf : Faithful n c) : ∀ (chunks : List Bytes) (s : n.State),
    List.Forall₂
      (fun e ch => ∃ h cm, e = ⟨locatorString h namespaceId cm, (ch.length : Int)⟩ ∧
        h < 2 ^ 64 ∧
        n.blobGet (submitChunks n c namespaceId chunks s).state h c.nspace cm = .ok ch)
      (submitChunks n c namespaceId chunks s).entries chunks
  | [], s => by simp [submitChunks]
  | chunk :: rest, s => by
    obtain ⟨cm, h, s1, hst⟩ := hacc s chunk
    have hlt := Store_height_lt n c s s1 chunk cm h hst
    have hget := hf.fetch_stored s chunk cm h s1 hst
    have hkept := submitChunks_kept n c namespaceId hf rest s1 h c.nspace cm chunk hget
    have ih := submitChunks_entries n c namespaceId hacc hf rest s1
    simp only [submitChunks, hst]
    exact List.Forall₂.cons ⟨h, cm, rfl, hlt, hkept⟩ ih

theorem isPlain_of_isDigit (b : Byte) (h : isDigit b = true) : isPlain b = true := by
  revert b
  decide

theorem isPlain_of_isHex (b : Byte) (h : isHex b = true) : isPlain b = true := by
  revert b
  decide

theorem isPlain_hexEncode (bs : Bytes) : ∀ b ∈ hexEncodeToString bs, isPlain b = true := by
  induction bs with
  | nil => simp [hexEncodeToString]
  | cons x rest ih =>
    have h1 : x.val / 16 < 16 := by have := x.isLt; omega
    have h2 : x.val % 16 < 16 := Nat.mod_lt _ (by decide)
    intro b hb
    simp only [hexEncodeToString, List.mem_cons] at hb
    rcases hb with rfl | rfl | hb
    · exact isPlain_of_isHex _ (isHex_hexDigit _ h1)
    · exact isPlain_of_isHex _ (isHex_hexDigit _ h2)
    · exact ih b hb

theorem isPlain_locatorString (h : Nat) (namespaceId cm : Bytes)
    (hns : ∀ x ∈ namespaceId, isHex x = true) :
    ∀ b ∈ locatorString h namespaceId cm, isPlain b = true := by
  intro b hb
  simp only [locatorString, List.mem_append, List.mem_singleton] at hb
  rcases hb with (((hb | hb) | hb) | hb) | hb
  · exact isPlain_of_isDigit b ((formatUint_shape h).1 b hb)
  · subst hb; decide
  · exact isPlain_of_isHex b (hns b hb)
  · subst hb; decide
  · exact isPlain_hexEncode cm b hb

/-- The locator text written by the submit flow decodes, the way `Read` decodes an entry, to
the height, the namespace and the commitment it was made from. -/
theorem decodesTo_locatorString (n : Node) (h : Nat) (namespaceId nspace cm : Bytes)
    (hh : h < 2 ^ 64) (hns : namespaceHexToBlobNamespaceV0 n namespaceId = .ok nspace) :
    DecodesTo n (locatorString h namespaceId cm) (h, nspace, cm) := by
  have hhex : ∀ x ∈ namespaceId, isHex x = true := by
    unfold namespaceHexToBlobNamespaceV0 at hns
    split at hns
    · simp at hns
    · rename_i nsBytes hdec
      exact hexDecode_ok_isHex namespaceId nsBytes hdec
  have h1 : slash ∉ formatUint h := formatUint_no_slash h
  have h2 : slash ∉ namespaceId := fun hm => isHex_ne_slash _ (hhex _ hm) rfl
  have h3 : slash ∉ hexEncodeToString cm := hexEncode_no_slash cm
  have e : locatorString h namespaceId cm =
      formatUint h ++ slash :: (namespaceId ++ slash :: hexEncodeToString cm) := by
    simp [locatorString]
  refine ⟨formatUint h, namespaceId, hexEncodeToString cm, ?_, parseUint_formatUint h hh, hns,
    hexDecode_encode cm⟩
  rw [e, stringsSplit_append slash _ _ h1, stringsSplit_append slash _ _ h2,
    stringsSplit_of_not_mem slash _ h3]

theorem namespaceId_isHex (n : Node) (namespaceId nspace : Bytes)
    (hns : namespaceHexToBlobNamespaceV0 n namespaceId = .ok nspace) :
    ∀ x ∈ namespaceId, isHex x = true := by
  unfold namespaceHexToBlobNamespaceV0 at hns
  split at hns
  · simp at hns
  · rename_i nsBytes hdec
    exact hexDecode_ok_isHex namespaceId nsBytes hdec

theorem NewCelestiaDA_ok (n : Node) (cfg : DAConfig) (c : CelestiaDA)
    (hc : NewCelestiaDA n cfg = .ok c) :
    c.cfg = cfg ∧ namespaceHexToBlobNamespaceV0 n cfg.NamespaceId = .ok c.nspace := by
  unfold NewCelestiaDA at hc
  split at hc
  · simp at hc
  · split_ifs at hc
    split at hc
    · simp at hc
    · rename_i nspace hns
      simp only [Except.ok.injEq] at hc
      subst hc
      exact ⟨rfl, hns⟩

theorem length_le_of_mem_flatten : ∀ (chunks : List Bytes) (ch : Bytes), ch ∈ chunks →
    ch.length ≤ chunks.flatten.length
  | [], _, h => by simp at h
  | a :: t, ch, h => by
    rcases List.mem_cons.mp h with rfl | h
    · simp
    · have := length_le_of_mem_flatten t ch h
      simp only [List.flatten_cons, List.length_append]
      omega

theorem forall₂_exists_of_mem {α β : Type} (R : α → β → Prop) :
    ∀ (l1 : List α) (l2 : List β), List.Forall₂ R l1 l2 → ∀ a ∈ l1, ∃ b ∈ l2, R a b
  | [], [], _, a, ha => by simp at ha
  | x :: l1, y :: l2, h, a, ha => by
    rw [List.forall₂_cons] at h
    rcases List.mem_cons.mp ha with rfl | ha
    · exact ⟨y, by simp, h.1⟩
    · obtain ⟨b, hb, hr⟩ := forall₂_exists_of_mem R l1 l2 h.2 a ha
      exact ⟨b, by simp [hb], hr⟩

/-- The submit flow on a payload of one chunk, over a store that accepts every blob: one
`Store` call, whose locator is the root reported. -/
theorem submitFlow_single (n : Node) (c : CelestiaDA) (cfg : DAConfig) (flags : Flags)
    (P : Bytes) (s s1 : n.State) (cm : Bytes) (h : Nat)
    (hsplit : split P flags.maxBlobSize = .ok [P])
    (hst : Store n c s P = (.ok (cm, h), s1)) :
    (submitFlow n c cfg flags P s).state = s1 ∧
      reportedRoot (submitFlow n c cfg flags P s).out = some (h, hexEncodeToString cm) := by
  have hout : (submitFlow n c cfg flags P s).out =
      (Line.readBytes P.length flags.filename :: (chooseMimeType n flags P).2) ++
        [Line.submittedBlob P.length h (hexEncodeToString cm)] := by
    simp [submitFlow, hsplit, submitChunks, hst]
  refine ⟨by simp [submitFlow, hsplit, submitChunks, hst], ?_⟩
  rw [hout, reportedRoot_append]
  rfl

/-- The submit flow on a payload of several chunks, over a store that accepts every blob:
after the chunk loop the manifest is stored, and its locator is the root reported. -/
theorem submitFlow_multi (n : Node) (c : CelestiaDA) (cfg : DAConfig) (flags : Flags)
    (P : Bytes) (s s2 : n.State) (chunks : List Bytes) (cm : Bytes) (h : Nat)
    (hsplit : split P flags.maxBlobSize = .ok chunks) (hmany : chunks.length > 1)
    (hdone : (submitChunks n c cfg.NamespaceId chunks s).completed = true)
    (hst : Store n c (submitChunks n c cfg.NamespaceId chunks s).state
      (jsonMarshal ⟨flags.filename, (chooseMimeType n flags P).1, P.length,
        (submitChunks n c cfg.NamespaceId chunks s).entries⟩) = (.ok (cm, h), s2)) :
    (submitFlow n c cfg flags P s).state = s2 ∧
      reportedRoot (submitFlow n c cfg flags P s).out = some (h, hexEncodeToString cm) := by
  have hout : (submitFlow n c cfg flags P s).out =
      (Line.readBytes P.length flags.filename :: (chooseMimeType n flags P).2 ++
        (submitChunks n c cfg.NamespaceId chunks s).out) ++
        [Line.separator, Line.submittedManifest
          (jsonMarshal ⟨flags.filename, (chooseMimeType n flags P).1, P.length,
            (submitChunks n c cfg.NamespaceId chunks s).entries⟩).length h
          (hexEncodeToString cm)] := by
    simp [submitFlow, hsplit, hdone, hmany, hst]
  refine ⟨by simp [submitFlow, hsplit, hdone, hmany, hst], ?_⟩
  rw [hout, reportedRoot_append]
  rfl

/-- C1 (amended): for every nonempty payload `P` (of a length that fits a Go `int`) and every
limit `L > 0`, over a blob store that accepts every blob and whose `Get` returns exactly the
bytes stored at a locator, the submit flow reports a root locator, and `Read` on that root
returns exactly `P`, byte for byte, when `P` needed more than one chunk, and also when `P`
fit one chunk and its bytes do not parse as a manifest. -/
theorem C1_read_after_submit (n : Node) (c : CelestiaDA) (cfg : DAConfig) (flags : Flags)
    (P : Bytes) (s : n.State) (hc : NewCelestiaDA n cfg = .ok c) (hacc : Accepts n c)
    (hf : Faithful n c) (hL : 0 < flags.maxBlobSize) (hne : P ≠ []) (hsize : P.length < 2 ^ 63)
    (hraw : (P.length : Int) ≤ flags.maxBlobSize → jsonUnmarshal P = none) :
    ∃ height commitment,
      reportedRoot (submitFlow n c cfg flags P s).out = some (height, commitment) ∧
      (Read n c (submitFlow n c cfg flags P s).state commitment height).result = .ok P := by
  obtain ⟨chunks, hsplit, hcat, hcount, hone, -⟩ := split_length P flags.maxBlobSize hL
  obtain ⟨-, hns⟩ := NewCelestiaDA_ok n cfg c hc
  by_cases hle : (P.length : Int) ≤ flags.maxBlobSize
  · have hch := hone hne hle
    subst hch
    obtain ⟨cm, h, s1, hst⟩ := hacc s P
    obtain ⟨h1, h2⟩ := submitFlow_single n c cfg flags P s s1 cm h hsplit hst
    refine ⟨h, hexEncodeToString cm, h2, ?_⟩
    rw [h1]
    exact Read_raw n c s1 _ h cm P (hexDecode_encode cm) (hf.fetch_stored s P cm h s1 hst)
      (hraw hle)
  · have hmany : chunks.length > 1 := by
      rw [hcount, ceilDiv]
      have hk : 0 < flags.maxBlobSize.toNat := by omega
      have h2L : 2 * flags.maxBlobSize.toNat ≤ P.length + flags.maxBlobSize.toNat - 1 := by
        omega
      have := (Nat.le_div_iff_mul_le hk).mpr h2L
      omega
    obtain ⟨hdone, -⟩ := submitChunks_of_accepts n c cfg.NamespaceId hacc chunks s
    have hent := submitChunks_entries n c cfg.NamespaceId hacc hf chunks s
    obtain ⟨cm, h, s2, hst⟩ := hacc (submitChunks n c cfg.NamespaceId chunks s).state
      (jsonMarshal ⟨flags.filename, (chooseMimeType n flags P).1, P.length,
        (submitChunks n c cfg.NamespaceId chunks s).entries⟩)
    obtain ⟨h1, h2⟩ := submitFlow_multi n c cfg flags P s s2 chunks cm h hsplit hmany hdone hst
    refine ⟨h, hexEncodeToString cm, h2, ?_⟩
    rw [h1]
    have hgood : ∀ e ∈ (submitChunks n c cfg.NamespaceId chunks s).entries, GoodChunk e := by
      intro e he
      obtain ⟨ch, hch, hh, hcm, rfl, -, -⟩ := forall₂_exists_of_mem _ _ _ hent e he
      refine ⟨isPlain_locatorString hh cfg.NamespaceId hcm
        (namespaceId_isHex n cfg.NamespaceId c.nspace hns), ?_, ?_⟩
      · exact Int.ofNat_nonneg _
      · have := length_le_of_mem_flatten chunks ch hch
        rw [hcat] at this
        show ((ch.length : Nat) : Int) < 2 ^ 63
        have h63 : ((2 : Int) ^ 63) = ((2 ^ 63 : Nat) : Int) := by norm_num
        rw [h63]
        exact_mod_cast Nat.lt_of_le_of_lt this hsize
    have hsz : (0 : Int) ≤ (P.length : Int) ∧ ((P.length : Nat) : Int) < 2 ^ 63 := by
      refine ⟨Int.ofNat_nonneg _, ?_⟩
      have h63 : ((2 : Int) ^ 63) = ((2 ^ 63 : Nat) : Int) := by norm_num
      rw [h63]
      exact_mod_cast hsize
    obtain ⟨name, mime, hparse⟩ := jsonUnmarshal_jsonMarshal
      ⟨flags.filename, (chooseMimeType n flags P).1, P.length,
        (submitChunks n c cfg.NamespaceId chunks s).entries⟩ hsz hgood
    have hroot := hf.fetch_stored _ _ cm h s2 hst
    rw [(Read_manifest n c s2 _ h cm _ _ (hexDecode_encode cm) hroot hparse).1]
    have hfetch : List.Forall₂ (fun e d => EntryFetches n s2 e.Blob d)
        (submitChunks n c cfg.NamespaceId chunks s).entries chunks := by
      refine List.Forall₂.imp ?_ hent
      rintro e ch ⟨hh, hcm, rfl, hlt, hget⟩
      exact ⟨(hh, c.nspace, hcm),
        decodesTo_locatorString n hh cfg.NamespaceId c.nspace hcm hlt hns,
        hf.fetch_kept _ _ _ s2 hh c.nspace hcm ch hst hget⟩
    rw [readChunks_ok n s2 _ _ chunks [] 0 hfetch]
    simp [hcat]

theorem C1_read_after_submit_witness :
    NewCelestiaDA (memNode []) demoConfig = .ok demoDA ∧ Accepts (memNode []) demoDA ∧
    Faithful (memNode []) demoDA ∧ (0 : Int) < (demoFlags 2).maxBlobSize ∧
    ([1, 2, 3, 4, 5] : Bytes) ≠ [] ∧ ([1, 2, 3, 4, 5] : Bytes).length < 2 ^ 63 ∧
    ((([1, 2, 3, 4, 5] : Bytes).length : Int) ≤ (demoFlags 2).maxBlobSize →
      jsonUnmarshal [1, 2, 3, 4, 5] = none) ∧
    ∃ height commitment,
      reportedRoot (submitFlow (memNode []) demoDA demoConfig (demoFlags 2)
        [1, 2, 3, 4, 5] []).out = some (height, commitment) ∧
      (Read (memNode []) demoDA
        (submitFlow (memNode []) demoDA demoConfig (demoFlags 2) [1, 2, 3, 4, 5] []).state
        commitment height).result = .ok [1, 2, 3, 4, 5] :=
  ⟨demoDA_eq [], memNode_accepts [] demoDA, memNode_faithful [] demoDA, by decide, by decide,
    by norm_num, fun _ => by decide,
    C1_read_after_submit (memNode []) demoDA demoConfig (demoFlags 2) [1, 2, 3, 4, 5] []
      (demoDA_eq []) (memNode_accepts [] demoDA) (memNode_faithful [] demoDA) (by decide)
      (by decide) (by norm_num) (fun _ => by decide)⟩

/-- C1 as stated fails on two payloads, over a store that accepts every blob and returns what
was stored.  The two bytes `{}` fit one chunk; the flow stores them and reports their locator
as the root; `Read` on that root parses the blob as a manifest without chunks and returns
the empty byte sequence.  The empty payload yields no chunk: nothing is stored and no root
is reported. -/
theorem C1_counterexample :
    NewCelestiaDA (memNode []) demoConfig = .ok demoDA ∧ Accepts (memNode []) demoDA ∧
    Faithful (memNode []) demoDA ∧ (0 : Int) < (demoFlags 4).maxBlobSize ∧
    reportedRoot (submitFlow (memNode []) demoDA demoConfig (demoFlags 4) [123, 125] []).out =
      some (1, hexEncodeToString [123, 125]) ∧
    (Read (memNode []) demoDA
      (submitFlow (memNode []) demoDA demoConfig (demoFlags 4) [123, 125] []).state
      (hexEncodeToString [123, 125]) 1).result = .ok [] ∧
    ([] : Bytes) ≠ [123, 125] ∧
    reportedRoot (submitFlow (memNode []) demoDA demoConfig (demoFlags 4) [] []).out = none :=
  ⟨demoDA_eq [], memNode_accepts [] demoDA, memNode_faithful [] demoDA, by decide, by rfl,
    by rfl, by decide, by rfl⟩

/-! ## The chunk limit -/

/-- With a limit of zero or less `split` ends in a panic. -/
theorem split_nonpositive (buf : Bytes) (lim : Int) (h : lim ≤ 0) :
    ∃ f, split buf lim = .error f := by
  rcases lt_or_eq_of_le h with hlt | heq
  · have hne : ¬ (lim = 0) := by omega
    unfold split
    simp only [hne, if_false]
    split
    · exact ⟨_, rfl⟩
    · have hge : (buf.length : Int) ≥ lim := by omega
      exact ⟨.sliceBounds, by simp [splitLoop, hge, hlt]⟩
  · exact ⟨.divideByZero, by simp [split, heq]⟩

/-- The submit branch calls `split` with whatever `-max-blob-size` holds: for a limit of
zero or less the run ends in the panic of `split`, after the file was read and before any
`Store` call. -/
theorem submitFlow_nonpositive_limit (n : Node) (c : CelestiaDA) (cfg : DAConfig)
    (flags : Flags) (data : Bytes) (s : n.State) (h : flags.maxBlobSize ≤ 0) :
    ∃ f, split data flags.maxBlobSize = .error f ∧
      (submitFlow n c cfg flags data s).fault = some f ∧
      (submitFlow n c cfg flags data s).stored = [] ∧
      (submitFlow n c cfg flags data s).out =
        Line.readBytes data.length flags.filename :: (chooseMimeType n flags data).2 := by
  obtain ⟨f, hf⟩ := split_nonpositive data flags.maxBlobSize h
  exact ⟨f, hf, by simp [submitFlow, hf], by simp [submitFlow, hf], by simp [submitFlow, hf]⟩

/-- C10 fails on the code: `main` run with `-max-blob-size=0` (and with `-1`) on a file of
three bytes does not reject the limit; it reads the file, calls `split` with the limit and
ends in the panic of `split` (integer division by zero, or a negative capacity passed to
`make`), with no `Store` call made and no message about the limit printed. -/
theorem C10_nonpositive_limit_reaches_split :
    split [1, 2, 3] 0 = .error .divideByZero ∧
    (main (memNode [1, 2, 3]) (demoFlags 0) []).fault = some .divideByZero ∧
    (main (memNode [1, 2, 3]) (demoFlags 0) []).stored = [] ∧
    (main (memNode [1, 2, 3]) (demoFlags 0) []).out = [.readBytes 3 (ascii "payload.bin")] ∧
    split [1, 2, 3] (-1) = .error .makesliceCap ∧
    (main (memNode [1, 2, 3]) (demoFlags (-1)) []).fault = some .makesliceCap ∧
    (main (memNode [1, 2, 3]) (demoFlags (-1)) []).stored = [] ∧
    (main (memNode [1, 2, 3]) (demoFlags (-1)) []).out = [.readBytes 3 (ascii "payload.bin")] := by
  refine ⟨by rfl, by rfl, by rfl, by rfl, by rfl, by rfl, by rfl, by rfl⟩

/-! ## The loop budgets of the JSON model are never used up -/

theorem skipSpace_length_le : ∀ x : Bytes, (skipSpace x).length ≤ x.length
  | [] => by simp [skipSpace]
  | b :: rest => by
    have ih := skipSpace_length_le rest
    rw [skipSpace]
    split_ifs
    · simp only [List.length_cons]; omega
    · exact le_refl _

/-- What `scanString` returns puts the input back together: the body, the closing quote,
the rest. -/
theorem scanString_eq_append : ∀ (n : Nat) (x body r : Bytes), x.length ≤ n →
    scanString x = some (body, r) → x = body ++ 34 :: r := by
  intro n
  induction n with
  | zero =>
    intro x body r hlen h
    have : x = [] := List.eq_nil_of_length_eq_zero (by omega)
    subst this
    rw [scanString.eq_def] at h
    simp at h
  | succ n ih =>
    intro x body r hlen h
    cases x with
    | nil => rw [scanString.eq_def] at h; simp at h
    | cons b rest =>
      simp only [List.length_cons] at hlen
      by_cases h34 : b = 34
      · subst h34
        rw [scanString_quote] at h
        simp only [Option.some.injEq, Prod.mk.injEq] at h
        obtain ⟨rfl, rfl⟩ := h
        rfl
      · by_cases h92 : b = 92
        · subst h92
          cases rest with
          | nil => rw [scanString.eq_def] at h; simp at h
          | cons e rest1 =>
            simp only [List.length_cons] at hlen
            by_cases hu : e = 117
            · subst hu
              rcases rest1 with _ | ⟨h1, _ | ⟨h2, _ | ⟨h3, _ | ⟨h4, rest2⟩⟩⟩⟩
              · rw [scanString.eq_def] at h; simp at h
              · rw [scanString.eq_def] at h; simp at h
              · rw [scanString.eq_def] at h; simp at h
              · rw [scanString.eq_def] at h; simp at h
              · simp only [List.length_cons] at hlen
                by_cases hx : isHex h1 = true ∧ isHex h2 = true ∧ isHex h3 = true ∧
                    isHex h4 = true
                · rw [scanString_unicode h1 h2 h3 h4 rest2 hx.1 hx.2.1 hx.2.2.1 hx.2.2.2] at h
                  cases hr : scanString rest2 with
                  | none => rw [hr] at h; simp at h
                  | some p =>
                    obtain ⟨body1, r1⟩ := p
                    rw [hr] at h
                    simp only [Option.some.injEq, Prod.mk.injEq] at h
                    obtain ⟨rfl, rfl⟩ := h
                    have := ih rest2 body1 r1 (by omega) hr
                    simp [← this]
                · rw [scanString.eq_def] at h
                  simp only [Bool.and_eq_true] at h
                  have hx2 : ¬ (((isHex h1 = true ∧ isHex h2 = true) ∧ isHex h3 = true) ∧
                      isHex h4 = true) := by
                    rintro ⟨⟨⟨a1, a2⟩, a3⟩, a4⟩
                    exact hx ⟨a1, a2, a3, a4⟩
                  simp [hx2] at h
            · by_cases he : e = 34 ∨ e = 92 ∨ e = 47 ∨ e = 98 ∨ e = 102 ∨ e = 110 ∨ e = 114 ∨
                  e = 116
              · rw [scanString_escape e rest1 he] at h
                cases hr : scanString rest1 with
                | none => rw [hr] at h; simp at h
                | some p =>
                  obtain ⟨body1, r1⟩ := p
                  rw [hr] at h
                  simp only [Option.some.injEq, Prod.mk.injEq] at h
                  obtain ⟨rfl, rfl⟩ := h
                  have := ih rest1 body1 r1 (by omega) hr
                  simp [← this]
              · rw [scanString.eq_def] at h
                simp [hu, he] at h
        · by_cases hc : b.val < 0x20
          · rw [scanString.eq_def] at h
            simp [h34, h92, hc] at h
          · rw [scanString_byte b rest (by omega) h34 h92] at h
            cases hr : scanString rest with
            | none => rw [hr] at h; simp at h
            | some p =>
              obtain ⟨body1, r1⟩ := p
              rw [hr] at h
              simp only [Option.some.injEq, Prod.mk.injEq] at h
              obtain ⟨rfl, rfl⟩ := h
              have := ih rest body1 r1 (by omega) hr
              simp [← this]

theorem scanString_length_lt (x body r : Bytes) (h : scanString x = some (body, r)) :
    r.length < x.length := by
  have := scanString_eq_append x.length x body r (le_refl _) h
  rw [this]
  simp only [List.length_append, List.length_cons]
  omega

theorem takeDigits_length_le : ∀ x : Bytes, (takeDigits x).2.length ≤ x.length
  | [] => by simp [takeDigits]
  | b :: rest => by
    have ih := takeDigits_length_le rest
    rw [takeDigits]
    split_ifs
    · simp only [List.length_cons]; omega
    · exact le_refl _

theorem scanExp_length_le (lit x l r : Bytes) (h : scanExp lit x = some (l, r)) :
    r.length ≤ x.length := by
  cases x with
  | nil =>
    simp only [scanExp, Option.some.injEq, Prod.mk.injEq] at h
    obtain ⟨-, rfl⟩ := h
    exact le_refl _
  | cons e rest =>
    by_cases he : e = 101 ∨ e = 69
    · simp only [scanExp, he, if_true] at h
      cases rest with
      | nil => simp at h
      | cons sg rest1 =>
        simp only at h
        by_cases hs : sg = 43 ∨ sg = 45
        · simp only [hs, if_true] at h
          split_ifs at h
          simp only [Option.some.injEq, Prod.mk.injEq] at h
          obtain ⟨-, rfl⟩ := h
          exact Nat.le_trans (takeDigits_length_le _) (by simp only [List.length_cons]; omega)
        · simp only [hs, if_false] at h
          split_ifs at h
          simp only [Option.some.injEq, Prod.mk.injEq] at h
          obtain ⟨-, rfl⟩ := h
          exact Nat.le_trans (takeDigits_length_le _) (by simp only [List.length_cons]; omega)
    · simp only [scanExp, he, if_false, Option.some.injEq, Prod.mk.injEq] at h
      obtain ⟨-, rfl⟩ := h
      exact le_refl _

theorem scanFrac_length_le (lit x l r : Bytes) (h : scanFrac lit x = some (l, r)) :
    r.length ≤ x.length := by
  cases x with
  | nil =>
    simp only [scanFrac, Option.some.injEq, Prod.mk.injEq] at h
    obtain ⟨-, rfl⟩ := h
    exact le_refl _
  | cons d rest =>
    by_cases hd : d = 46
    · simp only [scanFrac, hd, if_true] at h
      split_ifs at h
      have h1 := takeDigits_length_le rest
      have h2 := scanExp_length_le _ _ _ _ h
      simp only [List.length_cons]
      omega
    · simp only [scanFrac, hd, if_false] at h
      exact scanExp_length_le _ _ _ _ h

theorem scanInt_length_lt (sign x l r : Bytes) (h : scanInt sign x = some (l, r)) :
    r.length < x.length := by
  cases x with
  | nil => simp [scanInt] at h
  | cons d rest =>
    by_cases hd : d = 48
    · simp only [scanInt, hd, if_true] at h
      have := scanFrac_length_le _ _ _ _ h
      simp only [List.length_cons]
      omega
    · simp only [scanInt, hd, if_false] at h
      split_ifs at h
      have h1 := takeDigits_length_le rest
      have h2 := scanFrac_length_le _ _ _ _ h
      simp only [List.length_cons]
      omega

theorem scanNumber_length_lt (x l r : Bytes) (h : scanNumber x = some (l, r)) :
    r.length < x.length := by
  cases x with
  | nil => simp [scanNumber] at h
  | cons sg rest =>
    by_cases hs : sg = 45
    · simp only [scanNumber, hs, if_true] at h
      have := scanInt_length_lt _ _ _ _ h
      simp only [List.length_cons]
      omega
    · simp only [scanNumber, hs, if_false] at h
      exact scanInt_length_lt _ _ _ _ h

theorem scanLiteral_length_le (lit x r : Bytes) (h : scanLiteral lit x = some r) :
    r.length ≤ x.length := by
  unfold scanLiteral at h
  split_ifs at h
  simp only [Option.some.injEq] at h
  subst h
  simp
theorem parseElems_length_lt (pv : Bytes → Option (JVal × Bytes)) (hpv : Consumes pv) :
    ∀ (fuel : Nat) (inp : Bytes) (acc xs : List JVal) (r : Bytes),
    parseElems pv fuel inp acc = some (xs, r) → r.length < inp.length := by
  intro fuel
  induction fuel with
  | zero => intro inp acc xs r h; simp [parseElems] at h
  | succ fuel ih =>
    intro inp acc xs r h
    rw [parseElems] at h
    cases hv : pv inp with
    | none => simp [hv] at h
    | some p =>
      obtain ⟨v, r0⟩ := p
      have h0 := hpv inp v r0 hv
      have hs := skipSpace_length_le r0
      simp only [hv] at h
      cases hk : skipSpace r0 with
      | nil => simp [hk] at h
      | cons c r1 =>
        rw [hk] at hs
        simp only [List.length_cons] at hs
        simp only [hk] at h
        split_ifs at h
        · have := ih r1 _ xs r h
          omega
        · simp only [Option.some.injEq, Prod.mk.injEq] at h
          obtain ⟨-, rfl⟩ := h
          omega

theorem parseMembers_length_lt (pv : Bytes → Option (JVal × Bytes)) (hpv : Consumes pv) :
    ∀ (fuel : Nat) (inp : Bytes) (acc kvs : List (Bytes × JVal)) (r : Bytes),
    parseMembers pv fuel inp acc = some (kvs, r) → r.length < inp.length := by
  intro fuel
  induction fuel with
  | zero => intro inp acc kvs r h; simp [parseMembers] at h
  | succ fuel ih =>
    intro inp acc kvs r h
    rw [parseMembers] at h
    have hs0 := skipSpace_length_le inp
    cases hk0 : skipSpace inp with
    | nil => simp [hk0] at h
    | cons q r0 =>
      rw [hk0] at hs0
      simp only [List.length_cons] at hs0
      simp only [hk0] at h
      split_ifs at h
      cases hstr : scanString r0 with
      | none => simp [hstr] at h
      | some p =>
        obtain ⟨key, r1⟩ := p
        have h1 := scanString_length_lt r0 key r1 hstr
        have hs1 := skipSpace_length_le r1
        simp only [hstr] at h
        cases hk1 : skipSpace r1 with
        | nil => simp [hk1] at h
        | cons col r2 =>
          rw [hk1] at hs1
          simp only [List.length_cons] at hs1
          simp only [hk1] at h
          split_ifs at h
          cases hv : pv r2 with
          | none => simp [hv] at h
          | some p2 =>
            obtain ⟨v, r3⟩ := p2
            have h3 := hpv r2 v r3 hv
            have hs3 := skipSpace_length_le r3
            simp only [hv] at h
            cases hk3 : skipSpace r3 with
            | nil => simp [hk3] at h
            | cons c r4 =>
              rw [hk3] at hs3
              simp only [List.length_cons] at hs3
              simp only [hk3] at h
              split_ifs at h
              · have := ih r4 _ kvs r h
                omega
              · simp only [Option.some.injEq, Prod.mk.injEq] at h
                obtain ⟨-, rfl⟩ := h
                omega

/-- The budget of the element loop is never used up: any budget of at least the length of
the input gives the same result. -/
theorem parseElems_budget (pv : Bytes → Option (JVal × Bytes)) (hpv : Consumes pv) :
    ∀ (f1 f2 : Nat) (inp : Bytes) (acc : List JVal), inp.length ≤ f1 → inp.length ≤ f2 →
    parseElems pv f1 inp acc = parseElems pv f2 inp acc := by
  have hnil : ∀ (f : Nat) (acc : List JVal), parseElems pv f [] acc = none := by
    intro f acc
    cases f with
    | zero => rfl
    | succ f =>
      rw [parseElems]
      cases hv : pv [] with
      | none => rfl
      | some p =>
        have := hpv [] p.1 p.2 hv
        simp at this
  intro f1
  induction f1 with
  | zero =>
    intro f2 inp acc h1 _
    have : inp = [] := List.eq_nil_of_length_eq_zero (by omega)
    subst this
    rw [hnil, hnil]
  | succ f1 ih =>
    intro f2 inp acc h1 h2
    cases f2 with
    | zero =>
      have : inp = [] := List.eq_nil_of_length_eq_zero (by omega)
      subst this
      rw [hnil, hnil]
    | succ f2 =>
      rw [parseElems, parseElems]
      cases hv : pv inp with
      | none => rfl
      | some p =>
        obtain ⟨v, r0⟩ := p
        have h0 := hpv inp v r0 hv
        have hs := skipSpace_length_le r0
        simp only
        cases hk : skipSpace r0 with
        | nil => rfl
        | cons c r1 =>
          rw [hk] at hs
          simp only [List.length_cons] at hs
          simp only
          split_ifs
          · exact ih f2 r1 _ (by omega) (by omega)
          · rfl
          · rfl

/-- The budget of the member loop is never used up: any budget of at least the length of
the input gives the same result. -/
theorem parseMembers_budget (pv : Bytes → Option (JVal × Bytes)) (hpv : Consumes pv) :
    ∀ (f1 f2 : Nat) (inp : Bytes) (acc : List (Bytes × JVal)), inp.length ≤ f1 →
    inp.length ≤ f2 → parseMembers pv f1 inp acc = parseMembers pv f2 inp acc := by
  have hnil : ∀ (f : Nat) (acc : List (Bytes × JVal)), parseMembers pv f [] acc = none := by
    intro f acc
    cases f with
    | zero => rfl
    | succ f => rw [parseMembers]; rfl
  intro f1
  induction f1 with
  | zero =>
    intro f2 inp acc h1 _
    have : inp = [] := List.eq_nil_of_length_eq_zero (by omega)
    subst this
    rw [hnil, hnil]
  | succ f1 ih =>
    intro f2 inp acc h1 h2
    cases f2 with
    | zero =>
      have : inp = [] := List.eq_nil_of_length_eq_zero (by omega)
      subst this
      rw [hnil, hnil]
    | succ f2 =>
      rw [parseMembers, parseMembers]
      have hs0 := skipSpace_length_le inp
      cases hk0 : skipSpace inp with
      | nil => rfl
      | cons q r0 =>
        rw [hk0] at hs0
        simp only [List.length_cons] at hs0
        simp only
        split_ifs
        · cases hstr : scanString r0 with
          | none => rfl
          | some p =>
            obtain ⟨key, r1⟩ := p
            have h1a := scanString_length_lt r0 key r1 hstr
            have hs1 := skipSpace_length_le r1
            simp only
            cases hk1 : skipSpace r1 with
            | nil => rfl
            | cons col r2 =>
              rw [hk1] at hs1
              simp only [List.length_cons] at hs1
              simp only
              split_ifs
              · cases hv : pv r2 with
                | none => rfl
                | some p2 =>
                  obtain ⟨v, r3⟩ := p2
                  have h3 := hpv r2 v r3 hv
                  have hs3 := skipSpace_length_le r3
                  simp only
                  cases hk3 : skipSpace r3 with
                  | nil => rfl
                  | cons c r4 =>
                    rw [hk3] at hs3
                    simp only [List.length_cons] at hs3
                    simp only
                    split_ifs
                    · exact ih f2 r4 _ (by omega) (by omega)
                    · rfl
                    · rfl
              · rfl
        · rfl
theorem parseValueWith_consumes (sub : Option (Bytes → Option (JVal × Bytes)))
    (hsub : ∀ pv, sub = some pv → Consumes pv) : Consumes (parseValueWith sub) := by
  intro x v r h
  unfold parseValueWith at h
  have hs := skipSpace_length_le x
  cases hk : skipSpace x with
  | nil => simp [hk] at h
  | cons c rest =>
    rw [hk] at hs
    simp only [List.length_cons] at hs
    simp only [hk] at h
    by_cases h123 : c = 123
    · simp only [h123, if_true] at h
      cases sub with
      | none => simp at h
      | some pv =>
        have hpv := hsub pv rfl
        simp only at h
        have hs1 := skipSpace_length_le rest
        cases hk1 : skipSpace rest with
        | nil => simp [hk1] at h
        | cons c1 rest1 =>
          rw [hk1] at hs1
          simp only [List.length_cons] at hs1
          simp only [hk1] at h
          split_ifs at h
          · simp only [Option.some.injEq, Prod.mk.injEq] at h
            obtain ⟨-, rfl⟩ := h
            omega
          · cases hm : parseMembers pv rest.length rest [] with
            | none => simp [hm] at h
            | some p =>
              obtain ⟨kvs, r1⟩ := p
              have := parseMembers_length_lt pv hpv _ _ _ _ _ hm
              simp only [hm, Option.some.injEq, Prod.mk.injEq] at h
              obtain ⟨-, rfl⟩ := h
              omega
    · simp only [h123, if_false] at h
      by_cases h91 : c = 91
      · simp only [h91, if_true] at h
        cases sub with
        | none => simp at h
        | some pv =>
          have hpv := hsub pv rfl
          simp only at h
          have hs1 := skipSpace_length_le rest
          cases hk1 : skipSpace rest with
          | nil => simp [hk1] at h
          | cons c1 rest1 =>
            rw [hk1] at hs1
            simp only [List.length_cons] at hs1
            simp only [hk1] at h
            split_ifs at h
            · simp only [Option.some.injEq, Prod.mk.injEq] at h
              obtain ⟨-, rfl⟩ := h
              omega
            · cases hm : parseElems pv rest.length rest [] with
              | none => simp [hm] at h
              | some p =>
                obtain ⟨xs, r1⟩ := p
                have := parseElems_length_lt pv hpv _ _ _ _ _ hm
                simp only [hm, Option.some.injEq, Prod.mk.injEq] at h
                obtain ⟨-, rfl⟩ := h
                omega
      · simp only [h91, if_false] at h
        by_cases h34 : c = 34
        · simp only [h34, if_true] at h
          cases hstr : scanString rest with
          | none => simp [hstr] at h
          | some p =>
            obtain ⟨body, r1⟩ := p
            have := scanString_length_lt rest body r1 hstr
            simp only [hstr, Option.some.injEq, Prod.mk.injEq] at h
            obtain ⟨-, rfl⟩ := h
            omega
        · simp only [h34, if_false] at h
          have hlit : ∀ (lit : Bytes) (w : JVal), 2 ≤ lit.length →
              (scanLiteral lit (c :: rest)).map (fun r => (w, r)) = some (v, r) →
              r.length < x.length := by
            intro lit w hl hm
            cases hsl : scanLiteral lit (c :: rest) with
            | none => simp [hsl] at hm
            | some r1 =>
              simp only [hsl, Option.map_some', Option.some.injEq, Prod.mk.injEq] at hm
              obtain ⟨-, rfl⟩ := hm
              unfold scanLiteral at hsl
              split_ifs at hsl
              simp only [Option.some.injEq] at hsl
              subst hsl
              simp only [List.length_drop, List.length_cons]
              omega
          split_ifs at h
          · exact hlit _ _ (by decide) h
          · exact hlit _ _ (by decide) h
          · exact hlit _ _ (by decide) h
          · cases hn : scanNumber (c :: rest) with
            | none => simp [hn] at h
            | some p =>
              obtain ⟨lit, r1⟩ := p
              have := scanNumber_length_lt _ _ _ hn
              simp only [List.length_cons] at this
              simp only [hn, Option.some.injEq, Prod.mk.injEq] at h
              obtain ⟨-, rfl⟩ := h
              omega

/-- Reading a value uses up at least one byte. -/
theorem parseValue_consumes : ∀ depth : Nat, Consumes (parseValue depth)
  | 0 => by
    intro x v r h
    rw [parseValue] at h
    exact parseValueWith_consumes none (by simp) x v r h
  | depth + 1 => by
    intro x v r h
    rw [parseValue] at h
    refine parseValueWith_consumes _ ?_ x v r h
    intro pv hpv
    simp only [Option.some.injEq] at hpv
    subst hpv
    exact fun x v r h => parseValue_consumes depth x v r h

/-- The budgets the scanner gives its array and object loops, the length of the input, are
never used up: a larger budget gives the same result, at every nesting depth. -/
theorem parse_loops_budget (depth extra : Nat) (inp : Bytes) :
    (∀ acc, parseElems (fun x => parseValue depth x) (inp.length + extra) inp acc =
      parseElems (fun x => parseValue depth x) inp.length inp acc) ∧
    (∀ acc, parseMembers (fun x => parseValue depth x) (inp.length + extra) inp acc =
      parseMembers (fun x => parseValue depth x) inp.length inp acc) := by
  have hc : Consumes (fun x => parseValue depth x) :=
    fun x v r h => parseValue_consumes depth x v r h
  exact ⟨fun acc => parseElems_budget _ hc _ _ inp acc (by omega) (le_refl _),
    fun acc => parseMembers_budget _ hc _ _ inp acc (by omega) (le_refl _)⟩
theorem unquoteStep_length_le (c : Byte) (rest out r : Bytes)
    (h : unquoteStep c rest = some (out, r)) : r.length ≤ rest.length := by
  unfold unquoteStep at h
  by_cases h92 : c = 92
  · simp only [h92, if_true] at h
    cases rest with
    | nil => simp at h
    | cons e rest1 =>
      simp only at h
      split_ifs at h
      all_goals first
        | (simp only [Option.some.injEq, Prod.mk.injEq] at h
           obtain ⟨-, rfl⟩ := h
           simp only [List.length_cons]
           omega)
        | skip
      cases hg : getu4 (92 :: e :: rest1) with
      | none => simp [hg] at h
      | some rr =>
        simp only [hg] at h
        split_ifs at h
        · cases hg1 : getu4 (List.drop 4 rest1) with
          | none =>
            simp only [hg1, Option.some.injEq, Prod.mk.injEq] at h
            obtain ⟨-, rfl⟩ := h
            simp only [List.length_drop, List.length_cons]
            omega
          | some rr1 =>
            simp only [hg1] at h
            split_ifs at h <;>
              (simp only [Option.some.injEq, Prod.mk.injEq] at h
               obtain ⟨-, rfl⟩ := h
               simp only [List.length_drop, List.length_cons]
               omega)
        · simp only [Option.some.injEq, Prod.mk.injEq] at h
          obtain ⟨-, rfl⟩ := h
          simp only [List.length_drop, List.length_cons]
          omega
  · simp only [h92, if_false] at h
    split_ifs at h
    · simp only [Option.some.injEq, Prod.mk.injEq] at h
      obtain ⟨-, rfl⟩ := h
      exact le_refl _
    · simp only [Option.some.injEq, Prod.mk.injEq] at h
      obtain ⟨-, rfl⟩ := h
      have := decodeRune_size_pos c rest
      simp only [List.length_drop, List.length_cons]
      omega

/-- The budget of the loop of `unquote` is never used up: any budget of at least the length
of the input gives the same result. -/
theorem unquoteLoop_budget : ∀ (f1 f2 : Nat) (raw : Bytes), raw.length ≤ f1 → raw.length ≤ f2 →
    unquoteLoop f1 raw = unquoteLoop f2 raw := by
  intro f1
  induction f1 with
  | zero =>
    intro f2 raw h1 _
    have : raw = [] := List.eq_nil_of_length_eq_zero (by omega)
    subst this
    rw [unquoteLoop, unquoteLoop]
  | succ f1 ih =>
    intro f2 raw h1 h2
    cases raw with
    | nil => rw [unquoteLoop, unquoteLoop]
    | cons c rest =>
      simp only [List.length_cons] at h1 h2
      obtain ⟨g2, rfl⟩ : ∃ g2, f2 = g2 + 1 := ⟨f2 - 1, by omega⟩
      rw [unquoteLoop, unquoteLoop]
      cases hs : unquoteStep c rest with
      | none => rfl
      | some p =>
        obtain ⟨out, r⟩ := p
        have := unquoteStep_length_le c rest out r hs
        simp only
        rw [ih g2 r (by omega) (by omega)]

/-- The budget of the loop that writes a JSON string is never used up. -/
theorem appendStringLoop_budget : ∀ (f1 f2 : Nat) (s : Bytes), s.length ≤ f1 → s.length ≤ f2 →
    appendStringLoop f1 s = appendStringLoop f2 s := by
  intro f1
  induction f1 with
  | zero =>
    intro f2 s h1 _
    have : s = [] := List.eq_nil_of_length_eq_zero (by omega)
    subst this
    cases f2 <;> simp [appendStringLoop]
  | succ f1 ih =>
    intro f2 s h1 h2
    cases s with
    | nil => cases f2 <;> simp [appendStringLoop]
    | cons b rest =>
      simp only [List.length_cons] at h1 h2
      obtain ⟨g2, rfl⟩ : ∃ g2, f2 = g2 + 1 := ⟨f2 - 1, by omega⟩
      have hpos := decodeRune_size_pos b rest
      have hd : ((b :: rest).drop (decodeRune (b :: rest)).2).length ≤ rest.length := by
        simp only [List.length_drop, List.length_cons]
        omega
      simp only [appendStringLoop]
      rw [ih g2 rest (by omega) (by omega), ih g2 _ (by omega) (by omega)]

/-- The budget of the loop of `foldName` is never used up. -/
theorem foldNameLoop_budget : ∀ (f1 f2 : Nat) (s : Bytes), s.length ≤ f1 → s.length ≤ f2 →
    foldNameLoop f1 s = foldNameLoop f2 s := by
  intro f1
  induction f1 with
  | zero =>
    intro f2 s h1 _
    have : s = [] := List.eq_nil_of_length_eq_zero (by omega)
    subst this
    cases f2 <;> simp [foldNameLoop]
  | succ f1 ih =>
    intro f2 s h1 h2
    cases s with
    | nil => cases f2 <;> simp [foldNameLoop]
    | cons b rest =>
      simp only [List.length_cons] at h1 h2
      obtain ⟨g2, rfl⟩ : ∃ g2, f2 = g2 + 1 := ⟨f2 - 1, by omega⟩
      have hpos := decodeRune_size_pos b rest
      have hd : ((b :: rest).drop (decodeRune (b :: rest)).2).length ≤ rest.length := by
        simp only [List.length_drop, List.length_cons]
        omega
      simp only [foldNameLoop]
      rw [ih g2 rest (by omega) (by omega), ih g2 _ (by omega) (by omega)]

/-- The budget of the digit loop of `formatUint` is never used up. -/
theorem formatUintLoop_budget : ∀ (f1 f2 n : Nat) (acc : Bytes), n < f1 → n < f2 →
    formatUintLoop f1 n acc = formatUintLoop f2 n acc := by
  intro f1
  induction f1 with
  | zero => intro f2 n acc h1 _; omega
  | succ f1 ih =>
    intro f2 n acc h1 h2
    obtain ⟨g2, rfl⟩ : ∃ g2, f2 = g2 + 1 := ⟨f2 - 1, by omega⟩
    simp only [formatUintLoop]
    split_ifs with hn
    · rfl
    · exact ih g2 (n / 10) _ (by omega) (by omega)

end Celestiabox
